import Mathlib

/-!
DenseBins: the counting-sort binning engine of Src/Particle/AMReX_DenseBins.H.

A shallow embedding of `amrex::DenseBins<T>` and of its `build` overloads.

* `Gpu::DeviceVector<index_type>` is a `List Nat`; every value stored in one is
  an `unsigned int`, so each store and each unsigned operation goes through
  `to_index_type` (reduction modulo `2^32`).
* An access outside an array is undefined behaviour in the source; here it makes
  the operation return `none`.
* `int` loop counters and sizes are natural numbers (the loops only count up
  from `0`).
* The `#pragma omp parallel for` loops write disjoint locations in distinct
  iterations; they are embedded as the loops they annotate, iterations taken in
  ascending order.
* The two kernels of the GPU overload are embedded as their tasks taking effect one
  after the other, in an order that is a parameter of the build: a task touches shared
  memory only through its atomic operation, so an execution is determined by the order
  of these.
* `Box`, `Dim3`, `BinIterator`, `Gpu::exclusive_scan`, `Gpu::copy`, `Gpu::Atomic` and
  `amrex::ParallelFor` are declared in headers that are not among the sources.
-/

namespace amrex

/-! ## Data model -/

/-- Number of values of `index_type` (`unsigned int`). -/
def index_type_size : Nat := 2 ^ 32

/-- Conversion to `index_type`: unsigned arithmetic is modulo `2^32`. -/
def to_index_type (n : Nat) : Nat := n % index_type_size

/-- The largest value of an `int`, `2^31 - 1`. -/
def INT_MAX : Nat := 2 ^ 31 - 1

/-- Conversion of a `Long` to `int`, as where `bx.numPts()` is passed for the parameter
`int nbins` (lines 158, 261, 400): the value modulo `2^32`, taken in `[-2^31, 2^31)`. -/
def long_to_int (z : Int) : Int := (z + 2 ^ 31) % 2 ^ 32 - 2 ^ 31

/-- The private members of `DenseBins<T>` (lines 502-507). -/
structure DenseBins (T : Type) where
  m_items : List T
  m_bins : List Nat
  m_counts : List Nat
  m_offsets : List Nat
  m_perm : List Nat

/-- The call `vec.resize(n)`: the first `n` elements are kept; an element that is
new has an unspecified value, `junk k` for slot `k`. -/
def resize (junk : Nat → Nat) (vec : List Nat) (n : Nat) : List Nat :=
  vec.take n ++ (List.range' vec.length (n - vec.length)).map junk

/-- The call `vec.resize(n, val)`: new elements are copies of `val`. -/
def resize_val (vec : List Nat) (n : Nat) (val : Nat) : List Nat :=
  vec.take n ++ List.replicate (n - vec.length) val

/-- The assignment `vec[i] = x`, checked against the size of `vec`. -/
def store (vec : List Nat) (i x : Nat) : Option (List Nat) :=
  if i < vec.length then some (vec.set i x) else none

/-- Modelled from the spec: the running sums of `Gpu::exclusive_scan` (see
`exclusive_scan`), `acc` being the sum of the entries that came before. -/
def exclusive_scan_from (acc : Nat) : List Nat → List Nat
  | [] => []
  | c :: cs => acc :: exclusive_scan_from (to_index_type (acc + c)) cs

/-- Modelled from the spec: `Gpu::exclusive_scan(begin, end, out)` is declared in
a header that is not among the sources; the spec calls it the exclusive prefix sum of
`counts` (length M+1) into `offsets`: `out[k] = in[0] + ... + in[k-1]` in
`index_type` arithmetic, written over the first `end - begin` slots of `out`. The
Worker-Parallel overload fills `m_offsets` with the same sums by the loop of lines
345-346. -/
def exclusive_scan (input out : List Nat) : Option (List Nat) :=
  if input.length ≤ out.length then
    some (exclusive_scan_from 0 input ++ out.drop input.length)
  else none

/-- Modelled from the spec: `Gpu::copy(deviceToDevice, begin, end, dst)` is declared
in a header that is not among the sources; the spec says it copies `offsets` back into
`counts`: the source range is written over the first `end - begin` slots of `dst`. -/
def copy (src dst : List Nat) : Option (List Nat) :=
  if src.length ≤ dst.length then some (src ++ dst.drop src.length) else none

/-- The accessor `numItems()` (line 471): `m_perm.size()`, returned as a `Long`. -/
def DenseBins.numItems {T : Type} (self : DenseBins T) : Int := (self.m_perm.length : Int)

/-- The accessor `numBins()` (line 474): `m_offsets.size()-1`, returned as a `Long`. -/
def DenseBins.numBins {T : Type} (self : DenseBins T) : Int :=
  (self.m_offsets.length : Int) - 1

/-- Body of the first loop (lines 453-456):
`m_bins[i] = f(v[i]); ++m_counts[m_bins[i]];`. -/
def serialHistStep {T : Type} (v : List T) (f : T → Nat) (self : DenseBins T) (i : Nat) :
    Option (DenseBins T) := do
  let x ← v[i]?
  let bins ← store self.m_bins i (to_index_type (f x))
  let b ← bins[i]?
  let c ← self.m_counts[b]?
  let counts ← store self.m_counts b (to_index_type (c + 1))
  some { self with m_bins := bins, m_counts := counts }

/-- Body of the second loop (lines 462-465):
`index_type index = m_counts[m_bins[i]]++; m_perm[index] = i;`. -/
def serialScatterStep {T : Type} (self : DenseBins T) (i : Nat) : Option (DenseBins T) := do
  let b ← self.m_bins[i]?
  let index ← self.m_counts[b]?
  let counts ← store self.m_counts b (to_index_type (index + 1))
  let perm ← store self.m_perm index (to_index_type i)
  some { self with m_counts := counts, m_perm := perm }

/-- The overload `build (BinPolicy::SerialBinPolicy, N nitems, T const* v, int nbins, F&& f)`.
`self` is the engine before the call. -/
def build_Serial {T : Type} (junk : Nat → Nat) (self : DenseBins T) (nitems : Nat) (v : List T)
    (nbins : Nat) (f : T → Nat) : Option (DenseBins T) := do
  let s0 : DenseBins T :=
    { m_items := v
      m_bins := resize junk self.m_bins nitems
      m_perm := resize junk self.m_perm nitems
      m_counts := resize_val (resize junk self.m_counts 0) (nbins + 1) 0
      m_offsets := resize junk (resize junk self.m_offsets 0) (nbins + 1) }
  let s1 ← (List.range nitems).foldlM (serialHistStep v f) s0
  let offsets ← exclusive_scan s1.m_counts s1.m_offsets
  let s2 : DenseBins T := { s1 with m_offsets := offsets }
  let counts ← copy s2.m_offsets s2.m_counts
  let s3 : DenseBins T := { s2 with m_counts := counts }
  (List.range nitems).foldlM serialScatterStep s3


/-- Lines 442-451 of `build(Serial, ...)`: the engine when the first loop starts. -/
def serialInit {T : Type} (junk : Nat → Nat) (self : DenseBins T) (nitems : Nat) (v : List T)
    (nbins : Nat) : DenseBins T :=
  { m_items := v
    m_bins := resize junk self.m_bins nitems
    m_perm := resize junk self.m_perm nitems
    m_counts := resize_val (resize junk self.m_counts 0) (nbins + 1) 0
    m_offsets := resize junk (resize junk self.m_offsets 0) (nbins + 1) }

/-- Lines 442-456 of `build(Serial, ...)`: the engine after the first loop. -/
def serialAfterHist {T : Type} (junk : Nat → Nat) (self : DenseBins T) (nitems : Nat)
    (v : List T) (nbins : Nat) (f : T → Nat) : Option (DenseBins T) :=
  (List.range nitems).foldlM (serialHistStep v f) (serialInit junk self nitems v nbins)

/-- Lines 442-460 of `build(Serial, ...)`: the engine when the second loop starts. -/
def serialBeforeScatter {T : Type} (junk : Nat → Nat) (self : DenseBins T) (nitems : Nat)
    (v : List T) (nbins : Nat) (f : T → Nat) : Option (DenseBins T) := do
  let s1 ← (List.range nitems).foldlM (serialHistStep v f) (serialInit junk self nitems v nbins)
  let offsets ← exclusive_scan s1.m_counts s1.m_offsets
  let s2 : DenseBins T := { s1 with m_offsets := offsets }
  let counts ← copy s2.m_offsets s2.m_counts
  some { s2 with m_counts := counts }

/-- Lines 442-451 of `build(Serial, ...)` and lines 199-207 of `build(GPU, ...)`, which
are the same: the engine when the first loop starts, `m_counts` and `m_offsets` resized
to `size` entries, the value of `nbins+1` as a size. -/
def initSize {T : Type} (junk : Nat → Nat) (self : DenseBins T) (nitems : Nat) (v : List T)
    (size : Nat) : DenseBins T :=
  { m_items := v
    m_bins := resize junk self.m_bins nitems
    m_perm := resize junk self.m_perm nitems
    m_counts := resize_val (resize junk self.m_counts 0) size 0
    m_offsets := resize junk (resize junk self.m_offsets 0) size }

/-- Lines 453-465 of `build(Serial, ...)`: the first loop, the scan, the copy and the
second loop, from the engine `s0`. -/
def serialPasses {T : Type} (nitems : Nat) (v : List T) (f : T → Nat) (s0 : DenseBins T) :
    Option (DenseBins T) := do
  let s1 ← (List.range nitems).foldlM (serialHistStep v f) s0
  let offsets ← exclusive_scan s1.m_counts s1.m_offsets
  let s2 : DenseBins T := { s1 with m_offsets := offsets }
  let counts ← copy s2.m_offsets s2.m_counts
  let s3 : DenseBins T := { s2 with m_counts := counts }
  (List.range nitems).foldlM serialScatterStep s3

/-- The overload `build (BinPolicy::SerialBinPolicy, N nitems, T const* v, int nbins, F&& f)`
on an `int nbins` of any sign, as the `Box` overload may pass it. The sum `nbins+1` of
lines 448 and 451 is an `int` sum, undefined for `nbins = INT_MAX`; a negative `nbins+1`
converts to a size of at least `2^64 - 2^31` entries, which no vector holds; for
`nbins = -1` both vectors get `0` entries; for `0 <= nbins` the call is `build_Serial`. -/
def build_Serial_int {T : Type} (junk : Nat → Nat) (self : DenseBins T) (nitems : Nat)
    (v : List T) (nbins : Int) (f : T → Nat) : Option (DenseBins T) :=
  if (INT_MAX : Int) < nbins + 1 then none
  else if nbins + 1 < 0 then none
  else if 0 ≤ nbins then build_Serial junk self nitems v nbins.toNat f
  else serialPasses nitems v f (initSize junk self nitems v 0)

/-! ## Worker-Parallel backend (lines 298-370) -/

/-- The engine together with the local array `counts` of `nchunks*nbins` entries that
`build(OpenMP, ...)` takes from the arena (line 310). -/
structure OmpState (T : Type) where
  self : DenseBins T
  counts : List Nat

/-- The indices `i` of `for (int i = istart; i < istop; ++i)` in chunk `j` (lines 323-325
and 361-363): `istart = j*chunksize`,
`istop = (j == nchunks-1) ? nitems : (j+1)*chunksize`. -/
def chunkItems (nitems nchunks chunksize j : Nat) : List Nat :=
  let istart := j * chunksize
  let istop := if j = nchunks - 1 then nitems else (j + 1) * chunksize
  List.range' istart (istop - istart)

/-- Line 311: `counts[i] = 0`. -/
def ompZeroStep (counts : List Nat) (i : Nat) : Option (List Nat) :=
  store counts i 0

/-- Lines 326-327: `m_bins[i] = f(v[i]); ++counts[nbins*j+m_bins[i]];`. The index is
an `int` plus an `index_type`, hence an `index_type`. -/
def ompHistStep {T : Type} (v : List T) (f : T → Nat) (nbins j : Nat) (st : OmpState T)
    (i : Nat) : Option (OmpState T) := do
  let x ← v[i]?
  let bins ← store st.self.m_bins i (to_index_type (f x))
  let b ← bins[i]?
  let c ← st.counts[to_index_type (nbins * j + b)]?
  let counts ← store st.counts (to_index_type (nbins * j + b)) (to_index_type (c + 1))
  some { self := { st.self with m_bins := bins }, counts := counts }

/-- Lines 337-339, the local array and `total`:
`auto tmp = counts[nbins*j+i]; counts[nbins*j+i] = total; total += tmp;`. -/
def ompTotalStep (nbins i : Nat) (acc : List Nat × Nat) (j : Nat) :
    Option (List Nat × Nat) := do
  let tmp ← acc.1[nbins * j + i]?
  let counts ← store acc.1 (nbins * j + i) acc.2
  some (counts, to_index_type (acc.2 + tmp))

/-- Lines 335-341, one bin `i`: `total = 0`, the loop over the chunks, then
`m_counts[i] = total`. -/
def ompTotalBin {T : Type} (nbins nchunks : Nat) (st : OmpState T) (i : Nat) :
    Option (OmpState T) := do
  let acc ← (List.range nchunks).foldlM (ompTotalStep nbins i) (st.counts, 0)
  let m_counts ← store st.self.m_counts i acc.2
  some { self := { st.self with m_counts := m_counts }, counts := acc.1 }

/-- Line 346: `m_offsets[i+1] = m_offsets[i] + m_counts[i];`. -/
def ompOffsetsStep {T : Type} (self : DenseBins T) (i : Nat) : Option (DenseBins T) := do
  let o ← self.m_offsets[i]?
  let c ← self.m_counts[i]?
  let offsets ← store self.m_offsets (i + 1) (to_index_type (o + c))
  some { self with m_offsets := offsets }

/-- Line 353: `counts[nbins*j+i] += m_offsets[i];`. -/
def ompShiftStep (nbins i : Nat) (offsets counts : List Nat) (j : Nat) :
    Option (List Nat) := do
  let c ← counts[nbins * j + i]?
  let o ← offsets[i]?
  store counts (nbins * j + i) (to_index_type (c + o))

/-- Lines 351-355, one bin `i`. -/
def ompShiftBin {T : Type} (nbins nchunks : Nat) (st : OmpState T) (i : Nat) :
    Option (OmpState T) := do
  let counts ← (List.range nchunks).foldlM (ompShiftStep nbins i st.self.m_offsets) st.counts
  some { st with counts := counts }

/-- Lines 364-365: `auto bid = m_bins[i]; m_perm[counts[nbins*j+bid]++] = i;`. -/
def ompScatterStep {T : Type} (nbins j : Nat) (st : OmpState T) (i : Nat) :
    Option (OmpState T) := do
  let bid ← st.self.m_bins[i]?
  let c ← st.counts[to_index_type (nbins * j + bid)]?
  let counts ← store st.counts (to_index_type (nbins * j + bid)) (to_index_type (c + 1))
  let perm ← store st.self.m_perm c (to_index_type i)
  some { self := { st.self with m_perm := perm }, counts := counts }

/-- The overload `build (BinPolicy::OpenMPBinPolicy, N nitems, T const* v, int nbins, F&& f)`.
`max_threads` is the value of `OpenMP::get_max_threads()`; `self` is the engine before
the call. The division `nitems / nchunks` is undefined for `nchunks = 0`. The local
array is freed at the end, so only the engine is returned. -/
def build_OpenMP {T : Type} (junk : Nat → Nat) (max_threads : Nat) (self : DenseBins T)
    (nitems : Nat) (v : List T) (nbins : Nat) (f : T → Nat) : Option (DenseBins T) := do
  let bins := resize junk self.m_bins nitems
  let perm := resize junk self.m_perm nitems
  let nchunks := max_threads
  if nchunks = 0 then none
  let chunksize := nitems / nchunks
  let counts ← (List.range (nbins * nchunks)).foldlM ompZeroStep
    (resize junk [] (nchunks * nbins))
  let s0 : DenseBins T :=
    { m_items := v
      m_bins := bins
      m_perm := perm
      m_counts := resize_val (resize junk self.m_counts 0) (nbins + 1) 0
      m_offsets := resize junk (resize junk self.m_offsets 0) (nbins + 1) }
  let st1 ← (List.range nchunks).foldlM
    (fun st j => (chunkItems nitems nchunks chunksize j).foldlM (ompHistStep v f nbins j) st)
    { self := s0, counts := counts }
  let st2 ← (List.range nbins).foldlM (ompTotalBin nbins nchunks) st1
  let offsets0 ← store st2.self.m_offsets 0 0
  let s3 ← (List.range nbins).foldlM ompOffsetsStep { st2.self with m_offsets := offsets0 }
  let st4 ← (List.range nbins).foldlM (ompShiftBin nbins nchunks) { st2 with self := s3 }
  let st5 ← (List.range nchunks).foldlM
    (fun st j => (chunkItems nitems nchunks chunksize j).foldlM (ompScatterStep nbins j) st)
    st4
  some st5.self

/-- The overload `build (BinPolicy::OpenMPBinPolicy, N nitems, T const* v, int nbins, F&& f)`
on an `int nbins` of any sign, as the `Box` overload may pass it. The sum `nbins+1` of
lines 314 and 317 is undefined for `nbins = INT_MAX`; a negative `nbins+1` converts to a
size no vector holds; for `nbins = -1` the vector `m_offsets` has no entry and the store
`m_offsets[0] = 0` of line 345 is outside it; for `0 <= nbins` the call is
`build_OpenMP`. -/
def build_OpenMP_int {T : Type} (junk : Nat → Nat) (max_threads : Nat) (self : DenseBins T)
    (nitems : Nat) (v : List T) (nbins : Int) (f : T → Nat) : Option (DenseBins T) :=
  if (INT_MAX : Int) < nbins + 1 then none
  else if nbins < 0 then none
  else build_OpenMP junk max_threads self nitems v nbins.toNat f

/-- Lines 302-320 of `build(OpenMP, ...)`: the engine and the zeroed local array when the
histogram pass starts. -/
def ompInit {T : Type} (junk : Nat → Nat) (max_threads : Nat) (self : DenseBins T)
    (nitems : Nat) (v : List T) (nbins : Nat) : Option (OmpState T) := do
  if max_threads = 0 then none
  let counts ← (List.range (nbins * max_threads)).foldlM ompZeroStep
    (resize junk [] (max_threads * nbins))
  some
    { self :=
        { m_items := v
          m_bins := resize junk self.m_bins nitems
          m_perm := resize junk self.m_perm nitems
          m_counts := resize_val (resize junk self.m_counts 0) (nbins + 1) 0
          m_offsets := resize junk (resize junk self.m_offsets 0) (nbins + 1) }
      counts := counts }

/-- Lines 322-329 of `build(OpenMP, ...)`: the histogram pass over the chunks. -/
def ompHistPass {T : Type} (v : List T) (f : T → Nat) (nitems nchunks nbins : Nat)
    (st : OmpState T) : Option (OmpState T) :=
  (List.range nchunks).foldlM
    (fun st j =>
      (chunkItems nitems nchunks (nitems / nchunks) j).foldlM (ompHistStep v f nbins j) st)
    st

/-- Lines 331-355 of `build(OpenMP, ...)`: the per-bin prefix sums over the workers, the
offsets, and the shift of every local cursor by its bin's offset. -/
def ompPrefixPasses {T : Type} (nchunks nbins : Nat) (st1 : OmpState T) :
    Option (OmpState T) := do
  let st2 ← (List.range nbins).foldlM (ompTotalBin nbins nchunks) st1
  let offsets0 ← store st2.self.m_offsets 0 0
  let s3 ← (List.range nbins).foldlM ompOffsetsStep { st2.self with m_offsets := offsets0 }
  (List.range nbins).foldlM (ompShiftBin nbins nchunks) { st2 with self := s3 }

/-- Lines 357-367 of `build(OpenMP, ...)`: the scatter pass over the chunks. -/
def ompScatterPass {T : Type} (nitems nchunks nbins : Nat) (st : OmpState T) :
    Option (OmpState T) :=
  (List.range nchunks).foldlM
    (fun st j =>
      (chunkItems nitems nchunks (nitems / nchunks) j).foldlM (ompScatterStep nbins j) st)
    st

/-- Lines 302-355 of `build(OpenMP, ...)`: the engine and the local array just before the
scatter pass. -/
def ompBeforeScatter {T : Type} (junk : Nat → Nat) (max_threads : Nat) (self : DenseBins T)
    (nitems : Nat) (v : List T) (nbins : Nat) (f : T → Nat) : Option (OmpState T) := do
  let st0 ← ompInit junk max_threads self nitems v nbins
  let st1 ← ompHistPass v f nitems max_threads nbins st0
  ompPrefixPasses max_threads nbins st1

/-- The record of one step of the scatter pass: the worker, the item, the cursor
`counts[nbins*j+bid]` that the step reads before its increment, and the array `m_perm`
before and after the step. -/
structure ScatterWrite where
  worker : Nat
  item : Nat
  slot : Nat
  permBefore : List Nat
  permAfter : List Nat

/-- The scatter step of item `i` by worker `j` (lines 364-365), run as `ompScatterStep`,
together with its record, which is appended to the log: `m_perm` is read before and
after the step. -/
def ompScatterStepLogged {T : Type} (nbins j : Nat)
    (acc : OmpState T × List ScatterWrite) (i : Nat) :
    Option (OmpState T × List ScatterWrite) := do
  let bid ← acc.1.self.m_bins[i]?
  let c ← acc.1.counts[to_index_type (nbins * j + bid)]?
  let st ← ompScatterStep nbins j acc.1 i
  let record : ScatterWrite :=
    { worker := j
      item := i
      slot := c
      permBefore := acc.1.self.m_perm
      permAfter := st.self.m_perm }
  some (st, acc.2 ++ [record])

/-- Lines 357-367 of `build(OpenMP, ...)` together with the log of its steps. -/
def ompScatterPassLogged {T : Type} (nitems nchunks nbins : Nat) (st : OmpState T) :
    Option (OmpState T × List ScatterWrite) :=
  (List.range nchunks).foldlM
    (fun acc j =>
      (chunkItems nitems nchunks (nitems / nchunks) j).foldlM (ompScatterStepLogged nbins j)
        acc)
    (st, [])

/-! ## Massively-Parallel backend (lines 194-231) -/

/-- The constant `max_index` of line 223, `std::numeric_limits<index_type>::max()`. -/
def max_index : Nat := index_type_size - 1

/-- Modelled from the spec: `Gpu::Atomic::AddNoRet(&a[k], x)` is declared in a header that
is not among the sources; the spec says the task atomically increments `counts[bins[i]]`:
one indivisible `a[k] += x` in `index_type` arithmetic. -/
def Atomic_AddNoRet (a : List Nat) (k x : Nat) : Option (List Nat) := do
  let old ← a[k]?
  store a k (to_index_type (old + x))

/-- Modelled from the spec: `Gpu::Atomic::Inc(&a[k], max)` is declared in a header that is
not among the sources; the spec says the task atomically fetch-and-increments
`counts[bins[i]]` to obtain its slot: the old value is returned and the counter goes one
up, starting again from `0` once it has reached the bound `max` given by the caller. -/
def Atomic_Inc (a : List Nat) (k max : Nat) : Option (Nat × List Nat) := do
  let old ← a[k]?
  let a' ← store a k (if old < max then old + 1 else 0)
  some (old, a')

/-- Modelled from the spec: `amrex::ParallelFor(n, task)` is declared in a header that is
not among the sources; the spec has each task handle one item and the atomic operations
take effect in an unspecified arrival order. `order` lists the tasks `0, ..., n-1` in the
order in which they take effect; the host loop
`for (i = 0; i < n; ++i)` of `AMReX_GpuLaunch.H` (lines 349-355) is the order
`0, ..., n-1`. -/
def ParallelFor {σ : Type} (order : List Nat) (task : σ → Nat → Option σ) (st : σ) :
    Option σ :=
  order.foldlM task st

/-- Task `i` of the first kernel (lines 214-215):
`pbins[i] = f(v[i]); Gpu::Atomic::AddNoRet(&pcount[pbins[i]], index_type{ 1 });`. -/
def gpuHistTask {T : Type} (v : List T) (f : T → Nat) (self : DenseBins T) (i : Nat) :
    Option (DenseBins T) := do
  let x ← v[i]?
  let bins ← store self.m_bins i (to_index_type (f x))
  let b ← bins[i]?
  let counts ← Atomic_AddNoRet self.m_counts b 1
  some { self with m_bins := bins, m_counts := counts }

/-- Task `i` of the second kernel (lines 226-227):
`index_type index = Gpu::Atomic::Inc(&pcount[pbins[i]], max_index); pperm[index] = i;`. -/
def gpuScatterTask {T : Type} (self : DenseBins T) (i : Nat) : Option (DenseBins T) := do
  let b ← self.m_bins[i]?
  let r ← Atomic_Inc self.m_counts b max_index
  let perm ← store self.m_perm r.1 (to_index_type i)
  some { self with m_counts := r.2, m_perm := perm }

/-- The overload `build (BinPolicy::GPUBinPolicy, N nitems, T const* v, int nbins, F&& f)`.
`hist_order` and `scatter_order` are the orders in which the tasks of the two kernels
take effect; `self` is the engine before the call. `Gpu::Device::streamSynchronize()`
only waits for the kernels and changes no array. -/
def build_GPU {T : Type} (junk : Nat → Nat) (hist_order scatter_order : List Nat)
    (self : DenseBins T) (nitems : Nat) (v : List T) (nbins : Nat) (f : T → Nat) :
    Option (DenseBins T) := do
  let s0 : DenseBins T :=
    { m_items := v
      m_bins := resize junk self.m_bins nitems
      m_perm := resize junk self.m_perm nitems
      m_counts := resize_val (resize junk self.m_counts 0) (nbins + 1) 0
      m_offsets := resize junk (resize junk self.m_offsets 0) (nbins + 1) }
  let s1 ← ParallelFor hist_order (gpuHistTask v f) s0
  let offsets ← exclusive_scan s1.m_counts s1.m_offsets
  let s2 : DenseBins T := { s1 with m_offsets := offsets }
  let counts ← copy s2.m_offsets s2.m_counts
  let s3 : DenseBins T := { s2 with m_counts := counts }
  ParallelFor scatter_order gpuScatterTask s3

/-- Lines 209-228 of `build(GPU, ...)`: the two kernels with the scan and the copy
between them, from the engine `s0`. -/
def gpuPasses {T : Type} (hist_order scatter_order : List Nat) (v : List T) (f : T → Nat)
    (s0 : DenseBins T) : Option (DenseBins T) := do
  let s1 ← ParallelFor hist_order (gpuHistTask v f) s0
  let offsets ← exclusive_scan s1.m_counts s1.m_offsets
  let s2 : DenseBins T := { s1 with m_offsets := offsets }
  let counts ← copy s2.m_offsets s2.m_counts
  let s3 : DenseBins T := { s2 with m_counts := counts }
  ParallelFor scatter_order gpuScatterTask s3

/-- The overload `build (BinPolicy::GPUBinPolicy, N nitems, T const* v, int nbins, F&& f)`
on an `int nbins` of any sign, as the `Box` overload may pass it; the cases are those of
`build_Serial_int` (the sums `nbins+1` are at lines 204 and 207). -/
def build_GPU_int {T : Type} (junk : Nat → Nat) (hist_order scatter_order : List Nat)
    (self : DenseBins T) (nitems : Nat) (v : List T) (nbins : Int) (f : T → Nat) :
    Option (DenseBins T) :=
  if (INT_MAX : Int) < nbins + 1 then none
  else if nbins + 1 < 0 then none
  else if 0 ≤ nbins then build_GPU junk hist_order scatter_order self nitems v nbins.toNat f
  else gpuPasses hist_order scatter_order v f (initSize junk self nitems v 0)

/-! ## Policies and the overloads without a policy (lines 12-27, 76-129) -/

/-- The tag types of `namespace BinPolicy` (lines 14-16). -/
inductive BinPolicy where
  | GPU
  | OpenMP
  | Serial

/-- The constant `BinPolicy::Default` (lines 22-26): the GPU policy when `AMREX_USE_GPU` is
defined, the OpenMP policy otherwise. -/
def BinPolicy.Default (AMREX_USE_GPU : Bool) : BinPolicy :=
  if AMREX_USE_GPU then BinPolicy.GPU else BinPolicy.OpenMP

/-- Overload resolution of `build(policy, nitems, v, nbins, f)` on the tag. The
parameters before `self` describe the execution: unspecified memory, the task orders of
the two kernels and the value of `OpenMP::get_max_threads()`. -/
def build_with {T : Type} (policy : BinPolicy) (junk : Nat → Nat)
    (hist_order scatter_order : List Nat) (max_threads : Nat) (self : DenseBins T)
    (nitems : Nat) (v : List T) (nbins : Nat) (f : T → Nat) : Option (DenseBins T) :=
  match policy with
  | BinPolicy.GPU => build_GPU junk hist_order scatter_order self nitems v nbins f
  | BinPolicy.OpenMP => build_OpenMP junk max_threads self nitems v nbins f
  | BinPolicy.Serial => build_Serial junk self nitems v nbins f

/-- The overload `build (N nitems, T const* v, int nbins, F&& f)` (lines 125-129):
`build(BinPolicy::Default, nitems, v, nbins, std::forward<F>(f))`. -/
def build_default {T : Type} (AMREX_USE_GPU : Bool) (junk : Nat → Nat)
    (hist_order scatter_order : List Nat) (max_threads : Nat) (self : DenseBins T)
    (nitems : Nat) (v : List T) (nbins : Nat) (f : T → Nat) : Option (DenseBins T) :=
  build_with (BinPolicy.Default AMREX_USE_GPU) junk hist_order scatter_order max_threads
    self nitems v nbins f

/-! ## The overloads that take a `Box` (lines 153-171, 256-274, 395-413, 98-102) -/

/-- Modelled from the spec: `Dim3` is declared in a header that is not among the
sources; it is the triple of `int` coordinates `x`, `y`, `z` that `lbound`, `ubound` and
`IntVect::dim3` return. -/
structure Dim3 where
  x : Int
  y : Int
  z : Int

/-- Modelled from the spec: `Box` is declared in a header that is not among the sources;
the spec calls it a rectangular index range. It is given by its lower and upper corner. -/
structure Box where
  smallEnd : Dim3
  bigEnd : Dim3

/-- Modelled from the spec: `lbound(bx)`, the lower corner of the index range. -/
def lbound (bx : Box) : Dim3 := bx.smallEnd

/-- Modelled from the spec: `ubound(bx)`, the upper corner of the index range. -/
def ubound (bx : Box) : Dim3 := bx.bigEnd

/-- Modelled from the spec: `bx.numPts()`, the number of points of the index range, the
product of its three extents `hi-lo+1` (no points when an extent is not positive). -/
def Box.numPts (bx : Box) : Nat :=
  let nx := bx.bigEnd.x - bx.smallEnd.x + 1
  let ny := bx.bigEnd.y - bx.smallEnd.y + 1
  let nz := bx.bigEnd.z - bx.smallEnd.z + 1
  if 0 < nx ∧ 0 < ny ∧ 0 < nz then (nx * ny * nz).toNat else 0

/-- Conversion of an `int` to `index_type`: the value modulo `2^32`. -/
def int_to_index_type (z : Int) : Nat := (z % (index_type_size : Int)).toNat

/-- The lambda of the Sequential `Box` overload (lines 401-412). `f t` stands for
`f(t).dim3()`. The product and sum of line 411 mix `index_type` and `int`, so each `int`
is converted and each operation is an `index_type` operation. -/
def boxBin_Serial {T : Type} (bx : Box) (f : T → Dim3) (t : T) : Nat :=
  let lo := lbound bx
  let hi := ubound bx
  let iv3 := f t
  let nx : Int := hi.x - lo.x + 1
  let ny : Int := hi.y - lo.y + 1
  let nz : Int := hi.z - lo.z + 1
  let uix := int_to_index_type (min (nx - 1) (max 0 iv3.x))
  let uiy := int_to_index_type (min (ny - 1) (max 0 iv3.y))
  let uiz := int_to_index_type (min (nz - 1) (max 0 iv3.z))
  to_index_type (to_index_type (to_index_type (to_index_type
    (uix * int_to_index_type ny) + uiy) * int_to_index_type nz) + uiz)

/-- The lambda of the Worker-Parallel `Box` overload (lines 262-273). -/
def boxBin_OpenMP {T : Type} (bx : Box) (f : T → Dim3) (t : T) : Nat :=
  let lo := lbound bx
  let hi := ubound bx
  let iv3 := f t
  let nx : Int := hi.x - lo.x + 1
  let ny : Int := hi.y - lo.y + 1
  let nz : Int := hi.z - lo.z + 1
  let uix := int_to_index_type (min (nx - 1) (max 0 iv3.x))
  let uiy := int_to_index_type (min (ny - 1) (max 0 iv3.y))
  let uiz := int_to_index_type (min (nz - 1) (max 0 iv3.z))
  to_index_type (to_index_type (to_index_type (to_index_type
    (uix * int_to_index_type ny) + uiy) * int_to_index_type nz) + uiz)

/-- The lambda of the Massively-Parallel `Box` overload (lines 159-170). -/
def boxBin_GPU {T : Type} (bx : Box) (f : T → Dim3) (t : T) : Nat :=
  let lo := lbound bx
  let hi := ubound bx
  let iv3 := f t
  let nx : Int := hi.x - lo.x + 1
  let ny : Int := hi.y - lo.y + 1
  let nz : Int := hi.z - lo.z + 1
  let uix := int_to_index_type (min (nx - 1) (max 0 iv3.x))
  let uiy := int_to_index_type (min (ny - 1) (max 0 iv3.y))
  let uiz := int_to_index_type (min (nz - 1) (max 0 iv3.z))
  to_index_type (to_index_type (to_index_type (to_index_type
    (uix * int_to_index_type ny) + uiy) * int_to_index_type nz) + uiz)

/-- The overload `build (BinPolicy::SerialBinPolicy, N nitems, T const* v, const Box& bx,
F&& f)` (lines 395-413). The `Long` value of `bx.numPts()` is converted to the parameter
`int nbins` of the overload it calls (line 400). -/
def build_Serial_Box {T : Type} (junk : Nat → Nat) (self : DenseBins T) (nitems : Nat)
    (v : List T) (bx : Box) (f : T → Dim3) : Option (DenseBins T) :=
  build_Serial_int junk self nitems v (long_to_int (bx.numPts : Int)) (boxBin_Serial bx f)

/-- The overload `build (BinPolicy::OpenMPBinPolicy, N nitems, T const* v, const Box& bx,
F&& f)` (lines 256-274). The `Long` value of `bx.numPts()` is converted to the parameter
`int nbins` of the overload it calls (line 261). -/
def build_OpenMP_Box {T : Type} (junk : Nat → Nat) (max_threads : Nat) (self : DenseBins T)
    (nitems : Nat) (v : List T) (bx : Box) (f : T → Dim3) : Option (DenseBins T) :=
  build_OpenMP_int junk max_threads self nitems v (long_to_int (bx.numPts : Int))
    (boxBin_OpenMP bx f)

/-- The overload `build (BinPolicy::GPUBinPolicy, N nitems, T const* v, const Box& bx,
F&& f)` (lines 153-171). The `Long` value of `bx.numPts()` is converted to the parameter
`int nbins` of the overload it calls (line 158). -/
def build_GPU_Box {T : Type} (junk : Nat → Nat) (hist_order scatter_order : List Nat)
    (self : DenseBins T) (nitems : Nat) (v : List T) (bx : Box) (f : T → Dim3) :
    Option (DenseBins T) :=
  build_GPU_int junk hist_order scatter_order self nitems v (long_to_int (bx.numPts : Int))
    (boxBin_GPU bx f)

/-- Overload resolution of `build(policy, nitems, v, bx, f)` on the tag. -/
def build_with_Box {T : Type} (policy : BinPolicy) (junk : Nat → Nat)
    (hist_order scatter_order : List Nat) (max_threads : Nat) (self : DenseBins T)
    (nitems : Nat) (v : List T) (bx : Box) (f : T → Dim3) : Option (DenseBins T) :=
  match policy with
  | BinPolicy.GPU => build_GPU_Box junk hist_order scatter_order self nitems v bx f
  | BinPolicy.OpenMP => build_OpenMP_Box junk max_threads self nitems v bx f
  | BinPolicy.Serial => build_Serial_Box junk self nitems v bx f

/-- The overload `build (N nitems, T const* v, const Box& bx, F&& f)` (lines 98-102):
`build(BinPolicy::Default, nitems, v, bx, std::forward<F>(f))`. -/
def build_default_Box {T : Type} (AMREX_USE_GPU : Bool) (junk : Nat → Nat)
    (hist_order scatter_order : List Nat) (max_threads : Nat) (self : DenseBins T)
    (nitems : Nat) (v : List T) (bx : Box) (f : T → Dim3) : Option (DenseBins T) :=
  build_with_Box (BinPolicy.Default AMREX_USE_GPU) junk hist_order scatter_order max_threads
    self nitems v bx f

/-- Extent of the box along `x`, the local `nx = hi.x-lo.x+1` of the lambdas. -/
def Box.nx (bx : Box) : Int := (ubound bx).x - (lbound bx).x + 1

/-- Extent of the box along `y`, the local `ny = hi.y-lo.y+1` of the lambdas. -/
def Box.ny (bx : Box) : Int := (ubound bx).y - (lbound bx).y + 1

/-- Extent of the box along `z`, the local `nz = hi.z-lo.z+1` of the lambdas. -/
def Box.nz (bx : Box) : Int := (ubound bx).z - (lbound bx).z + 1

/-- The clamp of the lambdas for an extent `n` and a coordinate `x`:
`amrex::min(n-1, amrex::max(0, x))`. -/
def clampCoord (n x : Int) : Int := min (n - 1) (max 0 x)

/-- The local `uix` of the lambdas (line 408):
`index_type uix = amrex::min(nx-1,amrex::max(0,iv3.x));`. -/
def Box.uix (bx : Box) (c : Dim3) : Nat := int_to_index_type (clampCoord bx.nx c.x)

/-- The local `uiy` of the lambdas (line 409). -/
def Box.uiy (bx : Box) (c : Dim3) : Nat := int_to_index_type (clampCoord bx.ny c.y)

/-- The local `uiz` of the lambdas (line 410). -/
def Box.uiz (bx : Box) (c : Dim3) : Nat := int_to_index_type (clampCoord bx.nz c.z)

/-- The cell `(x, y, z)` lies in the index range `[0,nx) x [0,ny) x [0,nz)` of the box. -/
def Box.inRange (bx : Box) (c : Dim3) : Prop :=
  0 ≤ c.x ∧ c.x < bx.nx ∧ 0 ≤ c.y ∧ c.y < bx.ny ∧ 0 ≤ c.z ∧ c.z < bx.nz

/-! ## Reference quantities of a stable counting sort -/

/-- Number of entries of `bs` that are below `k`: where the run of bin `k` starts. -/
def binStart (bs : List Nat) (k : Nat) : Nat := bs.countP (fun x => decide (x < k))

/-- Slot of item `j` in a stable counting sort of the bin ids `bs`: the start of its
bin's run plus the number of earlier items of the same bin. -/
def rank (bs : List Nat) (j : Nat) : Nat :=
  binStart bs (bs.getD j 0) + (bs.take j).count (bs.getD j 0)

/-- Bin ids the engine stores for the items `v`: `f(v[i])` converted to `index_type`. -/
def binsOf {T : Type} (v : List T) (f : T → Nat) : List Nat :=
  v.map (fun x => to_index_type (f x))

/-- The arrays of `s` are those of the stable counting sort of the bin ids `bs` into
`M` bins. -/
structure Binned {T : Type} (bs : List Nat) (M : Nat) (s : DenseBins T) : Prop where
  bins : s.m_bins = bs
  offsets : s.m_offsets = (List.range (M + 1)).map (binStart bs)
  perm_length : s.m_perm.length = bs.length
  perm_rank : ∀ j, j < bs.length → s.m_perm[rank bs j]? = some j

/-- Number of the tasks listed in `pre` whose item is in bin `b`. -/
def seenIn (bs : List Nat) (b : Nat) (pre : List Nat) : Nat :=
  pre.countP (fun k => decide (bs[k]? = some b))

/-- The arrays of `s` group the items by bin: `m_perm` is a rearrangement of the item
indices in which every item of bin `b` sits inside the run of bin `b`; the order inside
a run is left open. -/
structure Grouped {T : Type} (bs : List Nat) (M : Nat) (s : DenseBins T) : Prop where
  bins : s.m_bins = bs
  offsets : s.m_offsets = (List.range (M + 1)).map (binStart bs)
  perm_perm : s.m_perm.Perm (List.range bs.length)
  perm_bin : ∀ p j b, s.m_perm[p]? = some j → bs[j]? = some b →
    binStart bs b ≤ p ∧ p < binStart bs (b + 1)

/-- First item of chunk `j` when `N` items are split over `W` workers; the value at
`j = W` is the end of the last chunk. -/
def chunkLo (N W j : Nat) : Nat := if W ≤ j then N else j * (N / W)

/-- How far chunk `j` has been scanned when the scan, taken in item order, has
reached item `i`. -/
def chunkSeen (N W j i : Nat) : Nat := min (max i (chunkLo N W j)) (chunkLo N W (j + 1))

/-- Number of the items of chunk `j` whose bin id in `bs` is `b`, when `N` items are split
over `W` workers. -/
def chunkCount (bs : List Nat) (N W j b : Nat) : Nat :=
  seenIn bs b (chunkItems N W (N / W) j)

/-- State of the scatter pass of the Worker-Parallel build when its scan, taken in item
order, has reached item `i`: the items before `i` sit at their ranks and every local
cursor has advanced by the number of scanned items of its worker and bin. -/
def ScatterInv {T : Type} (bs : List Nat) (M W : Nat) (st0 : OmpState T) (i : Nat)
    (st : OmpState T) : Prop :=
  st.self.m_items = st0.self.m_items ∧
    st.self.m_offsets = st0.self.m_offsets ∧ st.self.m_counts = st0.self.m_counts ∧
    st.self.m_bins = bs ∧ st.self.m_perm.length = bs.length ∧
    (∀ j, j < i → st.self.m_perm[rank bs j]? = some j) ∧ st.counts.length = M * W ∧
    ∀ j b, j < W → b < M → st.counts[M * j + b]? =
      some (binStart bs b + (bs.take (chunkSeen bs.length W j i)).count b)

/-- State of the first loop of the sequential build when it reaches item `i`: the bin
ids of the items before `i` are stored and counted. -/
def SerialHistInv {T : Type} (v : List T) (f : T → Nat) (M : Nat) (s0 : DenseBins T) (i : Nat)
    (s : DenseBins T) : Prop :=
  s.m_items = s0.m_items ∧ s.m_perm = s0.m_perm ∧ s.m_offsets = s0.m_offsets ∧
    s.m_bins.length = v.length ∧ (∀ k, k < i → s.m_bins[k]? = (binsOf v f)[k]?) ∧
    s.m_counts.length = M + 1 ∧
    ∀ c, c ≤ M → s.m_counts[c]? = some (((binsOf v f).take i).count c)

/-- State of the second loop of the sequential build when it reaches item `i`: the
items before `i` sit at their ranks and every cursor has advanced by the number of
scanned items of its bin. -/
def SerialScatterInv {T : Type} (bs : List Nat) (M : Nat) (s0 : DenseBins T) (i : Nat)
    (s : DenseBins T) : Prop :=
  s.m_items = s0.m_items ∧ s.m_offsets = s0.m_offsets ∧ s.m_bins = bs ∧
    s.m_perm.length = bs.length ∧ (∀ j, j < i → s.m_perm[rank bs j]? = some j) ∧
    s.m_counts.length = M + 1 ∧
    ∀ c, c ≤ M → s.m_counts[c]? = some (binStart bs c + (bs.take i).count c)

/-- The array `perm` after the stores `perm[slot i] = i` for `i = 0, ..., k-1`, in this
order. -/
def storesUpTo (perm : List Nat) (slot : Nat → Nat) (k : Nat) : List Nat :=
  (List.range k).foldl (fun p i => p.set (slot i) i) perm

/-! ## Properties of a built engine -/

/-- The array `perm` is a bijection on `[0,N)`: it has `N` entries, it is a rearrangement
of `0, ..., N-1`, and every index below `N` occurs in it exactly once. -/
def PermutationValid (perm : List Nat) (N : Nat) : Prop :=
  perm.length = N ∧ perm.Perm (List.range N) ∧ ∀ i, i < N → perm.count i = 1

/-- Bin consistency: for every bin `b < M` and every slot `p` with
`offsets[b] <= p < offsets[b+1]`, `bins[permutation[p]] == b` (all reads in bounds). -/
def BinConsistent {T : Type} (s : DenseBins T) (M : Nat) : Prop :=
  ∀ b, b < M → ∃ lo hi, s.m_offsets[b]? = some lo ∧ s.m_offsets[b + 1]? = some hi ∧
    ∀ p, lo ≤ p → p < hi → ∃ j, s.m_perm[p]? = some j ∧ s.m_bins[j]? = some b

/-- Shape of the offsets array for `M` bins and `N` items: length `M+1`, first entry `0`,
last entry `N`, non-decreasing, and the bin sizes add up to `N = offsets[M] - offsets[0]`. -/
def OffsetsShape (offsets : List Nat) (M N : Nat) : Prop :=
  offsets.length = M + 1 ∧ offsets[0]? = some 0 ∧ offsets[M]? = some N ∧
    (∀ b, b < M → offsets.getD b 0 ≤ offsets.getD (b + 1) 0) ∧
    (∑ b in Finset.range M, (offsets.getD (b + 1) 0 - offsets.getD b 0)) = N ∧
    N = offsets.getD M 0 - offsets.getD 0 0

/-- Stability: inside the run of every bin `b < M` the stored item indices are strictly
increasing. -/
def RunsIncreasing {T : Type} (s : DenseBins T) (M : Nat) : Prop :=
  ∀ b, b < M → ∃ lo hi, s.m_offsets[b]? = some lo ∧ s.m_offsets[b + 1]? = some hi ∧
    ∀ p q, lo ≤ p → p < q → q < hi →
      ∃ i j, s.m_perm[p]? = some i ∧ s.m_perm[q]? = some j ∧ i < j

/-- The set of item indices stored in the slots `[lo, hi)` of `perm`, as a predicate. -/
def inRun (perm : List Nat) (lo hi j : Nat) : Prop :=
  ∃ p, lo ≤ p ∧ p < hi ∧ perm[p]? = some j

/-- Sizes after a build of `N` items into `M` bins: `numItems()` is `N`, `numBins()` is
`M`, the permutation and bins arrays have length `N` and the offsets array has length
`M+1`. -/
def Sized {T : Type} (s : DenseBins T) (N M : Nat) : Prop :=
  s.numItems = (N : Int) ∧ s.numBins = (M : Int) ∧ s.m_perm.length = N ∧
    s.m_bins.length = N ∧ s.m_offsets.length = M + 1

/-- The four invariants of a built engine for `N` items and `M` bins, and the validity
of the stored bin ids: every `bins[i]` is below `M`. -/
def BuildInvariants {T : Type} (s : DenseBins T) (N M : Nat) : Prop :=
  OffsetsShape s.m_offsets M N ∧ PermutationValid s.m_perm N ∧ BinConsistent s M ∧
    ∀ i, i < N → ∃ b, s.m_bins[i]? = some b ∧ b < M

/-! ## The concrete scenario of the specification -/

/-- Keys of the four items of the scenario. -/
def scenarioKeys : List Nat := [0, 5, 2, 9]

/-- Mapper of the scenario: `key < 5 -> bin 0 else bin 1`. -/
def scenarioMapper (key : Nat) : Nat := if key < 5 then 0 else 1

/-- A box of the scenario: two cells along `x`, one along `y` and `z`, lower corner
`(3, 0, 0)`. -/
def scenarioBox : Box :=
  { smallEnd := { x := 3, y := 0, z := 0 }, bigEnd := { x := 4, y := 0, z := 0 } }

/-- A coordinate mapper for the scenario: the key is the `x` coordinate in units of five,
so that its clamped cell is the bin of `scenarioMapper`. -/
def scenarioCell (key : Nat) : Dim3 := { x := (key : Int) / 5, y := 0, z := 0 }

/-- A box of `65536 x 65536 x 1 = 2^32` cells. -/
def wideBox : Box :=
  { smallEnd := { x := 0, y := 0, z := 0 }, bigEnd := { x := 65535, y := 65535, z := 0 } }

/-- A box of `65536 x 65536 x 2 = 2^33` cells. -/
def deepBox : Box :=
  { smallEnd := { x := 0, y := 0, z := 0 }, bigEnd := { x := 65535, y := 65535, z := 1 } }

/-- A box of `65537 x 65535 x 1 = 2^32 - 1` cells. -/
def oddBox : Box :=
  { smallEnd := { x := 0, y := 0, z := 0 }, bigEnd := { x := 65536, y := 65534, z := 0 } }

/-- An order of the four tasks of the scenario other than `0, 1, 2, 3`. -/
def scenarioOrder : List Nat := [2, 3, 0, 1]

/-- A coordinate mapper that sends the keys of the scenario outside the box: below it
for small keys, far above it for the others. -/
def scenarioFarCell (key : Nat) : Dim3 :=
  if key < 5 then { x := -7, y := -1, z := 3 } else { x := 1000000, y := 5, z := -2 }

/-- A box of three by four by five cells with lower corner `(-1, 2, 0)`. -/
def sampleBox : Box :=
  { smallEnd := { x := -1, y := 2, z := 0 }, bigEnd := { x := 1, y := 5, z := 4 } }

/-- An engine on which `build` has not been called yet. -/
def freshEngine : DenseBins Nat :=
  { m_items := [], m_bins := [], m_counts := [], m_offsets := [], m_perm := [] }

/-! ## Bin iteration (lines 29-51 and 494-498) -/

/-- Modelled from the spec: `BinIterator<T>` is declared in `AMReX_BinIterator.H`, which
is not among the sources. Its constructor takes the bin number, the offsets and
permutation arrays and the items (line 45); the spec describes it as a forward-only
cursor over the items in that bin. -/
structure BinIterator (T : Type) where
  m_bin_number : Nat
  m_offsets_ptr : List Nat
  m_permutation_ptr : List Nat
  m_items : List T

/-- Modelled from the spec: the count of items that a `BinIterator` exposes,
`offsets[binId+1]-offsets[binId]`. -/
def BinIterator.numItems {T : Type} (it : BinIterator T) : Option Nat := do
  let lo ← it.m_offsets_ptr[it.m_bin_number]?
  let hi ← it.m_offsets_ptr[it.m_bin_number + 1]?
  some (hi - lo)

theorem foldlM_range'_inv {σ : Type} (step : σ → Nat → Option σ) (Inv : Nat → σ → Prop)
    (n : Nat) : ∀ (a : Nat) (s0 : σ), Inv a s0 →
    (∀ i s, a ≤ i → i < a + n → Inv i s → ∃ s', step s i = some s' ∧ Inv (i + 1) s') →
    ∃ s, (List.range' a n).foldlM step s0 = some s ∧ Inv (a + n) s := by
  induction n with
  | zero => intro a s0 h0 _; exact ⟨s0, by simp, by simpa using h0⟩
  | succ n ih =>
    intro a s0 h0 hstep
    obtain ⟨s1, hs1, hI1⟩ := hstep a s0 (le_refl _) (by omega) h0
    obtain ⟨s, hs, hI⟩ := ih (a + 1) s1 hI1 (fun i s hi1 hi2 hI =>
      hstep i s (by omega) (by omega) hI)
    refine ⟨s, ?_, ?_⟩
    · rw [List.range'_succ, List.foldlM_cons, hs1]
      exact hs
    · have : a + (n + 1) = a + 1 + n := by omega
      rw [this]; exact hI

theorem foldlM_range_inv {σ : Type} (step : σ → Nat → Option σ) (Inv : Nat → σ → Prop)
    (n : Nat) (s0 : σ) (h0 : Inv 0 s0)
    (hstep : ∀ i s, i < n → Inv i s → ∃ s', step s i = some s' ∧ Inv (i + 1) s') :
    ∃ s, (List.range n).foldlM step s0 = some s ∧ Inv n s := by
  have := foldlM_range'_inv step Inv n 0 s0 h0 (fun i s _ hi hI => hstep i s (by omega) hI)
  rw [List.range_eq_range']
  simpa using this

theorem store_eq_some {vec : List Nat} {i : Nat} (x : Nat) (h : i < vec.length) :
    store vec i x = some (vec.set i x) := by
  simp [store, h]

theorem to_index_type_eq {n : Nat} (h : n < index_type_size) : to_index_type n = n :=
  Nat.mod_eq_of_lt h

theorem to_index_type_le (n : Nat) : to_index_type n ≤ n := Nat.mod_le _ _


/-! ## Ranks -/

theorem binStart_mono (bs : List Nat) {k k' : Nat} (h : k ≤ k') :
    binStart bs k ≤ binStart bs k' := by
  unfold binStart
  apply List.countP_mono_left
  intro x _ hx
  simp only [decide_eq_true_eq] at hx ⊢
  omega

theorem binStart_succ (bs : List Nat) (k : Nat) :
    binStart bs (k + 1) = binStart bs k + bs.count k := by
  unfold binStart
  induction bs with
  | nil => simp
  | cons a t ih =>
    simp only [List.countP_cons, List.count_cons, ih, decide_eq_true_eq, beq_iff_eq]
    by_cases h1 : a < k
    · have h2 : a < k + 1 := by omega
      have h3 : ¬ a = k := by omega
      simp [h1, h2, h3]; omega
    · by_cases h3 : a = k
      · have h2 : a < k + 1 := by omega
        simp [h1, h2, h3]; omega
      · have h2 : ¬ a < k + 1 := by omega
        simp [h1, h2, h3]

theorem binStart_le_length (bs : List Nat) (k : Nat) : binStart bs k ≤ bs.length :=
  List.countP_le_length _

theorem binStart_zero (bs : List Nat) : binStart bs 0 = 0 := by
  simp [binStart]

theorem binStart_eq_length (bs : List Nat) (M : Nat) (h : ∀ b ∈ bs, b < M) :
    binStart bs M = bs.length := by
  unfold binStart
  rw [List.countP_eq_length]
  intro a ha
  simpa using h a ha

theorem count_take_succ (bs : List Nat) (j b c : Nat) (h : bs[j]? = some b) :
    (bs.take (j + 1)).count c = (bs.take j).count c + if b = c then 1 else 0 := by
  rw [List.take_succ, h, Option.toList, List.count_append, List.count_singleton]
  by_cases hbc : b = c <;> simp [hbc]

theorem count_take_mono (bs : List Nat) (c : Nat) {i j : Nat} (h : i ≤ j) :
    (bs.take i).count c ≤ (bs.take j).count c := by
  apply List.Sublist.count_le
  exact (List.take_sublist_take_left bs h)

theorem count_take_le (bs : List Nat) (c j : Nat) : (bs.take j).count c ≤ bs.count c :=
  List.Sublist.count_le (List.take_sublist _ _) _

theorem count_take_lt_of_lt (bs : List Nat) {i j b : Nat} (hij : i < j) (hi : bs[i]? = some b) :
    (bs.take i).count b < (bs.take j).count b := by
  have h1 := count_take_succ bs i b b hi
  have h2 := count_take_mono bs b (show i + 1 ≤ j by omega)
  simp at h1
  omega

theorem rank_eq (bs : List Nat) {j b : Nat} (h : bs[j]? = some b) :
    rank bs j = binStart bs b + (bs.take j).count b := by
  simp [rank, List.getD_eq_getElem?_getD, h]

theorem rank_lt_next (bs : List Nat) {j b : Nat} (h : bs[j]? = some b) :
    rank bs j < binStart bs (b + 1) := by
  rw [rank_eq bs h, binStart_succ]
  have h1 := count_take_succ bs j b b h
  have h2 := count_take_le bs b (j + 1)
  simp at h1
  omega

theorem binStart_le_rank (bs : List Nat) {j b : Nat} (h : bs[j]? = some b) :
    binStart bs b ≤ rank bs j := by
  rw [rank_eq bs h]; omega

theorem rank_lt_length (bs : List Nat) {j b : Nat} (h : bs[j]? = some b) :
    rank bs j < bs.length :=
  lt_of_lt_of_le (rank_lt_next bs h) (binStart_le_length _ _)

/-- The run `[binStart b, binStart (b+1))` that holds a rank determines the bin. -/
theorem bin_of_rank (bs : List Nat) {j b c : Nat} (h : bs[j]? = some b)
    (h1 : binStart bs c ≤ rank bs j) (h2 : rank bs j < binStart bs (c + 1)) : b = c := by
  have h3 := rank_lt_next bs h
  have h4 := binStart_le_rank bs h
  rcases Nat.lt_trichotomy b c with hlt | heq | hgt
  · have := binStart_mono bs (show b + 1 ≤ c by omega); omega
  · exact heq
  · have := binStart_mono bs (show c + 1 ≤ b by omega); omega

theorem rank_lt_iff (bs : List Nat) {i j b : Nat} (hi : bs[i]? = some b) (hj : bs[j]? = some b) :
    rank bs i < rank bs j ↔ i < j := by
  rw [rank_eq bs hi, rank_eq bs hj]
  constructor
  · intro h
    by_contra hn
    have := count_take_mono bs b (show j ≤ i by omega)
    omega
  · intro h
    have := count_take_lt_of_lt bs h hi
    omega

theorem rank_inj (bs : List Nat) {i j : Nat} (hi : i < bs.length) (hj : j < bs.length)
    (h : rank bs i = rank bs j) : i = j := by
  have hi' : bs[i]? = some bs[i] := List.getElem?_eq_getElem hi
  have hj' : bs[j]? = some bs[j] := List.getElem?_eq_getElem hj
  have hb : bs[i] = bs[j] :=
    bin_of_rank bs hi' (h ▸ binStart_le_rank bs hj') (h ▸ rank_lt_next bs hj')
  rw [hb] at hi'
  rcases Nat.lt_trichotomy i j with hlt | heq | hgt
  · have := (rank_lt_iff bs hi' hj').2 hlt; omega
  · exact heq
  · have := (rank_lt_iff bs hj' hi').2 hgt; omega

/-! ## Sequential backend: the two loops -/

theorem serialHistStep_eq {T : Type} (v : List T) (f : T → Nat) (s : DenseBins T) (i c : Nat)
    (y : T) (h1 : v[i]? = some y) (h2 : i < s.m_bins.length)
    (h3 : s.m_counts[to_index_type (f y)]? = some c) :
    serialHistStep v f s i = some { s with
      m_bins := s.m_bins.set i (to_index_type (f y))
      m_counts := s.m_counts.set (to_index_type (f y)) (to_index_type (c + 1)) } := by
  have h4 : to_index_type (f y) < s.m_counts.length := by
    rw [List.getElem?_eq_some] at h3; exact h3.1
  simp [serialHistStep, h1, store_eq_some _ h2, List.getElem?_set_self h2, h3,
    store_eq_some _ h4]

theorem serialScatterStep_eq {T : Type} (s : DenseBins T) (i b c : Nat)
    (h1 : s.m_bins[i]? = some b) (h2 : s.m_counts[b]? = some c) (h3 : c < s.m_perm.length) :
    serialScatterStep s i = some { s with
      m_counts := s.m_counts.set b (to_index_type (c + 1))
      m_perm := s.m_perm.set c (to_index_type i) } := by
  have h4 : b < s.m_counts.length := by
    rw [List.getElem?_eq_some] at h2; exact h2.1
  simp [serialScatterStep, h1, h2, store_eq_some _ h3, store_eq_some _ h4]

theorem binsOf_length {T : Type} (v : List T) (f : T → Nat) : (binsOf v f).length = v.length := by
  simp [binsOf]

theorem binsOf_getElem? {T : Type} (v : List T) (f : T → Nat) {i : Nat} {y : T}
    (h : v[i]? = some y) : (binsOf v f)[i]? = some (to_index_type (f y)) := by
  simp [binsOf, h]

theorem binsOf_lt {T : Type} (v : List T) (f : T → Nat) (M : Nat) (hf : ∀ x ∈ v, f x < M) :
    ∀ b ∈ binsOf v f, b < M := by
  intro b hb
  simp only [binsOf, List.mem_map] at hb
  obtain ⟨x, hx, rfl⟩ := hb
  exact lt_of_le_of_lt (to_index_type_le _) (hf x hx)

theorem binsOf_le {T : Type} (v : List T) (f : T → Nat) (M : Nat) (hf : ∀ x ∈ v, f x ≤ M) :
    ∀ b ∈ binsOf v f, b ≤ M := by
  intro b hb
  simp only [binsOf, List.mem_map] at hb
  obtain ⟨x, hx, rfl⟩ := hb
  exact le_trans (to_index_type_le _) (hf x hx)

theorem count_take_le_length (bs : List Nat) (c j : Nat) : (bs.take j).count c ≤ j := by
  have h := List.count_le_length c (bs.take j)
  have h2 := List.length_take_le j bs
  omega

/-- One step of the first loop keeps its invariant. -/
theorem serialHistStep_inv {T : Type} (v : List T) (f : T → Nat) (M : Nat) (s0 : DenseBins T)
    (hN : v.length < index_type_size) (hb : ∀ b ∈ binsOf v f, b ≤ M) (i : Nat)
    (s : DenseBins T) (hi : i < v.length) (hI : SerialHistInv v f M s0 i s) :
    ∃ s', serialHistStep v f s i = some s' ∧ SerialHistInv v f M s0 (i + 1) s' := by
  obtain ⟨h1, h2, h3, h4, h5, h6, h7⟩ := hI
  have hy : v[i]? = some v[i] := List.getElem?_eq_getElem hi
  have hbi := binsOf_getElem? v f hy
  have hlt : to_index_type (f v[i]) ≤ M := hb _ (List.mem_iff_getElem?.2 ⟨i, hbi⟩)
  have hstep := serialHistStep_eq v f s i _ v[i] hy (by omega) (h7 _ hlt)
  refine ⟨_, hstep, h1, h2, h3, by simp [h4], ?_, by simp [h6], ?_⟩
  · intro k hk
    by_cases hki : k = i
    · subst hki
      simp only []
      rw [List.getElem?_set_self (by omega), hbi]
    · simp only []
      rw [List.getElem?_set_ne (by omega)]
      exact h5 k (by omega)
  · intro c hc
    simp only []
    rw [count_take_succ _ i _ c hbi]
    by_cases hcb : to_index_type (f v[i]) = c
    · subst hcb
      rw [List.getElem?_set_self (by omega), if_pos rfl, to_index_type_eq]
      have := count_take_le_length (binsOf v f) (to_index_type (f v[i])) i
      omega
    · rw [List.getElem?_set_ne hcb, if_neg hcb]
      simpa using h7 c hc

theorem serialHistInv_init {T : Type} (v : List T) (f : T → Nat) (M : Nat) (s0 : DenseBins T)
    (h0b : s0.m_bins.length = v.length) (h0c : s0.m_counts = List.replicate (M + 1) 0) :
    SerialHistInv v f M s0 0 s0 :=
  ⟨rfl, rfl, rfl, h0b, by intro k hk; omega, by simp [h0c], by
    intro c hc
    simp only [h0c, List.getElem?_replicate, List.take_zero, List.count_nil]
    rw [if_pos (by omega)]⟩

/-- The first loop reaches every item: the engine when it has scanned `n` items. -/
theorem serialHist_upto {T : Type} (v : List T) (f : T → Nat) (M : Nat) (s0 : DenseBins T)
    (hN : v.length < index_type_size) (hb : ∀ b ∈ binsOf v f, b ≤ M)
    (h0b : s0.m_bins.length = v.length) (h0c : s0.m_counts = List.replicate (M + 1) 0)
    (n : Nat) (hn : n ≤ v.length) :
    ∃ s, (List.range n).foldlM (serialHistStep v f) s0 = some s ∧
      SerialHistInv v f M s0 n s :=
  foldlM_range_inv (serialHistStep v f) (SerialHistInv v f M s0) n s0
    (serialHistInv_init v f M s0 h0b h0c)
    (fun i s hi hI => serialHistStep_inv v f M s0 hN hb i s (by omega) hI)

/-- First loop of the sequential build: it fills `m_bins` and leaves in `m_counts` the
number of items of each bin. -/
theorem serialHist_spec {T : Type} (v : List T) (f : T → Nat) (M : Nat) (s0 : DenseBins T)
    (hN : v.length < index_type_size) (hb : ∀ b ∈ binsOf v f, b ≤ M)
    (h0b : s0.m_bins.length = v.length) (h0c : s0.m_counts = List.replicate (M + 1) 0) :
    ∃ s, (List.range v.length).foldlM (serialHistStep v f) s0 = some s ∧
      s.m_items = s0.m_items ∧ s.m_perm = s0.m_perm ∧ s.m_offsets = s0.m_offsets ∧
      s.m_bins = binsOf v f ∧ s.m_counts.length = M + 1 ∧
      ∀ c, c ≤ M → s.m_counts[c]? = some ((binsOf v f).count c) := by
  obtain ⟨s, hs, h1, h2, h3, h4, h5, h6, h7⟩ :=
    serialHist_upto v f M s0 hN hb h0b h0c v.length (le_refl _)
  refine ⟨s, hs, h1, h2, h3, ?_, h6, ?_⟩
  · apply List.ext_getElem?
    intro k
    by_cases hk : k < v.length
    · exact h5 k hk
    · rw [List.getElem?_eq_none (by omega), List.getElem?_eq_none (by simp [binsOf_length]; omega)]
  · intro c hc
    have := h7 c hc
    rwa [← binsOf_length v f, List.take_length] at this

theorem exclusive_scan_from_length (l : List Nat) :
    ∀ acc : Nat, (exclusive_scan_from acc l).length = l.length := by
  induction l with
  | nil => intro acc; rfl
  | cons c cs ih => intro acc; simp [exclusive_scan_from, ih]

theorem exclusive_scan_from_getElem? (l : List Nat) :
    ∀ (acc k : Nat), acc + l.sum < index_type_size → k < l.length →
      (exclusive_scan_from acc l)[k]? = some (acc + (l.take k).sum) := by
  induction l with
  | nil => intro acc k _ hk; simp at hk
  | cons c cs ih =>
    intro acc k hsum hk
    simp only [List.sum_cons] at hsum
    cases k with
    | zero => simp [exclusive_scan_from]
    | succ k =>
      simp only [exclusive_scan_from, List.getElem?_cons_succ, List.take_succ_cons, List.sum_cons]
      rw [to_index_type_eq (by omega), ih (acc + c) k (by omega) (by simpa using hk)]
      congr 1; omega

theorem sum_take_counts (bs C : List Nat) (M : Nat)
    (hC : ∀ c, c ≤ M → C[c]? = some (bs.count c)) :
    ∀ k, k ≤ M + 1 → (C.take k).sum = binStart bs k := by
  intro k
  induction k with
  | zero => intro _; simp [binStart_zero]
  | succ k ih =>
    intro hk
    rw [List.take_succ, hC k (by omega), List.sum_append, ih (by omega), binStart_succ]
    simp

/-- The scan of the per-bin counts is the array of run starts. -/
theorem exclusive_scan_counts (bs C O : List Nat) (M : Nat) (hN : bs.length < index_type_size)
    (hCl : C.length = M + 1) (hOl : O.length = M + 1)
    (hC : ∀ c, c ≤ M → C[c]? = some (bs.count c)) :
    exclusive_scan C O = some ((List.range (M + 1)).map (binStart bs)) := by
  have hsum : C.sum = binStart bs (M + 1) := by
    have := sum_take_counts bs C M hC (M + 1) (le_refl _)
    rwa [List.take_of_length_le (by omega)] at this
  have hle := binStart_le_length bs (M + 1)
  unfold exclusive_scan
  rw [if_pos (by omega), List.drop_of_length_le (by omega), List.append_nil]
  congr 1
  apply List.ext_getElem?
  intro k
  by_cases hk : k < M + 1
  · rw [exclusive_scan_from_getElem? C 0 k (by omega) (by omega),
      sum_take_counts bs C M hC k (by omega)]
    simp [List.getElem?_range hk]
  · rw [List.getElem?_eq_none (by rw [exclusive_scan_from_length]; omega),
      List.getElem?_eq_none (by simp; omega)]

theorem copy_same_length (src dst : List Nat) (h : src.length = dst.length) :
    copy src dst = some src := by
  unfold copy
  rw [if_pos (by omega), List.drop_of_length_le (by omega), List.append_nil]

/-- One step of the second loop: item `i` reads its bin id and its cursor, which is
`rank bs i`, and the step keeps the invariant. -/
theorem serialScatterStep_inv {T : Type} (bs : List Nat) (M : Nat) (s0 : DenseBins T)
    (hN : bs.length < index_type_size) (hb : ∀ b ∈ bs, b ≤ M) (i : Nat) (s : DenseBins T)
    (hi : i < bs.length) (hI : SerialScatterInv bs M s0 i s) :
    ∃ bid, bs[i]? = some bid ∧ bid ≤ M ∧ s.m_bins[i]? = some bid ∧
      s.m_counts[bid]? = some (rank bs i) ∧
      ∃ s', serialScatterStep s i = some s' ∧ SerialScatterInv bs M s0 (i + 1) s' := by
  obtain ⟨h1, h2, h3, h4, h5, h6, h7⟩ := hI
  have hbi : bs[i]? = some bs[i] := List.getElem?_eq_getElem hi
  have hlt : bs[i] ≤ M := hb _ (List.getElem_mem _)
  have hc := h7 _ hlt
  rw [← rank_eq bs hbi] at hc
  have hr := rank_lt_length bs hbi
  have hstep := serialScatterStep_eq s i bs[i] (rank bs i) (by rw [h3]; exact hbi) hc (by omega)
  refine ⟨bs[i], hbi, hlt, by rw [h3]; exact hbi, hc, _, hstep, h1, h2, h3, by simp [h4], ?_,
    by simp [h6], ?_⟩
  · intro j hj
    simp only []
    by_cases hji : j = i
    · subst hji
      rw [List.getElem?_set_self (by omega), to_index_type_eq (by omega)]
    · rw [List.getElem?_set_ne (fun h => hji (rank_inj bs (by omega) hi h.symm))]
      exact h5 j (by omega)
  · intro c hc'
    simp only []
    rw [count_take_succ _ i _ c hbi]
    by_cases hcb : bs[i] = c
    · subst hcb
      rw [List.getElem?_set_self (by omega), if_pos rfl, to_index_type_eq (by omega),
        rank_eq bs hbi]
      rfl
    · rw [List.getElem?_set_ne hcb, if_neg hcb]
      simpa using h7 c hc'

theorem serialScatterInv_init {T : Type} (bs : List Nat) (M : Nat) (s0 : DenseBins T)
    (h0b : s0.m_bins = bs) (h0c : s0.m_counts = (List.range (M + 1)).map (binStart bs))
    (h0p : s0.m_perm.length = bs.length) : SerialScatterInv bs M s0 0 s0 :=
  ⟨rfl, rfl, h0b, h0p, by intro j hj; omega, by simp [h0c], by
    intro c hc
    simp [h0c, List.getElem?_range (show c < M + 1 by omega)]⟩

/-- The second loop reaches every item: the engine when it has scanned `n` items. -/
theorem serialScatter_upto {T : Type} (bs : List Nat) (M : Nat) (s0 : DenseBins T)
    (hN : bs.length < index_type_size) (hb : ∀ b ∈ bs, b ≤ M)
    (h0b : s0.m_bins = bs) (h0c : s0.m_counts = (List.range (M + 1)).map (binStart bs))
    (h0p : s0.m_perm.length = bs.length) (n : Nat) (hn : n ≤ bs.length) :
    ∃ s, (List.range n).foldlM serialScatterStep s0 = some s ∧
      SerialScatterInv bs M s0 n s :=
  foldlM_range_inv serialScatterStep (SerialScatterInv bs M s0) n s0
    (serialScatterInv_init bs M s0 h0b h0c h0p)
    (fun i s hi hI => by
      obtain ⟨_, _, _, _, _, r⟩ := serialScatterStep_inv bs M s0 hN hb i s (by omega) hI
      exact r)

/-- Second loop of the sequential build, started with the run starts as cursors: item
`j` is written to slot `rank bs j`, and each cursor ends at the start of the next run. -/
theorem serialScatter_spec {T : Type} (bs : List Nat) (M : Nat) (s0 : DenseBins T)
    (hN : bs.length < index_type_size) (hb : ∀ b ∈ bs, b ≤ M)
    (h0b : s0.m_bins = bs) (h0c : s0.m_counts = (List.range (M + 1)).map (binStart bs))
    (h0p : s0.m_perm.length = bs.length) :
    ∃ s, (List.range bs.length).foldlM serialScatterStep s0 = some s ∧
      s.m_items = s0.m_items ∧ s.m_offsets = s0.m_offsets ∧ s.m_bins = bs ∧
      s.m_perm.length = bs.length ∧ (∀ j, j < bs.length → s.m_perm[rank bs j]? = some j) ∧
      s.m_counts.length = M + 1 ∧
      ∀ c, c ≤ M → s.m_counts[c]? = some (binStart bs (c + 1)) := by
  obtain ⟨s, hs, h1, h2, h3, h4, h5, h6, h7⟩ :=
    serialScatter_upto bs M s0 hN hb h0b h0c h0p bs.length (le_refl _)
  refine ⟨s, hs, h1, h2, h3, h4, h5, h6, ?_⟩
  intro c hc
  rw [h7 c hc, List.take_length, binStart_succ]

theorem resize_length (junk : Nat → Nat) (vec : List Nat) (n : Nat) :
    (resize junk vec n).length = n := by
  simp only [resize, List.length_append, List.length_take, List.length_map, List.length_range']
  omega

theorem resize_val_zero (junk : Nat → Nat) (vec : List Nat) (n val : Nat) :
    resize_val (resize junk vec 0) n val = List.replicate n val := by
  simp [resize_val, resize]

/-- The sequential build returns also when the mapper takes the value `nbins`, the
last index of `m_counts`; its arrays are those of the stable counting sort of the
stored bin ids. -/
theorem build_Serial_spec_le {T : Type} (junk : Nat → Nat) (self : DenseBins T) (v : List T)
    (nbins : Nat) (f : T → Nat) (hN : v.length < index_type_size)
    (hf : ∀ x ∈ v, f x ≤ nbins) :
    ∃ s, build_Serial junk self v.length v nbins f = some s ∧ s.m_items = v ∧
      Binned (binsOf v f) nbins s ∧ s.m_counts.length = nbins + 1 ∧
      ∀ c, c ≤ nbins → s.m_counts[c]? = some (binStart (binsOf v f) (c + 1)) := by
  have hb := binsOf_le v f nbins hf
  have hl := binsOf_length v f
  obtain ⟨s1, hs1, a1, a2, a3, a4, a5, a6⟩ := serialHist_spec v f nbins
    { m_items := v
      m_bins := resize junk self.m_bins v.length
      m_perm := resize junk self.m_perm v.length
      m_counts := resize_val (resize junk self.m_counts 0) (nbins + 1) 0
      m_offsets := resize junk (resize junk self.m_offsets 0) (nbins + 1) }
    hN hb (resize_length _ _ _) (resize_val_zero _ _ _ _)
  have hscan := exclusive_scan_counts (binsOf v f) s1.m_counts s1.m_offsets nbins
    (by omega) a5 (by rw [a3]; exact resize_length _ _ _) a6
  have hcopy := copy_same_length ((List.range (nbins + 1)).map (binStart (binsOf v f)))
    s1.m_counts (by simp [a5])
  obtain ⟨s, hs, b1, b2, b3, b4, b5, b6, b7⟩ := serialScatter_spec (binsOf v f) nbins
    { s1 with
      m_offsets := (List.range (nbins + 1)).map (binStart (binsOf v f))
      m_counts := (List.range (nbins + 1)).map (binStart (binsOf v f)) }
    (by omega) hb a4 rfl (by simp only []; rw [a2]; simp only [resize_length, hl])
  refine ⟨s, ?_, by rw [b1, a1], ⟨b3, b2, b4, b5⟩, b6, b7⟩
  rw [hl] at hs
  simp only [build_Serial, hs1, hscan, hcopy, Option.bind_eq_bind, Option.some_bind]
  exact hs

/-- The sequential build returns, and its arrays are those of the stable counting
sort of the stored bin ids. -/
theorem build_Serial_spec {T : Type} (junk : Nat → Nat) (self : DenseBins T) (v : List T)
    (nbins : Nat) (f : T → Nat) (hN : v.length < index_type_size)
    (hf : ∀ x ∈ v, f x < nbins) :
    ∃ s, build_Serial junk self v.length v nbins f = some s ∧ s.m_items = v ∧
      Binned (binsOf v f) nbins s ∧ s.m_counts.length = nbins + 1 ∧
      ∀ c, c ≤ nbins → s.m_counts[c]? = some (binStart (binsOf v f) (c + 1)) :=
  build_Serial_spec_le junk self v nbins f hN (fun x hx => le_of_lt (hf x hx))

/-! ## What follows from `Binned`, whatever backend produced the arrays -/

theorem Binned.perm_range {T : Type} {bs : List Nat} {M : Nat} {s : DenseBins T}
    (hB : Binned bs M s) : s.m_perm.Perm (List.range bs.length) := by
  have hsub : List.range bs.length ⊆ s.m_perm := by
    intro j hj
    rw [List.mem_range] at hj
    exact List.mem_iff_getElem?.2 ⟨_, hB.perm_rank j hj⟩
  have hsp := List.subperm_of_subset (List.nodup_range _) hsub
  exact (hsp.perm_of_length_le (by simp [hB.perm_length])).symm

theorem Binned.perm_nodup {T : Type} {bs : List Nat} {M : Nat} {s : DenseBins T}
    (hB : Binned bs M s) : s.m_perm.Nodup :=
  hB.perm_range.nodup_iff.2 (List.nodup_range _)

/-- Every slot holds the item whose rank it is. -/
theorem Binned.perm_inverse {T : Type} {bs : List Nat} {M : Nat} {s : DenseBins T}
    (hB : Binned bs M s) {p : Nat} (hp : p < bs.length) :
    ∃ j, j < bs.length ∧ s.m_perm[p]? = some j ∧ rank bs j = p := by
  have hpl : p < s.m_perm.length := by rw [hB.perm_length]; exact hp
  have hmem : s.m_perm[p] ∈ List.range bs.length :=
    hB.perm_range.mem_iff.1 (List.getElem_mem hpl)
  rw [List.mem_range] at hmem
  refine ⟨s.m_perm[p], hmem, List.getElem?_eq_getElem hpl, ?_⟩
  have hr := hB.perm_rank _ hmem
  rw [List.getElem?_eq_some] at hr
  obtain ⟨hrl, hre⟩ := hr
  exact (hB.perm_nodup.getElem_inj_iff).1 hre

theorem Binned.offsets_length {T : Type} {bs : List Nat} {M : Nat} {s : DenseBins T}
    (hB : Binned bs M s) : s.m_offsets.length = M + 1 := by
  simp [hB.offsets]

theorem Binned.offsets_getElem? {T : Type} {bs : List Nat} {M : Nat} {s : DenseBins T}
    (hB : Binned bs M s) {k : Nat} (hk : k ≤ M) :
    s.m_offsets[k]? = some (binStart bs k) := by
  simp [hB.offsets, List.getElem?_range (show k < M + 1 by omega)]

/-- A slot inside the run of bin `b` holds an item of bin `b`. -/
theorem Binned.run_bin {T : Type} {bs : List Nat} {M : Nat} {s : DenseBins T}
    (hB : Binned bs M s) {b p : Nat} (h1 : binStart bs b ≤ p) (h2 : p < binStart bs (b + 1)) :
    ∃ j, j < bs.length ∧ s.m_perm[p]? = some j ∧ bs[j]? = some b ∧ rank bs j = p := by
  have hp : p < bs.length := lt_of_lt_of_le h2 (binStart_le_length _ _)
  obtain ⟨j, hj, hpj, hr⟩ := hB.perm_inverse hp
  have hbj : bs[j]? = some bs[j] := List.getElem?_eq_getElem hj
  have hb : bs[j] = b := bin_of_rank bs hbj (by omega) (by omega)
  exact ⟨j, hj, hpj, hb ▸ hbj, hr⟩

/-- Inside a run the item indices increase with the slot. -/
theorem Binned.run_increasing {T : Type} {bs : List Nat} {M : Nat} {s : DenseBins T}
    (hB : Binned bs M s) {b p q : Nat} (h1 : binStart bs b ≤ p) (hpq : p < q)
    (h2 : q < binStart bs (b + 1)) :
    ∃ i j, s.m_perm[p]? = some i ∧ s.m_perm[q]? = some j ∧ i < j := by
  obtain ⟨i, _, hpi, hbi, hri⟩ := hB.run_bin h1 (by omega)
  obtain ⟨j, _, hqj, hbj, hrj⟩ := hB.run_bin (show binStart bs b ≤ q by omega) h2
  exact ⟨i, j, hpi, hqj, (rank_lt_iff bs hbi hbj).1 (by omega)⟩

/-- Two engines that are both `Binned` for the same bin ids hold the same permutation. -/
theorem Binned.perm_unique {T : Type} {bs : List Nat} {M : Nat} {s t : DenseBins T}
    (hs : Binned bs M s) (ht : Binned bs M t) : s.m_perm = t.m_perm := by
  apply List.ext_getElem?
  intro p
  by_cases hp : p < bs.length
  · obtain ⟨j, hj, hpj, hr⟩ := hs.perm_inverse hp
    rw [hpj, ← hr, ht.perm_rank j hj]
  · rw [List.getElem?_eq_none (by rw [hs.perm_length]; omega),
      List.getElem?_eq_none (by rw [ht.perm_length]; omega)]

theorem binStart_sum_sizes (bs : List Nat) (M : Nat) :
    (∑ b in Finset.range M, (binStart bs (b + 1) - binStart bs b)) = binStart bs M := by
  induction M with
  | zero => simp [binStart_zero]
  | succ M ih =>
    rw [Finset.sum_range_succ, ih]
    have := binStart_mono bs (show M ≤ M + 1 by omega)
    omega

theorem Binned.permutationValid {T : Type} {bs : List Nat} {M : Nat} {s : DenseBins T}
    (hB : Binned bs M s) : PermutationValid s.m_perm bs.length := by
  refine ⟨hB.perm_length, hB.perm_range, ?_⟩
  intro i hi
  rw [hB.perm_range.count_eq]
  exact List.count_eq_one_of_mem (List.nodup_range _) (List.mem_range.2 hi)

theorem Binned.binConsistent {T : Type} {bs : List Nat} {M : Nat} {s : DenseBins T}
    (hB : Binned bs M s) : BinConsistent s M := by
  intro b hb
  refine ⟨_, _, hB.offsets_getElem? (le_of_lt hb), hB.offsets_getElem? hb, ?_⟩
  intro p h1 h2
  obtain ⟨j, _, hpj, hbj, _⟩ := hB.run_bin h1 h2
  exact ⟨j, hpj, by rw [hB.bins]; exact hbj⟩

theorem Binned.runsIncreasing {T : Type} {bs : List Nat} {M : Nat} {s : DenseBins T}
    (hB : Binned bs M s) : RunsIncreasing s M := by
  intro b hb
  refine ⟨_, _, hB.offsets_getElem? (le_of_lt hb), hB.offsets_getElem? hb, ?_⟩
  intro p q h1 hpq h2
  exact hB.run_increasing h1 hpq h2

theorem Binned.offsets_getD {T : Type} {bs : List Nat} {M : Nat} {s : DenseBins T}
    (hB : Binned bs M s) {k : Nat} (hk : k ≤ M) :
    s.m_offsets.getD k 0 = binStart bs k := by
  rw [List.getD_eq_getElem?_getD, hB.offsets_getElem? hk]; rfl

theorem Binned.offsetsShape {T : Type} {bs : List Nat} {M : Nat} {s : DenseBins T}
    (hB : Binned bs M s) (hb : ∀ b ∈ bs, b < M) : OffsetsShape s.m_offsets M bs.length := by
  have hM := binStart_eq_length bs M hb
  refine ⟨hB.offsets_length, ?_, ?_, ?_, ?_, ?_⟩
  · rw [hB.offsets_getElem? (Nat.zero_le _), binStart_zero]
  · rw [hB.offsets_getElem? (le_refl _), hM]
  · intro b hbM
    rw [hB.offsets_getD (le_of_lt hbM), hB.offsets_getD hbM]
    exact binStart_mono bs (by omega)
  · rw [← hM, ← binStart_sum_sizes bs M]
    apply Finset.sum_congr rfl
    intro b hbM
    rw [Finset.mem_range] at hbM
    rw [hB.offsets_getD (le_of_lt hbM), hB.offsets_getD hbM]
  · rw [hB.offsets_getD (le_refl _), hB.offsets_getD (Nat.zero_le _), binStart_zero, hM]
    rfl

/-! ## Worker-Parallel backend: chunks -/

theorem chunkLo_zero (N W : Nat) (hW : 1 ≤ W) : chunkLo N W 0 = 0 := by
  simp [chunkLo]; omega

theorem chunkLo_last (N W : Nat) : chunkLo N W W = N := by
  simp [chunkLo]

theorem chunkLo_le (N W j : Nat) : chunkLo N W j ≤ N := by
  unfold chunkLo
  split
  · exact le_refl _
  · rename_i h
    calc j * (N / W) ≤ W * (N / W) := Nat.mul_le_mul_right _ (by omega)
      _ ≤ N := Nat.mul_div_le N W

theorem chunkLo_mono (N W : Nat) {j k : Nat} (h : j ≤ k) : chunkLo N W j ≤ chunkLo N W k := by
  by_cases hk : W ≤ k
  · have : chunkLo N W k = N := by simp [chunkLo, hk]
    rw [this]; exact chunkLo_le N W j
  · have h1 : chunkLo N W k = k * (N / W) := by simp [chunkLo, hk]
    have h2 : chunkLo N W j = j * (N / W) := by
      simp only [chunkLo]; rw [if_neg (by omega)]
    rw [h1, h2]
    exact Nat.mul_le_mul_right _ h

theorem chunkItems_eq (N W j : Nat) (hj : j < W) :
    chunkItems N W (N / W) j =
      List.range' (chunkLo N W j) (chunkLo N W (j + 1) - chunkLo N W j) := by
  have h1 : chunkLo N W j = j * (N / W) := by
    simp only [chunkLo]; rw [if_neg (by omega)]
  by_cases hl : j = W - 1
  · have h2 : chunkLo N W (j + 1) = N := by
      simp only [chunkLo]; rw [if_pos (by omega)]
    simp only [chunkItems, h1, h2, if_pos hl]
  · have h2 : chunkLo N W (j + 1) = (j + 1) * (N / W) := by
      simp only [chunkLo]; rw [if_neg (by omega)]
    simp only [chunkItems, h1, h2, if_neg hl]

/-- A loop over the chunks whose body scans the chunk's items, seen as one scan of
the items `0, ..., N-1` in order. -/
theorem chunked_foldlM_inv {σ : Type} (N W : Nat) (hW : 1 ≤ W)
    (step : Nat → σ → Nat → Option σ) (Inv : Nat → σ → Prop) (s0 : σ) (h0 : Inv 0 s0)
    (hstep : ∀ j i s, j < W → chunkLo N W j ≤ i → i < chunkLo N W (j + 1) → Inv i s →
      ∃ s', step j s i = some s' ∧ Inv (i + 1) s') :
    ∃ s, (List.range W).foldlM
      (fun st j => (chunkItems N W (N / W) j).foldlM (step j) st) s0 = some s ∧ Inv N s := by
  have h := foldlM_range_inv
    (fun st j => (chunkItems N W (N / W) j).foldlM (step j) st)
    (fun j s => Inv (chunkLo N W j) s) W s0
    (by show Inv (chunkLo N W 0) s0; rw [chunkLo_zero N W hW]; exact h0)
    (by
      intro j s hj hI
      show ∃ s', (chunkItems N W (N / W) j).foldlM (step j) s = some s' ∧
        Inv (chunkLo N W (j + 1)) s'
      have hI : Inv (chunkLo N W j) s := hI
      have hm := chunkLo_mono N W (show j ≤ j + 1 by omega)
      have h' := foldlM_range'_inv (step j) Inv (chunkLo N W (j + 1) - chunkLo N W j)
        (chunkLo N W j) s hI
        (fun i s hi1 hi2 hI => hstep j i s hj hi1 (by omega) hI)
      rw [chunkItems_eq N W j hj]
      have he : chunkLo N W j + (chunkLo N W (j + 1) - chunkLo N W j) = chunkLo N W (j + 1) := by
        omega
      rw [he] at h'
      exact h')
  obtain ⟨s, hs, hI⟩ := h
  have hI : Inv (chunkLo N W W) s := hI
  rw [chunkLo_last] at hI
  exact ⟨s, hs, hI⟩

theorem chunkSeen_self (N W : Nat) {j i : Nat} (h1 : chunkLo N W j ≤ i)
    (h2 : i ≤ chunkLo N W (j + 1)) : chunkSeen N W j i = i := by
  unfold chunkSeen; omega

theorem chunkSeen_succ_of_ne (N W : Nat) {j k i : Nat} (h1 : chunkLo N W j ≤ i)
    (h2 : i < chunkLo N W (j + 1)) (hk : k ≠ j) :
    chunkSeen N W k (i + 1) = chunkSeen N W k i := by
  unfold chunkSeen
  rcases Nat.lt_or_gt_of_ne hk with h | h
  · have := chunkLo_mono N W (show k + 1 ≤ j by omega)
    omega
  · have := chunkLo_mono N W (show j + 1 ≤ k by omega)
    have := chunkLo_mono N W (show k ≤ k + 1 by omega)
    omega

theorem chunkSeen_zero (N W j : Nat) : chunkSeen N W j 0 = chunkLo N W j := by
  have := chunkLo_mono N W (show j ≤ j + 1 by omega)
  unfold chunkSeen; omega

theorem chunkSeen_end (N W j : Nat) : chunkSeen N W j N = chunkLo N W (j + 1) := by
  have := chunkLo_le N W (j + 1)
  have := chunkLo_le N W j
  unfold chunkSeen; omega

theorem chunkSeen_ge (N W j i : Nat) : chunkLo N W j ≤ chunkSeen N W j i := by
  have := chunkLo_mono N W (show j ≤ j + 1 by omega)
  unfold chunkSeen; omega

theorem chunkSeen_le (N W j i : Nat) : chunkSeen N W j i ≤ N := by
  have := chunkLo_le N W (j + 1)
  unfold chunkSeen; omega

theorem flat_lt {M W j b : Nat} (hj : j < W) (hb : b < M) : M * j + b < M * W := by
  calc M * j + b < M * j + M := by omega
    _ = M * (j + 1) := by ring
    _ ≤ M * W := Nat.mul_le_mul_left _ (by omega)

theorem flat_inj {M j b k c : Nat} (hb : b < M) (hc : c < M) (h : M * j + b = M * k + c) :
    j = k ∧ b = c := by
  have hM : 0 < M := by omega
  have h1 : (M * j + b) / M = j := by
    rw [Nat.mul_add_div hM, Nat.div_eq_of_lt hb]; rfl
  have h2 : (M * k + c) / M = k := by
    rw [Nat.mul_add_div hM, Nat.div_eq_of_lt hc]; rfl
  have hjk : j = k := by rw [← h1, ← h2, h]
  subst hjk
  exact ⟨rfl, by omega⟩

theorem flat_ne {M j b k c : Nat} (hb : b < M) (hc : c < M) (h : ¬ (j = k ∧ b = c)) :
    M * j + b ≠ M * k + c :=
  fun he => h (flat_inj hb hc he)

/-! ## Worker-Parallel backend: the passes -/

theorem ompZero_spec (counts0 : List Nat) (n : Nat) (h : counts0.length = n) :
    ∃ counts, (List.range n).foldlM ompZeroStep counts0 = some counts ∧
      counts.length = n ∧ ∀ k, k < n → counts[k]? = some 0 := by
  obtain ⟨c, hc, h1, h2⟩ := foldlM_range_inv ompZeroStep
    (fun i cs => cs.length = n ∧ ∀ k, k < i → cs[k]? = some 0) n counts0
    ⟨h, by intro k hk; omega⟩
    (by
      intro i c hi ⟨h1, h2⟩
      refine ⟨_, store_eq_some 0 (by omega), by simp [h1], ?_⟩
      intro k hk
      by_cases hki : k = i
      · subst hki; exact List.getElem?_set_self (by omega)
      · rw [List.getElem?_set_ne (by omega)]; exact h2 k (by omega))
  exact ⟨c, hc, h1, h2⟩

theorem ompHistStep_eq {T : Type} (v : List T) (f : T → Nat) (nbins j : Nat)
    (st : OmpState T) (i c : Nat) (y : T) (h1 : v[i]? = some y)
    (h2 : i < st.self.m_bins.length)
    (h3 : st.counts[to_index_type (nbins * j + to_index_type (f y))]? = some c) :
    ompHistStep v f nbins j st i = some
      { self := { st.self with m_bins := st.self.m_bins.set i (to_index_type (f y)) }
        counts := st.counts.set (to_index_type (nbins * j + to_index_type (f y)))
          (to_index_type (c + 1)) } := by
  have h4 : to_index_type (nbins * j + to_index_type (f y)) < st.counts.length := by
    rw [List.getElem?_eq_some] at h3; exact h3.1
  simp [ompHistStep, h1, store_eq_some _ h2, List.getElem?_set_self h2, h3,
    store_eq_some _ h4]

/-- First pass of the Worker-Parallel build: it fills `m_bins` and leaves in the local
array, for each chunk and bin, the number of items of the chunk that are in the bin. -/
theorem ompHist_spec {T : Type} (v : List T) (f : T → Nat) (M W : Nat) (st0 : OmpState T)
    (hW : 1 ≤ W) (hN : v.length < index_type_size) (hMW : M * W < index_type_size)
    (hb : ∀ b ∈ binsOf v f, b < M) (h0b : st0.self.m_bins.length = v.length)
    (h0l : st0.counts.length = M * W) (h0c : ∀ k, k < M * W → st0.counts[k]? = some 0) :
    ∃ st, (List.range W).foldlM (fun st j =>
        (chunkItems v.length W (v.length / W) j).foldlM (ompHistStep v f M j) st) st0 = some st ∧
      st.self.m_items = st0.self.m_items ∧ st.self.m_perm = st0.self.m_perm ∧
      st.self.m_offsets = st0.self.m_offsets ∧ st.self.m_counts = st0.self.m_counts ∧
      st.self.m_bins = binsOf v f ∧ st.counts.length = M * W ∧
      ∀ j b, j < W → b < M → st.counts[M * j + b]? =
        some (((binsOf v f).take (chunkLo v.length W (j + 1))).count b -
          ((binsOf v f).take (chunkLo v.length W j)).count b) := by
  obtain ⟨st, hst, h1, h2, h3, h4, h5, h6, h7, h8⟩ := chunked_foldlM_inv v.length W hW
    (ompHistStep v f M)
    (fun i st => st.self.m_items = st0.self.m_items ∧ st.self.m_perm = st0.self.m_perm ∧
      st.self.m_offsets = st0.self.m_offsets ∧ st.self.m_counts = st0.self.m_counts ∧
      st.self.m_bins.length = v.length ∧
      (∀ k, k < i → st.self.m_bins[k]? = (binsOf v f)[k]?) ∧ st.counts.length = M * W ∧
      ∀ j b, j < W → b < M → st.counts[M * j + b]? =
        some (((binsOf v f).take (chunkSeen v.length W j i)).count b -
          ((binsOf v f).take (chunkLo v.length W j)).count b))
    st0
    ⟨rfl, rfl, rfl, rfl, h0b, by intro k hk; omega, h0l, by
      intro j b hj hbM
      rw [h0c _ (flat_lt hj hbM), chunkSeen_zero, Nat.sub_self]⟩
    (by
      intro j i st hj hi1 hi2 ⟨h1, h2, h3, h4, h5, h6, h7, h8⟩
      have hiN : i < v.length := lt_of_lt_of_le hi2 (chunkLo_le _ _ _)
      have hy : v[i]? = some v[i] := List.getElem?_eq_getElem hiN
      have hbi := binsOf_getElem? v f hy
      have hlt : to_index_type (f v[i]) < M := hb _ (List.mem_iff_getElem?.2 ⟨i, hbi⟩)
      have hflat := flat_lt hj hlt
      have hidx : to_index_type (M * j + to_index_type (f v[i])) =
          M * j + to_index_type (f v[i]) := to_index_type_eq (by omega)
      have hc := h8 j _ hj hlt
      rw [← hidx] at hc
      have hstep := ompHistStep_eq v f M j st i _ v[i] hy (by omega) hc
      rw [hidx] at hstep
      refine ⟨_, hstep, h1, h2, h3, h4, by simp [h5], ?_, by simp [h7], ?_⟩
      · intro k hk
        by_cases hki : k = i
        · subst hki
          simp only []
          rw [List.getElem?_set_self (by omega), hbi]
        · simp only []
          rw [List.getElem?_set_ne (by omega)]
          exact h6 k (by omega)
      · intro k c hk hcM
        simp only []
        by_cases hkc : k = j ∧ c = to_index_type (f v[i])
        · obtain ⟨rfl, rfl⟩ := hkc
          rw [List.getElem?_set_self (by omega), chunkSeen_self _ _ hi1 (le_of_lt hi2),
            chunkSeen_self _ _ (show chunkLo v.length W k ≤ i + 1 by omega) hi2,
            count_take_succ _ i _ _ hbi, if_pos rfl]
          have hm := count_take_mono (binsOf v f) (to_index_type (f v[i])) hi1
          have hle := count_take_le_length (binsOf v f) (to_index_type (f v[i])) i
          rw [to_index_type_eq (by omega)]
          congr 1; omega
        · rw [List.getElem?_set_ne (flat_ne hlt hcM (fun h => hkc ⟨h.1.symm, h.2.symm⟩)),
            h8 k c hk hcM]
          by_cases hkj : k = j
          · subst hkj
            have hne : to_index_type (f v[i]) ≠ c := fun h => hkc ⟨rfl, h.symm⟩
            rw [chunkSeen_self _ _ hi1 (le_of_lt hi2),
              chunkSeen_self _ _ (show chunkLo v.length W k ≤ i + 1 by omega) hi2,
              count_take_succ _ i _ c hbi, if_neg hne]
            rfl
          · rw [chunkSeen_succ_of_ne _ _ hi1 hi2 hkj])
  refine ⟨st, hst, h1, h2, h3, h4, ?_, h7, ?_⟩
  · apply List.ext_getElem?
    intro k
    by_cases hk : k < v.length
    · exact h6 k hk
    · rw [List.getElem?_eq_none (by omega), List.getElem?_eq_none (by simp [binsOf_length]; omega)]
  · intro j b hj hbM
    rw [h8 j b hj hbM, chunkSeen_end]

theorem ompTotalStep_eq (nbins i : Nat) (acc : List Nat × Nat) (j tmp : Nat)
    (h : acc.1[nbins * j + i]? = some tmp) :
    ompTotalStep nbins i acc j =
      some (acc.1.set (nbins * j + i) acc.2, to_index_type (acc.2 + tmp)) := by
  have h4 : nbins * j + i < acc.1.length := by
    rw [List.getElem?_eq_some] at h; exact h.1
  simp [ompTotalStep, h, store_eq_some _ h4]

/-- Second pass, one bin: the per-chunk counts of bin `i` become the number of items of
bin `i` in the earlier chunks, and `total` ends as the number of items of bin `i`. -/
theorem ompTotalInner_spec (bs : List Nat) (M W i : Nat) (hW : 1 ≤ W) (hi : i < M)
    (hN : bs.length < index_type_size) (A : Nat → Nat → Nat) (counts0 : List Nat)
    (h0l : counts0.length = M * W)
    (h0 : ∀ j b, j < W → b < M → counts0[M * j + b]? = some (if b = i then
      (bs.take (chunkLo bs.length W (j + 1))).count i -
        (bs.take (chunkLo bs.length W j)).count i else A j b)) :
    ∃ acc, (List.range W).foldlM (ompTotalStep M i) (counts0, 0) = some acc ∧
      acc.2 = bs.count i ∧ acc.1.length = M * W ∧
      ∀ j b, j < W → b < M → acc.1[M * j + b]? = some (if b = i then
        (bs.take (chunkLo bs.length W j)).count i else A j b) := by
  obtain ⟨acc, hacc, h1, h2, h3⟩ := foldlM_range_inv (ompTotalStep M i)
    (fun j acc => acc.2 = (bs.take (chunkLo bs.length W j)).count i ∧
      acc.1.length = M * W ∧
      ∀ k b, k < W → b < M → acc.1[M * k + b]? = some (if b = i then
        (if k < j then (bs.take (chunkLo bs.length W k)).count i
          else (bs.take (chunkLo bs.length W (k + 1))).count i -
            (bs.take (chunkLo bs.length W k)).count i) else A k b))
    W (counts0, 0)
    ⟨by simp [chunkLo_zero _ _ hW], h0l, by
      intro k b hk hbM
      rw [h0 k b hk hbM]
      simp⟩
    (by
      intro j acc hj ⟨h1, h2, h3⟩
      have htmp := h3 j i hj hi
      rw [if_pos rfl, if_neg (lt_irrefl _)] at htmp
      refine ⟨_, ompTotalStep_eq M i acc j _ htmp, ?_, by simp [h2], ?_⟩
      · simp only []
        have hm := count_take_mono bs i (chunkLo_mono bs.length W (show j ≤ j + 1 by omega))
        have hle := count_take_le_length bs i (chunkLo bs.length W (j + 1))
        have hlo := chunkLo_le bs.length W (j + 1)
        rw [h1, to_index_type_eq (by omega)]
        omega
      · intro k b hk hbM
        simp only []
        by_cases hkb : k = j ∧ b = i
        · obtain ⟨rfl, rfl⟩ := hkb
          rw [List.getElem?_set_self (by rw [h2]; exact flat_lt hk hbM), if_pos rfl,
            if_pos (by omega), h1]
        · rw [List.getElem?_set_ne (flat_ne hi hbM (fun h => hkb ⟨h.1.symm, h.2.symm⟩)),
            h3 k b hk hbM]
          by_cases hbi : b = i
          · have hkj : k ≠ j := fun h => hkb ⟨h, hbi⟩
            simp only [if_pos hbi]
            by_cases hlt : k < j
            · rw [if_pos hlt, if_pos (by omega)]
            · rw [if_neg hlt, if_neg (by omega)]
          · simp only [if_neg hbi])
  refine ⟨acc, hacc, ?_, h2, ?_⟩
  · rw [h1, chunkLo_last, List.take_length]
  · intro j b hj hbM
    rw [h3 j b hj hbM]
    by_cases hbi : b = i
    · simp only [if_pos hbi, if_pos hj]
    · simp only [if_neg hbi]

theorem ompTotalBin_eq {T : Type} (nbins nchunks : Nat) (st : OmpState T) (i : Nat)
    (acc : List Nat × Nat)
    (h1 : (List.range nchunks).foldlM (ompTotalStep nbins i) (st.counts, 0) = some acc)
    (h2 : i < st.self.m_counts.length) :
    ompTotalBin nbins nchunks st i = some
      { self := { st.self with m_counts := st.self.m_counts.set i acc.2 }
        counts := acc.1 } := by
  simp [ompTotalBin, h1, store_eq_some _ h2]

/-- Second pass of the Worker-Parallel build: the local array holds, for chunk `j` and
bin `b`, the number of items of bin `b` before chunk `j`, and `m_counts[b]` holds the
number of items of bin `b`. -/
theorem ompTotal_spec {T : Type} (bs : List Nat) (M W : Nat) (st0 : OmpState T) (hW : 1 ≤ W)
    (hN : bs.length < index_type_size) (h0m : st0.self.m_counts = List.replicate (M + 1) 0)
    (h0l : st0.counts.length = M * W)
    (h0c : ∀ j b, j < W → b < M → st0.counts[M * j + b]? =
      some ((bs.take (chunkLo bs.length W (j + 1))).count b -
        (bs.take (chunkLo bs.length W j)).count b)) :
    ∃ st, (List.range M).foldlM (ompTotalBin M W) st0 = some st ∧
      st.self.m_items = st0.self.m_items ∧ st.self.m_perm = st0.self.m_perm ∧
      st.self.m_offsets = st0.self.m_offsets ∧ st.self.m_bins = st0.self.m_bins ∧
      st.self.m_counts.length = M + 1 ∧
      (∀ c, c ≤ M → st.self.m_counts[c]? = some (if c < M then bs.count c else 0)) ∧
      st.counts.length = M * W ∧
      ∀ j b, j < W → b < M → st.counts[M * j + b]? =
        some ((bs.take (chunkLo bs.length W j)).count b) := by
  obtain ⟨st, hst, h1, h2, h3, h4, h5, h6, h7, h8⟩ := foldlM_range_inv (ompTotalBin M W)
    (fun i st => st.self.m_items = st0.self.m_items ∧ st.self.m_perm = st0.self.m_perm ∧
      st.self.m_offsets = st0.self.m_offsets ∧ st.self.m_bins = st0.self.m_bins ∧
      st.self.m_counts.length = M + 1 ∧
      (∀ c, c ≤ M → st.self.m_counts[c]? = some (if c < i then bs.count c else 0)) ∧
      st.counts.length = M * W ∧
      ∀ j b, j < W → b < M → st.counts[M * j + b]? = some (if b < i then
        (bs.take (chunkLo bs.length W j)).count b
        else (bs.take (chunkLo bs.length W (j + 1))).count b -
          (bs.take (chunkLo bs.length W j)).count b))
    M st0
    ⟨rfl, rfl, rfl, rfl, by simp [h0m], by
      intro c hc
      simp only [h0m, List.getElem?_replicate, Nat.not_lt_zero, if_false]
      rw [if_pos (by omega)], h0l, by
      intro j b hj hbM
      rw [h0c j b hj hbM]
      simp⟩
    (by
      intro i st hi ⟨h1, h2, h3, h4, h5, h6, h7, h8⟩
      obtain ⟨acc, hacc, a1, a2, a3⟩ := ompTotalInner_spec bs M W i hW hi hN
        (fun j b => if b < i then (bs.take (chunkLo bs.length W j)).count b
          else (bs.take (chunkLo bs.length W (j + 1))).count b -
            (bs.take (chunkLo bs.length W j)).count b)
        st.counts h7 (by
          intro j b hj hbM
          rw [h8 j b hj hbM]
          by_cases hbi : b = i
          · subst hbi; simp
          · simp only [if_neg hbi])
      refine ⟨_, ompTotalBin_eq M W st i acc hacc (by omega), h1, h2, h3, h4,
        by simp [h5], ?_, a2, ?_⟩
      · intro c hc
        simp only []
        by_cases hci : c = i
        · subst hci
          rw [List.getElem?_set_self (by omega), a1, if_pos (by omega)]
        · rw [List.getElem?_set_ne (fun h => hci h.symm), h6 c hc]
          by_cases hlt : c < i
          · rw [if_pos hlt, if_pos (by omega)]
          · rw [if_neg hlt, if_neg (by omega)]
      · intro j b hj hbM
        simp only []
        rw [a3 j b hj hbM]
        by_cases hbi : b = i
        · subst hbi; simp
        · simp only [if_neg hbi]
          by_cases hlt : b < i
          · rw [if_pos hlt, if_pos (by omega)]
          · rw [if_neg hlt, if_neg (by omega)])
  refine ⟨st, hst, h1, h2, h3, h4, h5, h6, h7, ?_⟩
  intro j b hj hbM
  rw [h8 j b hj hbM, if_pos hbM]

theorem ompOffsetsStep_eq {T : Type} (self : DenseBins T) (i o c : Nat)
    (h1 : self.m_offsets[i]? = some o) (h2 : self.m_counts[i]? = some c)
    (h3 : i + 1 < self.m_offsets.length) :
    ompOffsetsStep self i = some
      { self with m_offsets := self.m_offsets.set (i + 1) (to_index_type (o + c)) } := by
  simp [ompOffsetsStep, h1, h2, store_eq_some _ h3]

/-- Third pass of the Worker-Parallel build: the serial loop leaves the run starts in
`m_offsets`. -/
theorem ompOffsets_spec {T : Type} (bs : List Nat) (M : Nat) (s0 : DenseBins T)
    (hN : bs.length < index_type_size) (h0l : s0.m_offsets.length = M + 1)
    (h0 : s0.m_offsets[0]? = some 0)
    (h0c : ∀ c, c < M → s0.m_counts[c]? = some (bs.count c)) :
    ∃ s, (List.range M).foldlM ompOffsetsStep s0 = some s ∧
      s.m_items = s0.m_items ∧ s.m_perm = s0.m_perm ∧ s.m_counts = s0.m_counts ∧
      s.m_bins = s0.m_bins ∧ s.m_offsets = (List.range (M + 1)).map (binStart bs) := by
  obtain ⟨s, hs, h1, h2, h3, h4, h5, h6⟩ := foldlM_range_inv ompOffsetsStep
    (fun i s => s.m_items = s0.m_items ∧ s.m_perm = s0.m_perm ∧ s.m_counts = s0.m_counts ∧
      s.m_bins = s0.m_bins ∧ s.m_offsets.length = M + 1 ∧
      ∀ k, k ≤ i → s.m_offsets[k]? = some (binStart bs k))
    M s0
    ⟨rfl, rfl, rfl, rfl, h0l, by
      intro k hk
      have : k = 0 := by omega
      subst this
      rw [h0, binStart_zero]⟩
    (by
      intro i s hi ⟨h1, h2, h3, h4, h5, h6⟩
      refine ⟨_, ompOffsetsStep_eq s i _ _ (h6 i (le_refl _))
        (by rw [h3]; exact h0c i hi) (by omega), h1, h2, h3, h4, by simp [h5], ?_⟩
      intro k hk
      simp only []
      by_cases hki : k = i + 1
      · subst hki
        have := binStart_le_length bs (i + 1)
        rw [List.getElem?_set_self (by omega), ← binStart_succ, to_index_type_eq (by omega)]
      · rw [List.getElem?_set_ne (fun h => hki h.symm)]
        exact h6 k (by omega))
  refine ⟨s, hs, h1, h2, h3, h4, ?_⟩
  apply List.ext_getElem?
  intro k
  by_cases hk : k < M + 1
  · rw [h6 k (by omega)]
    simp [List.getElem?_range hk]
  · rw [List.getElem?_eq_none (by omega), List.getElem?_eq_none (by simp; omega)]

theorem ompShiftStep_eq (nbins i : Nat) (offsets counts : List Nat) (j c o : Nat)
    (h1 : counts[nbins * j + i]? = some c) (h2 : offsets[i]? = some o) :
    ompShiftStep nbins i offsets counts j =
      some (counts.set (nbins * j + i) (to_index_type (c + o))) := by
  have h4 : nbins * j + i < counts.length := by
    rw [List.getElem?_eq_some] at h1; exact h1.1
  simp [ompShiftStep, h1, h2, store_eq_some _ h4]

theorem binStart_add_count_take_le (bs : List Nat) (b n : Nat) :
    binStart bs b + (bs.take n).count b ≤ bs.length := by
  have h1 := count_take_le bs b n
  have h2 := binStart_le_length bs (b + 1)
  rw [binStart_succ] at h2
  omega

/-- Fourth pass, one bin: the start of the run of bin `i` is added to every chunk's
entry for bin `i`. -/
theorem ompShiftInner_spec (bs : List Nat) (M W i : Nat) (hi : i < M)
    (hN : bs.length < index_type_size) (A : Nat → Nat → Nat) (offsets counts0 : List Nat)
    (ho : offsets[i]? = some (binStart bs i)) (h0l : counts0.length = M * W)
    (h0 : ∀ j b, j < W → b < M → counts0[M * j + b]? = some (if b = i then
      (bs.take (chunkLo bs.length W j)).count i else A j b)) :
    ∃ counts, (List.range W).foldlM (ompShiftStep M i offsets) counts0 = some counts ∧
      counts.length = M * W ∧
      ∀ j b, j < W → b < M → counts[M * j + b]? = some (if b = i then
        binStart bs i + (bs.take (chunkLo bs.length W j)).count i else A j b) := by
  obtain ⟨cs, hcs, h2, h3⟩ := foldlM_range_inv (ompShiftStep M i offsets)
    (fun j cs => cs.length = M * W ∧
      ∀ k b, k < W → b < M → cs[M * k + b]? = some (if b = i then
        (if k < j then binStart bs i + (bs.take (chunkLo bs.length W k)).count i
          else (bs.take (chunkLo bs.length W k)).count i) else A k b))
    W counts0
    ⟨h0l, by
      intro k b hk hbM
      rw [h0 k b hk hbM]
      simp⟩
    (by
      intro j cs hj ⟨h2, h3⟩
      have hc := h3 j i hj hi
      rw [if_pos rfl, if_neg (lt_irrefl _)] at hc
      refine ⟨_, ompShiftStep_eq M i offsets cs j _ _ hc ho, by simp [h2], ?_⟩
      intro k b hk hbM
      by_cases hkb : k = j ∧ b = i
      · obtain ⟨rfl, rfl⟩ := hkb
        have hle := binStart_add_count_take_le bs b (chunkLo bs.length W k)
        rw [List.getElem?_set_self (by rw [h2]; exact flat_lt hk hbM), if_pos rfl,
          if_pos (by omega), to_index_type_eq (by omega), Nat.add_comm]
      · rw [List.getElem?_set_ne (flat_ne hi hbM (fun h => hkb ⟨h.1.symm, h.2.symm⟩)),
          h3 k b hk hbM]
        by_cases hbi : b = i
        · have hkj : k ≠ j := fun h => hkb ⟨h, hbi⟩
          simp only [if_pos hbi]
          by_cases hlt : k < j
          · rw [if_pos hlt, if_pos (by omega)]
          · rw [if_neg hlt, if_neg (by omega)]
        · simp only [if_neg hbi])
  refine ⟨cs, hcs, h2, ?_⟩
  intro j b hj hbM
  rw [h3 j b hj hbM]
  by_cases hbi : b = i
  · simp only [if_pos hbi, if_pos hj]
  · simp only [if_neg hbi]

theorem ompShiftBin_eq {T : Type} (nbins nchunks : Nat) (st : OmpState T) (i : Nat)
    (counts : List Nat)
    (h : (List.range nchunks).foldlM (ompShiftStep nbins i st.self.m_offsets) st.counts =
      some counts) :
    ompShiftBin nbins nchunks st i = some { st with counts := counts } := by
  simp [ompShiftBin, h]

/-- Fourth pass of the Worker-Parallel build: the local array holds, for chunk `j` and
bin `b`, the slot of the first item of bin `b` in chunk `j`. -/
theorem ompShift_spec {T : Type} (bs : List Nat) (M W : Nat) (st0 : OmpState T)
    (hN : bs.length < index_type_size)
    (h0o : st0.self.m_offsets = (List.range (M + 1)).map (binStart bs))
    (h0l : st0.counts.length = M * W)
    (h0c : ∀ j b, j < W → b < M → st0.counts[M * j + b]? =
      some ((bs.take (chunkLo bs.length W j)).count b)) :
    ∃ st, (List.range M).foldlM (ompShiftBin M W) st0 = some st ∧
      st.self = st0.self ∧ st.counts.length = M * W ∧
      ∀ j b, j < W → b < M → st.counts[M * j + b]? =
        some (binStart bs b + (bs.take (chunkLo bs.length W j)).count b) := by
  obtain ⟨st, hst, h1, h2, h3⟩ := foldlM_range_inv (ompShiftBin M W)
    (fun i st => st.self = st0.self ∧ st.counts.length = M * W ∧
      ∀ j b, j < W → b < M → st.counts[M * j + b]? = some (if b < i then
        binStart bs b + (bs.take (chunkLo bs.length W j)).count b
        else (bs.take (chunkLo bs.length W j)).count b))
    M st0
    ⟨rfl, h0l, by
      intro j b hj hbM
      rw [h0c j b hj hbM]
      simp⟩
    (by
      intro i st hi ⟨h1, h2, h3⟩
      obtain ⟨cs, hcs, a2, a3⟩ := ompShiftInner_spec bs M W i hi hN
        (fun j b => if b < i then binStart bs b + (bs.take (chunkLo bs.length W j)).count b
          else (bs.take (chunkLo bs.length W j)).count b)
        st.self.m_offsets st.counts
        (by rw [h1, h0o]; simp [List.getElem?_range (show i < M + 1 by omega)]) h2
        (by
          intro j b hj hbM
          rw [h3 j b hj hbM]
          by_cases hbi : b = i
          · subst hbi; simp
          · simp only [if_neg hbi])
      refine ⟨_, ompShiftBin_eq M W st i cs hcs, h1, a2, ?_⟩
      intro j b hj hbM
      simp only []
      rw [a3 j b hj hbM]
      by_cases hbi : b = i
      · subst hbi; simp
      · simp only [if_neg hbi]
        by_cases hlt : b < i
        · rw [if_pos hlt, if_pos (by omega)]
        · rw [if_neg hlt, if_neg (by omega)])
  refine ⟨st, hst, h1, h2, ?_⟩
  intro j b hj hbM
  rw [h3 j b hj hbM, if_pos hbM]

theorem ompScatterStep_eq {T : Type} (nbins j : Nat) (st : OmpState T) (i bid c : Nat)
    (h1 : st.self.m_bins[i]? = some bid)
    (h2 : st.counts[to_index_type (nbins * j + bid)]? = some c)
    (h3 : c < st.self.m_perm.length) :
    ompScatterStep nbins j st i = some
      { self := { st.self with m_perm := st.self.m_perm.set c (to_index_type i) }
        counts := st.counts.set (to_index_type (nbins * j + bid)) (to_index_type (c + 1)) } := by
  have h4 : to_index_type (nbins * j + bid) < st.counts.length := by
    rw [List.getElem?_eq_some] at h2; exact h2.1
  simp [ompScatterStep, h1, h2, store_eq_some _ h3, store_eq_some _ h4]

/-- One step of the scatter pass: item `i` of chunk `j` reads its bin id and its
cursor, which is `rank bs i`, and the step keeps the invariant. -/
theorem ompScatterStep_inv {T : Type} (bs : List Nat) (M W : Nat) (st0 : OmpState T)
    (hN : bs.length < index_type_size) (hMW : M * W < index_type_size)
    (hb : ∀ b ∈ bs, b < M) (j i : Nat) (st : OmpState T) (hj : j < W)
    (hi1 : chunkLo bs.length W j ≤ i) (hi2 : i < chunkLo bs.length W (j + 1))
    (hI : ScatterInv bs M W st0 i st) :
    ∃ bid, bs[i]? = some bid ∧ bid < M ∧ st.self.m_bins[i]? = some bid ∧
      st.counts[to_index_type (M * j + bid)]? = some (rank bs i) ∧
      ∃ st', ompScatterStep M j st i = some st' ∧
        st'.self.m_perm = st.self.m_perm.set (rank bs i) i ∧
        ScatterInv bs M W st0 (i + 1) st' := by
  obtain ⟨h1, h2, h3, h4, h5, h6, h7, h8⟩ := hI
  have hiN : i < bs.length := lt_of_lt_of_le hi2 (chunkLo_le _ _ _)
  have hbi : bs[i]? = some bs[i] := List.getElem?_eq_getElem hiN
  have hlt : bs[i] < M := hb _ (List.getElem_mem _)
  have hflat := flat_lt hj hlt
  have hidx : to_index_type (M * j + bs[i]) = M * j + bs[i] :=
    to_index_type_eq (by omega)
  have hc := h8 j _ hj hlt
  rw [chunkSeen_self _ _ hi1 (le_of_lt hi2), ← rank_eq bs hbi, ← hidx] at hc
  have hr := rank_lt_length bs hbi
  have hstep := ompScatterStep_eq M j st i bs[i] (rank bs i) (by rw [h4]; exact hbi) hc
    (by omega)
  rw [hidx] at hstep
  refine ⟨bs[i], hbi, hlt, by rw [h4]; exact hbi, hc, _, hstep,
    by simp only []; rw [to_index_type_eq (by omega)], h1, h2, h3, h4,
    by simp [h5], ?_, by simp [h7], ?_⟩
  · intro k hk
    simp only []
    by_cases hki : k = i
    · subst hki
      rw [List.getElem?_set_self (by omega), to_index_type_eq (by omega)]
    · rw [List.getElem?_set_ne (fun h => hki (rank_inj bs (by omega) hiN h.symm))]
      exact h6 k (by omega)
  · intro k c hk hcM
    simp only []
    by_cases hkc : k = j ∧ c = bs[i]
    · obtain ⟨rfl, rfl⟩ := hkc
      rw [List.getElem?_set_self (by omega),
        chunkSeen_self _ _ (show chunkLo bs.length W k ≤ i + 1 by omega) hi2,
        count_take_succ _ i _ _ hbi, if_pos rfl, to_index_type_eq (by omega),
        rank_eq bs hbi]
      rfl
    · rw [List.getElem?_set_ne (flat_ne hlt hcM (fun h => hkc ⟨h.1.symm, h.2.symm⟩)),
        h8 k c hk hcM]
      by_cases hkj : k = j
      · subst hkj
        have hne : bs[i] ≠ c := fun h => hkc ⟨rfl, h.symm⟩
        rw [chunkSeen_self _ _ hi1 (le_of_lt hi2),
          chunkSeen_self _ _ (show chunkLo bs.length W k ≤ i + 1 by omega) hi2,
          count_take_succ _ i _ c hbi, if_neg hne]
        rfl
      · rw [chunkSeen_succ_of_ne _ _ hi1 hi2 hkj]

theorem scatterInv_init {T : Type} (bs : List Nat) (M W : Nat) (st0 : OmpState T)
    (h0b : st0.self.m_bins = bs) (h0p : st0.self.m_perm.length = bs.length)
    (h0l : st0.counts.length = M * W)
    (h0c : ∀ j b, j < W → b < M → st0.counts[M * j + b]? =
      some (binStart bs b + (bs.take (chunkLo bs.length W j)).count b)) :
    ScatterInv bs M W st0 0 st0 :=
  ⟨rfl, rfl, rfl, h0b, h0p, by intro j hj; omega, h0l, by
    intro j b hj hbM
    rw [h0c j b hj hbM, chunkSeen_zero]⟩

/-- Last pass of the Worker-Parallel build: every item `i` is written to slot
`rank bs i`. -/
theorem ompScatter_spec {T : Type} (bs : List Nat) (M W : Nat) (st0 : OmpState T)
    (hW : 1 ≤ W) (hN : bs.length < index_type_size) (hMW : M * W < index_type_size)
    (hb : ∀ b ∈ bs, b < M) (h0b : st0.self.m_bins = bs)
    (h0p : st0.self.m_perm.length = bs.length) (h0l : st0.counts.length = M * W)
    (h0c : ∀ j b, j < W → b < M → st0.counts[M * j + b]? =
      some (binStart bs b + (bs.take (chunkLo bs.length W j)).count b)) :
    ∃ st, (List.range W).foldlM (fun st j =>
        (chunkItems bs.length W (bs.length / W) j).foldlM (ompScatterStep M j) st) st0 =
          some st ∧
      st.self.m_items = st0.self.m_items ∧ st.self.m_offsets = st0.self.m_offsets ∧
      st.self.m_counts = st0.self.m_counts ∧ st.self.m_bins = bs ∧
      st.self.m_perm.length = bs.length ∧
      ∀ j, j < bs.length → st.self.m_perm[rank bs j]? = some j := by
  obtain ⟨st, hst, h1, h2, h3, h4, h5, h6, _, _⟩ := chunked_foldlM_inv bs.length W hW
    (ompScatterStep M) (ScatterInv bs M W st0) st0
    (scatterInv_init bs M W st0 h0b h0p h0l h0c)
    (by
      intro j i st hj hi1 hi2 hI
      obtain ⟨_, _, _, _, _, st', r1, _, r2⟩ :=
        ompScatterStep_inv bs M W st0 hN hMW hb j i st hj hi1 hi2 hI
      exact ⟨st', r1, r2⟩)
  exact ⟨st, hst, h1, h2, h3, h4, h5, h6⟩

/-- The Worker-Parallel build returns, and its arrays are those of the stable counting
sort of the stored bin ids; `m_counts` is left holding the per-bin totals. -/
theorem build_OpenMP_spec {T : Type} (junk : Nat → Nat) (W : Nat) (self : DenseBins T)
    (v : List T) (nbins : Nat) (f : T → Nat) (hW : 1 ≤ W) (hN : v.length < index_type_size)
    (hMW : nbins * W < index_type_size) (hf : ∀ x ∈ v, f x < nbins) :
    ∃ s, build_OpenMP junk W self v.length v nbins f = some s ∧ s.m_items = v ∧
      Binned (binsOf v f) nbins s ∧ s.m_counts.length = nbins + 1 ∧
      ∀ c, c ≤ nbins → s.m_counts[c]? =
        some (if c < nbins then (binsOf v f).count c else 0) := by
  have hb := binsOf_lt v f nbins hf
  have hl := binsOf_length v f
  obtain ⟨counts, hz, z1, z2⟩ := ompZero_spec (resize junk [] (W * nbins)) (nbins * W)
    (by rw [resize_length, Nat.mul_comm])
  obtain ⟨st1, hst1, a1, a2, a3, a4, a5, a6, a7⟩ := ompHist_spec v f nbins W
    { self :=
        { m_items := v
          m_bins := resize junk self.m_bins v.length
          m_perm := resize junk self.m_perm v.length
          m_counts := resize_val (resize junk self.m_counts 0) (nbins + 1) 0
          m_offsets := resize junk (resize junk self.m_offsets 0) (nbins + 1) }
      counts := counts }
    hW hN hMW hb (resize_length _ _ _) z1 z2
  simp only [] at a1 a2 a3 a4
  rw [← hl] at a7
  obtain ⟨st2, hst2, b1, b2, b3, b4, b5, b6, b7, b8⟩ := ompTotal_spec (binsOf v f) nbins W st1
    hW (by omega) (by rw [a4]; exact resize_val_zero _ _ _ _) a6 a7
  have hol : st2.self.m_offsets.length = nbins + 1 := by
    rw [b3, a3]; exact resize_length _ _ _
  have ho0 := @store_eq_some st2.self.m_offsets 0 0 (by omega)
  obtain ⟨s3, hs3, c1, c2, c3, c4, c5⟩ := ompOffsets_spec (binsOf v f) nbins
    { st2.self with m_offsets := st2.self.m_offsets.set 0 0 }
    (by omega) (by simp [hol]) (List.getElem?_set_self (by omega))
    (by intro c hc; simp only []; rw [b6 c (le_of_lt hc), if_pos hc])
  simp only [] at c1 c2 c3 c4
  obtain ⟨st4, hst4, d1, d2, d3⟩ := ompShift_spec (binsOf v f) nbins W
    { st2 with self := s3 } (by omega) c5 b7 b8
  simp only [] at d1
  obtain ⟨st5, hst5, e1, e2, e3, e4, e5, e6⟩ := ompScatter_spec (binsOf v f) nbins W st4
    hW (by omega) hMW hb (by rw [d1, c4, b4, a5])
    (by rw [d1, c2, b2, a2, hl]; exact resize_length _ _ _) d2 d3
  rw [hl] at hst5
  refine ⟨st5.self, ?_, by rw [e1, d1, c1, b1, a1], ⟨e4, by rw [e2, d1, c5], e5, e6⟩,
    by rw [e3, d1, c3, b5], ?_⟩
  · have hW0 : ¬ W = 0 := by omega
    simp only [build_OpenMP, hW0, if_false, hz, hst1, hst2, ho0, hs3, hst4, hst5,
      Option.bind_eq_bind, Option.some_bind, Option.pure_def]
  · intro c hc
    rw [e3, d1, c3]
    exact b6 c hc

/-! ## Bin iteration -/

theorem map_getElem?_range' {α : Type} (l : List α) (lo n : Nat) (h : lo + n ≤ l.length) :
    (List.range' lo n).map (fun p => l[p]?) = ((l.drop lo).take n).map some := by
  apply List.ext_getElem?
  intro k
  by_cases hk : k < n
  · have h1 : (List.range' lo n)[k]? = some (lo + k) := by
      rw [List.getElem?_eq_some]
      exact ⟨by simpa using hk, by simp⟩
    rw [List.getElem?_map, List.getElem?_map, h1, List.getElem?_take, if_pos hk,
      List.getElem?_drop]
    simp only [Option.map_some']
    rw [List.getElem?_eq_getElem (show lo + k < l.length by omega)]
    rfl
  · rw [List.getElem?_eq_none (by simp; omega), List.getElem?_eq_none (by simp; omega)]

theorem map_getElem?_range {α : Type} (l : List α) :
    (List.range l.length).map (fun p => l[p]?) = l.map some := by
  have h := map_getElem?_range' l 0 l.length (by omega)
  rw [List.range_eq_range', h]
  simp

theorem foldlM_prefix_inv {σ α : Type} (step : σ → α → Option σ) (Inv : List α → σ → Prop)
    (l : List α) (s0 : σ) (h0 : Inv [] s0)
    (hstep : ∀ pre a rest s, l = pre ++ a :: rest → Inv pre s →
      ∃ s', step s a = some s' ∧ Inv (pre ++ [a]) s') :
    ∃ s, l.foldlM step s0 = some s ∧ Inv l s := by
  have gen : ∀ (rest pre : List α) (s : σ), l = pre ++ rest → Inv pre s →
      ∃ s', rest.foldlM step s = some s' ∧ Inv l s' := by
    intro rest
    induction rest with
    | nil =>
      intro pre s hl hI
      rw [List.append_nil] at hl
      exact ⟨s, rfl, hl ▸ hI⟩
    | cons a rest ih =>
      intro pre s hl hI
      obtain ⟨s1, hs1, hI1⟩ := hstep pre a rest s hl hI
      obtain ⟨s', hs', hI'⟩ := ih (pre ++ [a]) s1 (by rw [hl]; simp) hI1
      exact ⟨s', by rw [List.foldlM_cons, hs1]; exact hs', hI'⟩
  exact gen l [] s0 rfl h0

theorem seenIn_nil (bs : List Nat) (b : Nat) : seenIn bs b [] = 0 := rfl

theorem seenIn_concat (bs : List Nat) (b c a : Nat) (pre : List Nat) (h : bs[a]? = some b) :
    seenIn bs c (pre ++ [a]) = seenIn bs c pre + if b = c then 1 else 0 := by
  unfold seenIn
  rw [List.countP_append, List.countP_singleton, h]
  by_cases hbc : b = c <;> simp [hbc]

theorem seenIn_range (bs : List Nat) (b : Nat) :
    seenIn bs b (List.range bs.length) = bs.count b := by
  unfold seenIn
  have h1 : (List.range bs.length).countP (fun k => decide (bs[k]? = some b)) =
      ((List.range bs.length).map (fun k => bs[k]?)).countP (fun o => decide (o = some b)) := by
    rw [List.countP_map]; rfl
  rw [h1, map_getElem?_range, List.countP_map, List.count]
  apply List.countP_congr
  intro x _
  simp

theorem seenIn_of_perm (bs : List Nat) (b : Nat) {order : List Nat}
    (h : order.Perm (List.range bs.length)) : seenIn bs b order = bs.count b := by
  rw [← seenIn_range bs b]
  exact h.countP_eq _

theorem seenIn_le_of_append (bs : List Nat) (b : Nat) (pre rest : List Nat) :
    seenIn bs b pre ≤ seenIn bs b (pre ++ rest) := by
  unfold seenIn
  rw [List.countP_append]
  omega

/-- While the tasks of `order` take effect one after the other, the tasks of bin `b`
that have taken effect are at most the items of bin `b`. -/
theorem seenIn_le_count (bs : List Nat) (b : Nat) {order pre rest : List Nat}
    (h : order.Perm (List.range bs.length)) (hl : order = pre ++ rest) :
    seenIn bs b pre ≤ bs.count b := by
  rw [← seenIn_of_perm bs b h, hl]
  exact seenIn_le_of_append bs b pre rest

theorem mem_order_lt {n : Nat} {order pre rest : List Nat} {a : Nat}
    (h : order.Perm (List.range n)) (hl : order = pre ++ a :: rest) : a < n := by
  have : a ∈ order := by rw [hl]; simp
  exact List.mem_range.1 (h.mem_iff.1 this)

theorem Atomic_AddNoRet_eq (a : List Nat) (k x old : Nat) (h : a[k]? = some old) :
    Atomic_AddNoRet a k x = some (a.set k (to_index_type (old + x))) := by
  have h4 : k < a.length := by
    rw [List.getElem?_eq_some] at h; exact h.1
  simp [Atomic_AddNoRet, h, store_eq_some _ h4]

theorem Atomic_Inc_eq (a : List Nat) (k max old : Nat) (h : a[k]? = some old) :
    Atomic_Inc a k max = some (old, a.set k (if old < max then old + 1 else 0)) := by
  have h4 : k < a.length := by
    rw [List.getElem?_eq_some] at h; exact h.1
  simp [Atomic_Inc, h, store_eq_some _ h4]

theorem gpuHistTask_eq {T : Type} (v : List T) (f : T → Nat) (s : DenseBins T) (i old : Nat)
    (y : T) (h1 : v[i]? = some y) (h2 : i < s.m_bins.length)
    (h3 : s.m_counts[to_index_type (f y)]? = some old) :
    gpuHistTask v f s i = some { s with
      m_bins := s.m_bins.set i (to_index_type (f y))
      m_counts := s.m_counts.set (to_index_type (f y)) (to_index_type (old + 1)) } := by
  simp [gpuHistTask, h1, store_eq_some _ h2, List.getElem?_set_self h2,
    Atomic_AddNoRet_eq _ _ 1 _ h3]

theorem gpuScatterTask_eq {T : Type} (s : DenseBins T) (i b old : Nat)
    (h1 : s.m_bins[i]? = some b) (h2 : s.m_counts[b]? = some old)
    (h3 : old < s.m_perm.length) :
    gpuScatterTask s i = some { s with
      m_counts := s.m_counts.set b (if old < max_index then old + 1 else 0)
      m_perm := s.m_perm.set old (to_index_type i) } := by
  simp [gpuScatterTask, h1, Atomic_Inc_eq _ _ max_index _ h2, store_eq_some _ h3]

/-- First kernel of the GPU build, the tasks taking effect in any order: it fills
`m_bins` and leaves in `m_counts` the number of items of each bin. -/
theorem gpuHist_spec {T : Type} (v : List T) (f : T → Nat) (M : Nat) (order : List Nat)
    (s0 : DenseBins T) (ho : order.Perm (List.range v.length))
    (hN : v.length < index_type_size) (hb : ∀ b ∈ binsOf v f, b < M)
    (h0b : s0.m_bins.length = v.length) (h0c : s0.m_counts = List.replicate (M + 1) 0) :
    ∃ s, ParallelFor order (gpuHistTask v f) s0 = some s ∧
      s.m_items = s0.m_items ∧ s.m_perm = s0.m_perm ∧ s.m_offsets = s0.m_offsets ∧
      s.m_bins = binsOf v f ∧ s.m_counts.length = M + 1 ∧
      ∀ c, c ≤ M → s.m_counts[c]? = some ((binsOf v f).count c) := by
  have hl := binsOf_length v f
  have ho' : order.Perm (List.range (binsOf v f).length) := by rw [hl]; exact ho
  obtain ⟨s, hs, h1, h2, h3, h4, h5, h6, h7⟩ := foldlM_prefix_inv (gpuHistTask v f)
    (fun pre s => s.m_items = s0.m_items ∧ s.m_perm = s0.m_perm ∧
      s.m_offsets = s0.m_offsets ∧ s.m_bins.length = v.length ∧
      (∀ k, k ∈ pre → s.m_bins[k]? = (binsOf v f)[k]?) ∧ s.m_counts.length = M + 1 ∧
      ∀ c, c ≤ M → s.m_counts[c]? = some (seenIn (binsOf v f) c pre))
    order s0
    ⟨rfl, rfl, rfl, h0b, by intro k hk; simp at hk, by simp [h0c], by
      intro c hc
      simp only [h0c, List.getElem?_replicate, seenIn_nil]
      rw [if_pos (by omega)]⟩
    (by
      intro pre a rest s hpre ⟨h1, h2, h3, h4, h5, h6, h7⟩
      have ha : a < v.length := mem_order_lt ho hpre
      have hy : v[a]? = some v[a] := List.getElem?_eq_getElem ha
      have hba := binsOf_getElem? v f hy
      have hlt : to_index_type (f v[a]) < M := hb _ (List.mem_iff_getElem?.2 ⟨a, hba⟩)
      have hstep := gpuHistTask_eq v f s a _ v[a] hy (by omega) (h7 _ (le_of_lt hlt))
      have hbound : ∀ c, seenIn (binsOf v f) c (pre ++ [a]) ≤ v.length := by
        intro c
        have h := seenIn_le_count (binsOf v f) c ho'
          (show order = (pre ++ [a]) ++ rest by rw [hpre]; simp)
        have := List.count_le_length c (binsOf v f)
        omega
      refine ⟨_, hstep, h1, h2, h3, by simp [h4], ?_, by simp [h6], ?_⟩
      · intro k hk
        simp only []
        by_cases hka : k = a
        · subst hka
          rw [List.getElem?_set_self (by omega), hba]
        · rw [List.getElem?_set_ne (fun h => hka h.symm)]
          rw [List.mem_append, List.mem_singleton] at hk
          exact h5 k (hk.resolve_right hka)
      · intro c hc
        simp only []
        have hsc := seenIn_concat (binsOf v f) _ c a pre hba
        have hb' := hbound c
        by_cases hcb : to_index_type (f v[a]) = c
        · subst hcb
          rw [if_pos rfl] at hsc
          rw [List.getElem?_set_self (by omega), hsc, to_index_type_eq (by omega)]
        · rw [if_neg hcb] at hsc
          rw [List.getElem?_set_ne hcb, hsc]
          exact h7 c hc)
  refine ⟨s, hs, h1, h2, h3, ?_, h6, ?_⟩
  · apply List.ext_getElem?
    intro k
    by_cases hk : k < v.length
    · exact h5 k (ho.mem_iff.2 (List.mem_range.2 hk))
    · rw [List.getElem?_eq_none (by omega), List.getElem?_eq_none (by rw [hl]; omega)]
  · intro c hc
    rw [h7 c hc, seenIn_of_perm _ _ ho']

theorem binStart_add_count (bs : List Nat) (b : Nat) :
    binStart bs b + bs.count b = binStart bs (b + 1) := (binStart_succ bs b).symm

/-- Second kernel of the GPU build, the tasks taking effect in any order and the run
starts being the cursors: every item lands in a slot of its own inside the run of its
bin, and each cursor ends at the start of the next run. -/
theorem gpuScatter_spec {T : Type} (bs : List Nat) (M : Nat) (order : List Nat)
    (s0 : DenseBins T) (ho : order.Perm (List.range bs.length))
    (hN : bs.length < index_type_size) (hb : ∀ b ∈ bs, b < M)
    (h0b : s0.m_bins = bs) (h0c : s0.m_counts = (List.range (M + 1)).map (binStart bs))
    (h0p : s0.m_perm.length = bs.length) :
    ∃ s, ParallelFor order gpuScatterTask s0 = some s ∧
      s.m_items = s0.m_items ∧ s.m_offsets = s0.m_offsets ∧ s.m_bins = bs ∧
      s.m_perm.length = bs.length ∧
      (∀ j, j < bs.length → ∃ p, s.m_perm[p]? = some j ∧
        ∀ b, bs[j]? = some b → binStart bs b ≤ p ∧ p < binStart bs (b + 1)) ∧
      s.m_counts.length = M + 1 ∧
      ∀ c, c ≤ M → s.m_counts[c]? = some (binStart bs (c + 1)) := by
  obtain ⟨s, hs, h1, h2, h3, h4, h5, h6, h7⟩ := foldlM_prefix_inv gpuScatterTask
    (fun pre s => s.m_items = s0.m_items ∧ s.m_offsets = s0.m_offsets ∧ s.m_bins = bs ∧
      s.m_perm.length = bs.length ∧
      (∀ j, j ∈ pre → ∃ p, s.m_perm[p]? = some j ∧
        ∀ b, bs[j]? = some b → binStart bs b ≤ p ∧ p < binStart bs b + seenIn bs b pre) ∧
      s.m_counts.length = M + 1 ∧
      ∀ c, c ≤ M → s.m_counts[c]? = some (binStart bs c + seenIn bs c pre))
    order s0
    ⟨rfl, rfl, h0b, h0p, by intro j hj; simp at hj, by simp [h0c], by
      intro c hc
      simp [h0c, List.getElem?_range (show c < M + 1 by omega), seenIn_nil]⟩
    (by
      intro pre a rest s hpre ⟨h1, h2, h3, h4, h5, h6, h7⟩
      have ha : a < bs.length := mem_order_lt ho hpre
      have hba : bs[a]? = some bs[a] := List.getElem?_eq_getElem ha
      have hlt : bs[a] < M := hb _ (List.getElem_mem _)
      have hold := h7 _ (le_of_lt hlt)
      have hsa := seenIn_concat bs bs[a] bs[a] a pre hba
      rw [if_pos rfl] at hsa
      have hcnt := seenIn_le_count bs bs[a] ho
        (show order = (pre ++ [a]) ++ rest by rw [hpre]; simp)
      have hnext := binStart_add_count bs bs[a]
      have hle := binStart_le_length bs (bs[a] + 1)
      have hmax : binStart bs bs[a] + seenIn bs bs[a] pre < max_index := by
        unfold max_index; omega
      have hstep := gpuScatterTask_eq s a bs[a] _ (by rw [h3]; exact hba) hold (by omega)
      rw [if_pos hmax] at hstep
      refine ⟨_, hstep, h1, h2, h3, by simp [h4], ?_, by simp [h6], ?_⟩
      · intro j hj
        simp only []
        by_cases hja : j = a
        · subst hja
          refine ⟨binStart bs bs[j] + seenIn bs bs[j] pre, ?_, ?_⟩
          · rw [List.getElem?_set_self (by omega), to_index_type_eq (by omega)]
          · intro b hbj
            rw [hba] at hbj
            cases hbj
            omega
        · rw [List.mem_append, List.mem_singleton] at hj
          obtain ⟨p, hp, hpb⟩ := h5 j (hj.resolve_right hja)
          have hjl : j < bs.length := by
            have : j ∈ order := by rw [hpre]; exact List.mem_append_left _ (hj.resolve_right hja)
            exact List.mem_range.1 (ho.mem_iff.1 this)
          have hbj : bs[j]? = some bs[j] := List.getElem?_eq_getElem hjl
          have hpj := hpb _ hbj
          have hcj := seenIn_le_count bs bs[j] ho
            (show order = pre ++ (a :: rest) from hpre)
          have hnj := binStart_add_count bs bs[j]
          have hne : binStart bs bs[a] + seenIn bs bs[a] pre ≠ p := by
            rcases Nat.lt_trichotomy bs[j] bs[a] with hlt' | heq | hgt
            · have := binStart_mono bs (show bs[j] + 1 ≤ bs[a] by omega); omega
            · rw [heq] at hpj; omega
            · have := binStart_mono bs (show bs[a] + 1 ≤ bs[j] by omega); omega
          refine ⟨p, by rw [List.getElem?_set_ne hne]; exact hp, ?_⟩
          intro b hbj'
          have h := hpb b hbj'
          have := seenIn_le_of_append bs b pre [a]
          omega
      · intro c hc
        simp only []
        have hsc := seenIn_concat bs bs[a] c a pre hba
        by_cases hcb : bs[a] = c
        · subst hcb
          rw [List.getElem?_set_self (by omega), hsa]
          rfl
        · rw [if_neg hcb] at hsc
          rw [List.getElem?_set_ne hcb, hsc]
          exact h7 c hc)
  refine ⟨s, hs, h1, h2, h3, h4, ?_, h6, ?_⟩
  · intro j hj
    obtain ⟨p, hp, hpb⟩ := h5 j (ho.mem_iff.2 (List.mem_range.2 hj))
    refine ⟨p, hp, ?_⟩
    intro b hbj
    have h := hpb b hbj
    rw [seenIn_of_perm bs b ho, binStart_add_count] at h
    exact h
  · intro c hc
    rw [h7 c hc, seenIn_of_perm bs c ho, binStart_add_count]

/-- A rearrangement of the item indices that puts every item inside the run of its bin
makes the engine `Grouped`. -/
theorem Grouped.of_slots {T : Type} {bs : List Nat} {M : Nat} {s : DenseBins T}
    (hbins : s.m_bins = bs) (hoff : s.m_offsets = (List.range (M + 1)).map (binStart bs))
    (hlen : s.m_perm.length = bs.length)
    (hslots : ∀ j, j < bs.length → ∃ p, s.m_perm[p]? = some j ∧
      ∀ b, bs[j]? = some b → binStart bs b ≤ p ∧ p < binStart bs (b + 1)) :
    Grouped bs M s := by
  have hsub : List.range bs.length ⊆ s.m_perm := by
    intro j hj
    rw [List.mem_range] at hj
    obtain ⟨p, hp, _⟩ := hslots j hj
    exact List.mem_iff_getElem?.2 ⟨p, hp⟩
  have hperm : s.m_perm.Perm (List.range bs.length) :=
    ((List.subperm_of_subset (List.nodup_range _) hsub).perm_of_length_le
      (by simp [hlen])).symm
  have hnd : s.m_perm.Nodup := hperm.nodup_iff.2 (List.nodup_range _)
  refine ⟨hbins, hoff, hperm, ?_⟩
  intro p j b hp hbj
  have hj : j < bs.length := by
    rw [List.getElem?_eq_some] at hbj; exact hbj.1
  obtain ⟨q, hq, hqb⟩ := hslots j hj
  rw [List.getElem?_eq_some] at hp hq
  obtain ⟨hpl, hpe⟩ := hp
  obtain ⟨hql, hqe⟩ := hq
  have hpq : p = q := (hnd.getElem_inj_iff).1 (hpe.trans hqe.symm)
  rw [hpq]
  exact hqb b hbj

theorem Binned.grouped {T : Type} {bs : List Nat} {M : Nat} {s : DenseBins T}
    (hB : Binned bs M s) : Grouped bs M s := by
  apply Grouped.of_slots hB.bins hB.offsets hB.perm_length
  intro j hj
  refine ⟨rank bs j, hB.perm_rank j hj, ?_⟩
  intro b hbj
  exact ⟨binStart_le_rank bs hbj, rank_lt_next bs hbj⟩

/-- The GPU build returns for every order in which the tasks of its two kernels take
effect, and its arrays group the items by their stored bin ids; `m_counts` ends as in
the sequential build. -/
theorem build_GPU_spec {T : Type} (junk : Nat → Nat) (hist_order scatter_order : List Nat)
    (self : DenseBins T) (v : List T) (nbins : Nat) (f : T → Nat)
    (hh : hist_order.Perm (List.range v.length))
    (hsc : scatter_order.Perm (List.range v.length)) (hN : v.length < index_type_size)
    (hf : ∀ x ∈ v, f x < nbins) :
    ∃ s, build_GPU junk hist_order scatter_order self v.length v nbins f = some s ∧
      s.m_items = v ∧ Grouped (binsOf v f) nbins s ∧ s.m_counts.length = nbins + 1 ∧
      ∀ c, c ≤ nbins → s.m_counts[c]? = some (binStart (binsOf v f) (c + 1)) := by
  have hb := binsOf_lt v f nbins hf
  have hl := binsOf_length v f
  obtain ⟨s1, hs1, a1, a2, a3, a4, a5, a6⟩ := gpuHist_spec v f nbins hist_order
    { m_items := v
      m_bins := resize junk self.m_bins v.length
      m_perm := resize junk self.m_perm v.length
      m_counts := resize_val (resize junk self.m_counts 0) (nbins + 1) 0
      m_offsets := resize junk (resize junk self.m_offsets 0) (nbins + 1) }
    hh hN hb (resize_length _ _ _) (resize_val_zero _ _ _ _)
  have hscan := exclusive_scan_counts (binsOf v f) s1.m_counts s1.m_offsets nbins
    (by omega) a5 (by rw [a3]; exact resize_length _ _ _) a6
  have hcopy := copy_same_length ((List.range (nbins + 1)).map (binStart (binsOf v f)))
    s1.m_counts (by simp [a5])
  obtain ⟨s, hs, b1, b2, b3, b4, b5, b6, b7⟩ := gpuScatter_spec (binsOf v f) nbins
    scatter_order
    { s1 with
      m_offsets := (List.range (nbins + 1)).map (binStart (binsOf v f))
      m_counts := (List.range (nbins + 1)).map (binStart (binsOf v f)) }
    (by rw [hl]; exact hsc) (by omega) hb a4 rfl
    (by simp only []; rw [a2]; simp only [resize_length, hl])
  refine ⟨s, ?_, by rw [b1, a1], Grouped.of_slots b3 b2 b4 b5, b6, b7⟩
  simp only [build_GPU, hs1, hscan, hcopy, Option.bind_eq_bind, Option.some_bind]
  exact hs

/-! ## What follows from `Grouped`, whatever the order inside the runs -/

theorem Grouped.length_perm {T : Type} {bs : List Nat} {M : Nat} {s : DenseBins T}
    (hG : Grouped bs M s) : s.m_perm.length = bs.length := by
  rw [hG.perm_perm.length_eq, List.length_range]

theorem Grouped.nodup_perm {T : Type} {bs : List Nat} {M : Nat} {s : DenseBins T}
    (hG : Grouped bs M s) : s.m_perm.Nodup :=
  hG.perm_perm.nodup_iff.2 (List.nodup_range _)

theorem Grouped.offset_at {T : Type} {bs : List Nat} {M : Nat} {s : DenseBins T}
    (hG : Grouped bs M s) {k : Nat} (hk : k ≤ M) :
    s.m_offsets[k]? = some (binStart bs k) := by
  simp [hG.offsets, List.getElem?_range (show k < M + 1 by omega)]

/-- Every slot holds an item, and that item's bin is the bin whose run holds the slot. -/
theorem Grouped.slot_item {T : Type} {bs : List Nat} {M : Nat} {s : DenseBins T}
    (hG : Grouped bs M s) {p : Nat} (hp : p < bs.length) :
    ∃ j, j < bs.length ∧ s.m_perm[p]? = some j ∧
      binStart bs bs[j]! ≤ p ∧ p < binStart bs (bs[j]! + 1) ∧ bs[j]? = some bs[j]! := by
  have hpl : p < s.m_perm.length := by rw [hG.length_perm]; exact hp
  have hmem : s.m_perm[p] ∈ List.range bs.length :=
    hG.perm_perm.mem_iff.1 (List.getElem_mem hpl)
  rw [List.mem_range] at hmem
  have hb : bs[s.m_perm[p]]? = some bs[s.m_perm[p]]! := by
    rw [List.getElem?_eq_getElem hmem, getElem!_pos bs _ hmem]
  have h := hG.perm_bin p _ _ (List.getElem?_eq_getElem hpl) hb
  exact ⟨s.m_perm[p], hmem, List.getElem?_eq_getElem hpl, h.1, h.2, hb⟩

theorem Grouped.valid_permutation {T : Type} {bs : List Nat} {M : Nat} {s : DenseBins T}
    (hG : Grouped bs M s) : PermutationValid s.m_perm bs.length := by
  refine ⟨hG.length_perm, hG.perm_perm, ?_⟩
  intro i hi
  rw [hG.perm_perm.count_eq]
  exact List.count_eq_one_of_mem (List.nodup_range _) (List.mem_range.2 hi)

/-- Every item index sits in exactly one slot. -/
theorem Grouped.unique_slot {T : Type} {bs : List Nat} {M : Nat} {s : DenseBins T}
    (hG : Grouped bs M s) {i : Nat} (hi : i < bs.length) :
    ∃ p, (p < bs.length ∧ s.m_perm[p]? = some i) ∧
      ∀ q, s.m_perm[q]? = some i → q = p := by
  have hmem : i ∈ s.m_perm := hG.perm_perm.mem_iff.2 (List.mem_range.2 hi)
  obtain ⟨p, hp⟩ := List.mem_iff_getElem?.1 hmem
  have hpl : p < s.m_perm.length := by
    rw [List.getElem?_eq_some] at hp; exact hp.1
  refine ⟨p, ⟨by rw [← hG.length_perm]; exact hpl, hp⟩, ?_⟩
  intro q hq
  rw [List.getElem?_eq_some] at hp hq
  obtain ⟨_, hpe⟩ := hp
  obtain ⟨_, hqe⟩ := hq
  exact (hG.nodup_perm.getElem_inj_iff).1 (hqe.trans hpe.symm)

/-- The slots of the run of bin `b` hold exactly the items of bin `b`. -/
theorem Grouped.run_mem {T : Type} {bs : List Nat} {M : Nat} {s : DenseBins T}
    (hG : Grouped bs M s) (b j : Nat) :
    (∃ p, binStart bs b ≤ p ∧ p < binStart bs (b + 1) ∧ s.m_perm[p]? = some j) ↔
      bs[j]? = some b := by
  constructor
  · rintro ⟨p, h1, h2, hp⟩
    have hpN : p < bs.length := lt_of_lt_of_le h2 (binStart_le_length _ _)
    obtain ⟨j', hj', hp', h3, h4, hb⟩ := hG.slot_item hpN
    rw [hp] at hp'
    cases hp'
    have hbb : bs[j]! = b := by
      rcases Nat.lt_trichotomy bs[j]! b with hlt | heq | hgt
      · have := binStart_mono bs (show bs[j]! + 1 ≤ b by omega); omega
      · exact heq
      · have := binStart_mono bs (show b + 1 ≤ bs[j]! by omega); omega
    rw [hb, hbb]
  · intro hbj
    have hj : j < bs.length := by
      rw [List.getElem?_eq_some] at hbj; exact hbj.1
    obtain ⟨p, ⟨_, hp⟩, _⟩ := hG.unique_slot hj
    have h := hG.perm_bin p j b hp hbj
    exact ⟨p, h.1, h.2, hp⟩

theorem Grouped.consistent_bins {T : Type} {bs : List Nat} {M : Nat} {s : DenseBins T}
    (hG : Grouped bs M s) : BinConsistent s M := by
  intro b hb
  refine ⟨_, _, hG.offset_at (le_of_lt hb), hG.offset_at hb, ?_⟩
  intro p h1 h2
  have hpN : p < bs.length := lt_of_lt_of_le h2 (binStart_le_length _ _)
  obtain ⟨j, _, hp, _, _, _⟩ := hG.slot_item hpN
  refine ⟨j, hp, ?_⟩
  rw [hG.bins]
  exact (hG.run_mem b j).1 ⟨p, h1, h2, hp⟩

theorem Grouped.shape_of_offsets {T : Type} {bs : List Nat} {M : Nat} {s : DenseBins T}
    (hG : Grouped bs M s) (hb : ∀ b ∈ bs, b < M) : OffsetsShape s.m_offsets M bs.length := by
  have hM := binStart_eq_length bs M hb
  have hgetD : ∀ k, k ≤ M → s.m_offsets.getD k 0 = binStart bs k := by
    intro k hk
    rw [List.getD_eq_getElem?_getD, hG.offset_at hk]; rfl
  refine ⟨by simp [hG.offsets], ?_, ?_, ?_, ?_, ?_⟩
  · rw [hG.offset_at (Nat.zero_le _), binStart_zero]
  · rw [hG.offset_at (le_refl _), hM]
  · intro b hbM
    rw [hgetD b (le_of_lt hbM), hgetD (b + 1) hbM]
    exact binStart_mono bs (by omega)
  · rw [← hM, ← binStart_sum_sizes bs M]
    apply Finset.sum_congr rfl
    intro b hbM
    rw [Finset.mem_range] at hbM
    rw [hgetD b (le_of_lt hbM), hgetD (b + 1) hbM]
  · rw [hgetD M (le_refl _), hgetD 0 (Nat.zero_le _), binStart_zero, hM]
    rfl

/-- The run of bin `b`, as a list, is a rearrangement of the items of bin `b`. -/
theorem Grouped.run_perm {T : Type} {bs : List Nat} {M : Nat} {s : DenseBins T}
    (hG : Grouped bs M s) (b : Nat) :
    ((s.m_perm.drop (binStart bs b)).take (binStart bs (b + 1) - binStart bs b)).Perm
      ((List.range bs.length).filter (fun j => decide (bs[j]? = some b))) := by
  have hmono := binStart_mono bs (show b ≤ b + 1 by omega)
  have hle := binStart_le_length bs (b + 1)
  have hget : ∀ k, k < binStart bs (b + 1) - binStart bs b →
      ((s.m_perm.drop (binStart bs b)).take (binStart bs (b + 1) - binStart bs b))[k]? =
        s.m_perm[binStart bs b + k]? := by
    intro k hk
    rw [List.getElem?_take, if_pos hk, List.getElem?_drop]
  have hlen : ((s.m_perm.drop (binStart bs b)).take
      (binStart bs (b + 1) - binStart bs b)).length = binStart bs (b + 1) - binStart bs b := by
    rw [List.length_take, List.length_drop, hG.length_perm]; omega
  rw [List.perm_ext_iff_of_nodup
    (hG.nodup_perm.sublist ((List.take_sublist _ _).trans (List.drop_sublist _ _)))
    ((List.nodup_range _).filter _)]
  intro x
  rw [List.mem_filter, List.mem_range, decide_eq_true_eq, List.mem_iff_getElem?]
  constructor
  · rintro ⟨k, hk⟩
    have hkl : k < binStart bs (b + 1) - binStart bs b := by
      rw [List.getElem?_eq_some] at hk
      rw [← hlen]; exact hk.1
    rw [hget k hkl] at hk
    have hbx := (hG.run_mem b x).1 ⟨binStart bs b + k, by omega, by omega, hk⟩
    refine ⟨?_, hbx⟩
    rw [List.getElem?_eq_some] at hbx; exact hbx.1
  · rintro ⟨_, hbx⟩
    obtain ⟨p, h1, h2, hp⟩ := (hG.run_mem b x).2 hbx
    refine ⟨p - binStart bs b, ?_⟩
    rw [hget _ (by omega)]
    have he : binStart bs b + (p - binStart bs b) = p := by omega
    rw [he]
    exact hp

/-! ## The GPU build on the host -/

theorem foldlM_congr_inv {σ α : Type} (f g : σ → α → Option σ) (Inv : σ → Prop)
    (hfg : ∀ s a, Inv s → f s a = g s a)
    (hInv : ∀ s a s', Inv s → g s a = some s' → Inv s') :
    ∀ (l : List α) (s : σ), Inv s → l.foldlM f s = l.foldlM g s := by
  intro l
  induction l with
  | nil => intro s _; rfl
  | cons a l ih =>
    intro s hs
    rw [List.foldlM_cons, List.foldlM_cons, hfg s a hs]
    cases hg : g s a with
    | none => rfl
    | some s' => exact ih s' (hInv s a s' hs hg)

theorem foldlM_preserves {σ α : Type} (g : σ → α → Option σ) (P : σ → Prop)
    (hP : ∀ s a s', P s → g s a = some s' → P s') :
    ∀ (l : List α) (s s' : σ), P s → l.foldlM g s = some s' → P s' := by
  intro l
  induction l with
  | nil =>
    intro s s' hs h
    simp only [List.foldlM_nil] at h
    cases h
    exact hs
  | cons a l ih =>
    intro s s' hs h
    rw [List.foldlM_cons] at h
    cases hg : g s a with
    | none => rw [hg] at h; cases h
    | some s1 =>
      rw [hg] at h
      exact ih s1 s' (hP s a s1 hs hg) h

theorem store_some {vec : List Nat} {i x : Nat} {r : List Nat} (h : store vec i x = some r) :
    i < vec.length ∧ r = vec.set i x := by
  unfold store at h
  split at h
  · rename_i hi
    cases h
    exact ⟨hi, rfl⟩
  · cases h

/-- With plain read-modify-writes the task of the first kernel is the body of the
first loop of the sequential build. -/
theorem gpuHistTask_eq_serialHistStep {T : Type} (v : List T) (f : T → Nat) :
    gpuHistTask v f = serialHistStep v f := by
  funext s i
  simp only [gpuHistTask, serialHistStep, Atomic_AddNoRet, Option.bind_eq_bind,
    Option.bind_assoc]

theorem to_index_type_lt (n : Nat) : to_index_type n < index_type_size :=
  Nat.mod_lt _ (by unfold index_type_size; omega)

theorem Atomic_Inc_max_index (old : Nat) (h : old < index_type_size) :
    (if old < max_index then old + 1 else 0) = to_index_type (old + 1) := by
  unfold max_index
  by_cases hlt : old < index_type_size - 1
  · rw [if_pos hlt, to_index_type_eq (by omega)]
  · rw [if_neg hlt]
    have : old + 1 = index_type_size := by omega
    rw [this]
    simp [to_index_type]

/-- With counters that are `index_type` values the task of the second kernel is the
body of the second loop of the sequential build. -/
theorem gpuScatterTask_eq_serialScatterStep {T : Type} (s : DenseBins T) (i : Nat)
    (h : ∀ x ∈ s.m_counts, x < index_type_size) :
    gpuScatterTask s i = serialScatterStep s i := by
  unfold gpuScatterTask serialScatterStep Atomic_Inc
  cases hb : s.m_bins[i]? with
  | none => rfl
  | some b =>
    cases hc : s.m_counts[b]? with
    | none => simp [hb, hc]
    | some old =>
      have hold : old < index_type_size := h old (List.mem_iff_getElem?.2 ⟨b, hc⟩)
      simp only [Option.bind_eq_bind, Option.some_bind, hc, Atomic_Inc_max_index old hold,
        Option.bind_assoc]

theorem serialHistStep_preserves {T : Type} (v : List T) (f : T → Nat) (n : Nat)
    (O : List Nat) (s : DenseBins T) (i : Nat) (s' : DenseBins T)
    (hs : s.m_counts.length = n ∧ s.m_offsets = O ∧ ∀ x ∈ s.m_counts, x < index_type_size)
    (h : serialHistStep v f s i = some s') :
    s'.m_counts.length = n ∧ s'.m_offsets = O ∧ ∀ x ∈ s'.m_counts, x < index_type_size := by
  simp only [serialHistStep, Option.bind_eq_bind, Option.bind_eq_some] at h
  obtain ⟨x, _, bins, _, b, _, cnt, _, counts, hcounts, hs'⟩ := h
  cases hs'
  obtain ⟨_, rfl⟩ := store_some hcounts
  refine ⟨by simp [hs.1], hs.2.1, ?_⟩
  intro y hy
  rcases List.mem_or_eq_of_mem_set hy with hmem | heq
  · exact hs.2.2 y hmem
  · rw [heq]; exact to_index_type_lt _

theorem serialScatterStep_preserves {T : Type} (s : DenseBins T) (i : Nat)
    (s' : DenseBins T) (hs : ∀ x ∈ s.m_counts, x < index_type_size)
    (h : serialScatterStep s i = some s') : ∀ x ∈ s'.m_counts, x < index_type_size := by
  simp only [serialScatterStep, Option.bind_eq_bind, Option.bind_eq_some] at h
  obtain ⟨b, _, index, _, counts, hcounts, perm, _, hs'⟩ := h
  cases hs'
  obtain ⟨_, rfl⟩ := store_some hcounts
  intro y hy
  rcases List.mem_or_eq_of_mem_set hy with hmem | heq
  · exact hs y hmem
  · rw [heq]; exact to_index_type_lt _

theorem exclusive_scan_from_lt (l : List Nat) :
    ∀ acc : Nat, acc < index_type_size →
      ∀ x ∈ exclusive_scan_from acc l, x < index_type_size := by
  induction l with
  | nil => intro acc _ x hx; simp [exclusive_scan_from] at hx
  | cons c cs ih =>
    intro acc hacc x hx
    simp only [exclusive_scan_from, List.mem_cons] at hx
    rcases hx with rfl | hx
    · exact hacc
    · exact ih _ (to_index_type_lt _) x hx

theorem exclusive_scan_same_length (C O : List Nat) (h : C.length = O.length) :
    exclusive_scan C O = some (exclusive_scan_from 0 C) := by
  unfold exclusive_scan
  rw [if_pos (by omega), List.drop_of_length_le (by omega), List.append_nil]

/-- On the host, where `ParallelFor` is the loop `i = 0, ..., nitems-1` and the atomic
operations are plain read-modify-writes, the GPU build is the sequential build: the
same outcome on every input, every array included. -/
theorem build_GPU_host {T : Type} (junk : Nat → Nat) (self : DenseBins T) (nitems : Nat)
    (v : List T) (nbins : Nat) (f : T → Nat) :
    build_GPU junk (List.range nitems) (List.range nitems) self nitems v nbins f =
      build_Serial junk self nitems v nbins f := by
  unfold build_GPU build_Serial ParallelFor
  rw [gpuHistTask_eq_serialHistStep]
  simp only [Option.bind_eq_bind]
  cases h1 : (List.range nitems).foldlM (serialHistStep v f)
      { m_items := v
        m_bins := resize junk self.m_bins nitems
        m_perm := resize junk self.m_perm nitems
        m_counts := resize_val (resize junk self.m_counts 0) (nbins + 1) 0
        m_offsets := resize junk (resize junk self.m_offsets 0) (nbins + 1) } with
  | none => rfl
  | some s1 =>
    obtain ⟨hc, ho, _⟩ := foldlM_preserves (serialHistStep v f)
      (fun s => s.m_counts.length = nbins + 1 ∧
        s.m_offsets = resize junk (resize junk self.m_offsets 0) (nbins + 1) ∧
        ∀ x ∈ s.m_counts, x < index_type_size)
      (fun s a s' hs h => serialHistStep_preserves v f (nbins + 1) _ s a s' hs h)
      (List.range nitems) _ s1
      ⟨by rw [resize_val_zero]; simp, rfl, by
        intro x hx
        rw [resize_val_zero] at hx
        rw [List.eq_of_mem_replicate hx]
        unfold index_type_size; omega⟩ h1
    have hlen : s1.m_counts.length = s1.m_offsets.length := by
      rw [hc, ho, resize_length]
    have hcopy : copy (exclusive_scan_from 0 s1.m_counts) s1.m_counts =
        some (exclusive_scan_from 0 s1.m_counts) :=
      copy_same_length _ _ (exclusive_scan_from_length _ _)
    simp only [Option.some_bind, exclusive_scan_same_length _ _ hlen, hcopy]
    apply foldlM_congr_inv gpuScatterTask serialScatterStep
      (fun s => ∀ x ∈ s.m_counts, x < index_type_size)
      (fun s a hs => gpuScatterTask_eq_serialScatterStep s a hs)
      (fun s a s' hs h => serialScatterStep_preserves s a s' hs h)
    exact exclusive_scan_from_lt _ 0 (by unfold index_type_size; omega)

/-! ## The `Box` adapter -/

theorem int_to_index_type_natCast (a : Nat) (h : a < index_type_size) :
    int_to_index_type (a : Int) = a := by
  unfold int_to_index_type
  rw [← Int.natCast_mod, Int.toNat_natCast]
  exact Nat.mod_eq_of_lt h

/-- Clamped coordinates flatten without wrapping, to an id below the number of cells. -/
theorem flatten_clamped (NX NY NZ a b c : Nat) (ha : a < NX) (hb : b < NY) (hc : c < NZ)
    (hP : NX * NY * NZ < index_type_size) :
    to_index_type (to_index_type (to_index_type (to_index_type
      (int_to_index_type (a : Int) * int_to_index_type (NY : Int)) +
        int_to_index_type (b : Int)) * int_to_index_type (NZ : Int)) +
          int_to_index_type (c : Int)) = (a * NY + b) * NZ + c ∧
    (a * NY + b) * NZ + c < NX * NY * NZ := by
  have h1 : NY * a + b < NY * NX := flat_lt ha hb
  have h2 : NZ * (NY * a + b) + c < NZ * (NY * NX) := flat_lt h1 hc
  have e1 : NZ * (NY * NX) = NX * NY * NZ := by ring
  have e2 : NZ * (NY * a + b) + c = (a * NY + b) * NZ + c := by ring
  have hq : (a * NY + b) * NZ + c < NX * NY * NZ := by rw [← e1, ← e2]; exact h2
  have k1 : a ≤ a * NY := Nat.le_mul_of_pos_right a (by omega)
  have k2 : a * NY + b ≤ (a * NY + b) * NZ := Nat.le_mul_of_pos_right _ (by omega)
  have k3 : NY ≤ NX * NY := Nat.le_mul_of_pos_left NY (by omega)
  have k4 : NX * NY ≤ NX * NY * NZ := Nat.le_mul_of_pos_right _ (by omega)
  have k5 : NZ ≤ NX * NY * NZ := Nat.le_mul_of_pos_left NZ (Nat.mul_pos (by omega) (by omega))
  rw [int_to_index_type_natCast a (by omega), int_to_index_type_natCast NY (by omega),
    int_to_index_type_natCast b (by omega), int_to_index_type_natCast NZ (by omega),
    int_to_index_type_natCast c (by omega),
    to_index_type_eq (show a * NY < index_type_size by omega),
    to_index_type_eq (show a * NY + b < index_type_size by omega),
    to_index_type_eq (show (a * NY + b) * NZ < index_type_size by omega),
    to_index_type_eq (show (a * NY + b) * NZ + c < index_type_size by omega)]
  exact ⟨rfl, hq⟩

theorem clamp_cast (n : Nat) (hn : 0 < n) (x : Int) :
    ∃ a : Nat, a < n ∧ min ((n : Int) - 1) (max 0 x) = (a : Int) := by
  refine ⟨(min ((n : Int) - 1) (max 0 x)).toNat, ?_, ?_⟩
  · omega
  · omega

/-- A box all of whose extents are positive. -/
theorem Box.numPts_eq (bx : Box) (NX NY NZ : Nat)
    (hx : bx.bigEnd.x - bx.smallEnd.x + 1 = (NX : Int))
    (hy : bx.bigEnd.y - bx.smallEnd.y + 1 = (NY : Int))
    (hz : bx.bigEnd.z - bx.smallEnd.z + 1 = (NZ : Int))
    (h0 : 0 < NX ∧ 0 < NY ∧ 0 < NZ) : bx.numPts = NX * NY * NZ := by
  unfold Box.numPts
  simp only [hx, hy, hz]
  rw [if_pos (by omega)]
  have : ((NX : Int) * NY * NZ) = ((NX * NY * NZ : Nat) : Int) := by push_cast; ring
  rw [this, Int.toNat_natCast]

/-- For a box with positive extents and fewer than `2^32` cells the adapter of the
sequential overload returns an id below `bx.numPts()`, whatever coordinates the mapper
returns. -/
theorem boxBin_Serial_lt {T : Type} (bx : Box) (f : T → Dim3) (t : T)
    (hx : 0 < bx.bigEnd.x - bx.smallEnd.x + 1) (hy : 0 < bx.bigEnd.y - bx.smallEnd.y + 1)
    (hz : 0 < bx.bigEnd.z - bx.smallEnd.z + 1) (hP : bx.numPts < index_type_size) :
    boxBin_Serial bx f t < bx.numPts := by
  obtain ⟨NX, hNX⟩ := Int.eq_ofNat_of_zero_le (le_of_lt hx)
  obtain ⟨NY, hNY⟩ := Int.eq_ofNat_of_zero_le (le_of_lt hy)
  obtain ⟨NZ, hNZ⟩ := Int.eq_ofNat_of_zero_le (le_of_lt hz)
  have h0 : 0 < NX ∧ 0 < NY ∧ 0 < NZ := by omega
  have hnum := bx.numPts_eq NX NY NZ hNX hNY hNZ h0
  obtain ⟨a, ha, hca⟩ := clamp_cast NX h0.1 (f t).x
  obtain ⟨b, hb, hcb⟩ := clamp_cast NY h0.2.1 (f t).y
  obtain ⟨c, hc, hcc⟩ := clamp_cast NZ h0.2.2 (f t).z
  have h := flatten_clamped NX NY NZ a b c ha hb hc (by rw [← hnum]; exact hP)
  simp only [boxBin_Serial, lbound, ubound, hNX, hNY, hNZ, hca, hcb, hcc]
  rw [h.1, hnum]
  exact h.2

theorem boxBin_OpenMP_eq_Serial {T : Type} (bx : Box) (f : T → Dim3) :
    boxBin_OpenMP bx f = boxBin_Serial bx f := rfl

theorem boxBin_GPU_eq_Serial {T : Type} (bx : Box) (f : T → Dim3) :
    boxBin_GPU bx f = boxBin_Serial bx f := rfl

/-- For a box with positive extents and fewer than `2^32` cells: the extents and the
clamped coordinates as natural numbers, and the adapter's value on them. -/
theorem boxBin_Serial_cast {T : Type} (bx : Box) (f : T → Dim3) (t : T) (hx : 0 < bx.nx)
    (hy : 0 < bx.ny) (hz : 0 < bx.nz) (hP : bx.numPts < index_type_size) :
    ∃ NX NY NZ a b c : Nat, bx.nx = (NX : Int) ∧ bx.ny = (NY : Int) ∧ bx.nz = (NZ : Int) ∧
      a < NX ∧ b < NY ∧ c < NZ ∧ clampCoord bx.nx (f t).x = (a : Int) ∧
      clampCoord bx.ny (f t).y = (b : Int) ∧ clampCoord bx.nz (f t).z = (c : Int) ∧
      bx.numPts = NX * NY * NZ ∧ boxBin_Serial bx f t = (a * NY + b) * NZ + c := by
  unfold Box.nx Box.ny Box.nz lbound ubound at *
  obtain ⟨NX, hNX⟩ := Int.eq_ofNat_of_zero_le (le_of_lt hx)
  obtain ⟨NY, hNY⟩ := Int.eq_ofNat_of_zero_le (le_of_lt hy)
  obtain ⟨NZ, hNZ⟩ := Int.eq_ofNat_of_zero_le (le_of_lt hz)
  have h0 : 0 < NX ∧ 0 < NY ∧ 0 < NZ := by omega
  have hnum := bx.numPts_eq NX NY NZ hNX hNY hNZ h0
  obtain ⟨a, ha, hca⟩ := clamp_cast NX h0.1 (f t).x
  obtain ⟨b, hb, hcb⟩ := clamp_cast NY h0.2.1 (f t).y
  obtain ⟨c, hc, hcc⟩ := clamp_cast NZ h0.2.2 (f t).z
  have h := flatten_clamped NX NY NZ a b c ha hb hc (by rw [← hnum]; exact hP)
  refine ⟨NX, NY, NZ, a, b, c, hNX, hNY, hNZ, ha, hb, hc, ?_, ?_, ?_, hnum, ?_⟩
  · unfold clampCoord; rw [hNX]; exact hca
  · unfold clampCoord; rw [hNY]; exact hcb
  · unfold clampCoord; rw [hNZ]; exact hcc
  · simp only [boxBin_Serial, lbound, ubound, hNX, hNY, hNZ, hca, hcb, hcc]
    exact h.1

/-- The adapter's value is the row-major id of the clamped coordinates. -/
theorem boxBin_Serial_exact {T : Type} (bx : Box) (f : T → Dim3) (t : T) (hx : 0 < bx.nx)
    (hy : 0 < bx.ny) (hz : 0 < bx.nz) (hP : bx.numPts < index_type_size) :
    ((boxBin_Serial bx f t : Nat) : Int) =
      (clampCoord bx.nx (f t).x * bx.ny + clampCoord bx.ny (f t).y) * bx.nz +
        clampCoord bx.nz (f t).z := by
  obtain ⟨NX, NY, NZ, a, b, c, h1, h2, h3, _, _, _, h4, h5, h6, _, h7⟩ :=
    boxBin_Serial_cast bx f t hx hy hz hP
  rw [h7, h4, h5, h6, h2, h3]
  push_cast
  rfl

/-- The adapter depends on the coordinates only through their clamps. -/
theorem boxBin_Serial_congr {T U : Type} (bx : Box) (f : T → Dim3) (g : U → Dim3) (t : T)
    (u : U)
    (h1 : clampCoord bx.nx (f t).x = clampCoord bx.nx (g u).x)
    (h2 : clampCoord bx.ny (f t).y = clampCoord bx.ny (g u).y)
    (h3 : clampCoord bx.nz (f t).z = clampCoord bx.nz (g u).z) :
    boxBin_Serial bx f t = boxBin_Serial bx g u := by
  unfold clampCoord Box.nx Box.ny Box.nz at *
  simp only [boxBin_Serial, h1, h2, h3]

theorem clampCoord_idem (n x : Int) (hn : 0 < n) :
    clampCoord n (clampCoord n x) = clampCoord n x := by
  unfold clampCoord; omega

theorem clampCoord_of_inRange (n x : Int) (h0 : 0 ≤ x) (h1 : x < n) : clampCoord n x = x := by
  unfold clampCoord; omega

theorem clampCoord_neg (n x : Int) (hx : x < 0) :
    clampCoord n x = clampCoord n 0 := by
  unfold clampCoord; omega

theorem clampCoord_big (n x : Int) (hn : 0 < n) (hx : n ≤ x) :
    clampCoord n x = clampCoord n (n - 1) := by
  unfold clampCoord; omega

/-- Whatever the box and the coordinates, the adapter's value is below the number of
cells of a box with positive extents. -/
theorem boxBin_Serial_lt_numPts {T : Type} (bx : Box) (f : T → Dim3) (t : T)
    (hx : 0 < bx.nx) (hy : 0 < bx.ny) (hz : 0 < bx.nz) :
    boxBin_Serial bx f t < bx.numPts := by
  by_cases hP : bx.numPts < index_type_size
  · exact boxBin_Serial_lt bx f t hx hy hz hP
  · have h : boxBin_Serial bx f t < index_type_size := by
      unfold boxBin_Serial
      exact to_index_type_lt _
    omega

theorem Dim3.eq_of {c d : Dim3} (hx : c.x = d.x) (hy : c.y = d.y) (hz : c.z = d.z) :
    c = d := by
  cases c; cases d
  simp only [Dim3.mk.injEq]
  exact ⟨hx, hy, hz⟩

theorem flatten_inj {NY NZ a b c a' b' c' : Nat} (hb : b < NY) (hb' : b' < NY) (hc : c < NZ)
    (hc' : c' < NZ) (h : (a * NY + b) * NZ + c = (a' * NY + b') * NZ + c') :
    a = a' ∧ b = b' ∧ c = c' := by
  have h1 : NZ * (a * NY + b) + c = NZ * (a' * NY + b') + c' := by
    rw [Nat.mul_comm NZ, Nat.mul_comm NZ]; exact h
  obtain ⟨h2, h3⟩ := flat_inj hc hc' h1
  have h4 : NY * a + b = NY * a' + b' := by
    rw [Nat.mul_comm NY, Nat.mul_comm NY]; exact h2
  obtain ⟨h5, h6⟩ := flat_inj hb hb' h4
  exact ⟨h5, h6, h3⟩

theorem flatten_surj {NX NY NZ n : Nat} (hNY : 0 < NY) (hNZ : 0 < NZ)
    (hn : n < NX * NY * NZ) :
    ∃ a b c, a < NX ∧ b < NY ∧ c < NZ ∧ (a * NY + b) * NZ + c = n := by
  refine ⟨n / NZ / NY, n / NZ % NY, n % NZ, ?_, Nat.mod_lt _ hNY, Nat.mod_lt _ hNZ, ?_⟩
  · rw [Nat.div_lt_iff_lt_mul hNY, Nat.div_lt_iff_lt_mul hNZ]
    exact hn
  · have h1 : n / NZ / NY * NY + n / NZ % NY = n / NZ := by
      rw [Nat.mul_comm]; exact Nat.div_add_mod _ _
    rw [h1, Nat.mul_comm]
    exact Nat.div_add_mod _ _

/-- The arrays of a `Grouped` engine satisfy the four build invariants, with valid bin
ids. -/
theorem Grouped.invariants {T : Type} {bs : List Nat} {M : Nat} {s : DenseBins T}
    (hG : Grouped bs M s) (hb : ∀ b ∈ bs, b < M) : BuildInvariants s bs.length M := by
  refine ⟨hG.shape_of_offsets hb, hG.valid_permutation, hG.consistent_bins, ?_⟩
  intro i hi
  refine ⟨bs[i], by rw [hG.bins]; exact List.getElem?_eq_getElem hi, hb _ (List.getElem_mem _)⟩

theorem Grouped.sized {T : Type} {bs : List Nat} {M : Nat} {s : DenseBins T}
    (hG : Grouped bs M s) : Sized s bs.length M := by
  have h1 := hG.length_perm
  have h2 : s.m_offsets.length = M + 1 := by simp [hG.offsets]
  refine ⟨by simp [DenseBins.numItems, h1], by simp [DenseBins.numBins, h2], h1,
    by rw [hG.bins], h2⟩

theorem boxBin_valid {T : Type} (bx : Box) (g : T → Dim3) (v : List T) (hx : 0 < bx.nx)
    (hy : 0 < bx.ny) (hz : 0 < bx.nz) : ∀ x ∈ v, boxBin_Serial bx g x < bx.numPts :=
  fun x _ => boxBin_Serial_lt_numPts bx g x hx hy hz

theorem Box.numPts_cast (bx : Box) (hx : 0 < bx.nx) (hy : 0 < bx.ny) (hz : 0 < bx.nz) :
    (bx.numPts : Int) = bx.nx * bx.ny * bx.nz := by
  unfold Box.nx Box.ny Box.nz lbound ubound at *
  obtain ⟨NX, hNX⟩ := Int.eq_ofNat_of_zero_le (le_of_lt hx)
  obtain ⟨NY, hNY⟩ := Int.eq_ofNat_of_zero_le (le_of_lt hy)
  obtain ⟨NZ, hNZ⟩ := Int.eq_ofNat_of_zero_le (le_of_lt hz)
  rw [bx.numPts_eq NX NY NZ hNX hNY hNZ (by omega), hNX, hNY, hNZ]
  push_cast
  rfl

/-! ## The `int nbins` parameter and the `Box` overloads -/

theorem INT_MAX_lt : INT_MAX < index_type_size := by decide

theorem long_to_int_of_le (n : Nat) (h : n ≤ INT_MAX) : long_to_int (n : Int) = (n : Int) := by
  unfold long_to_int
  unfold INT_MAX at h
  omega

/-- The sequential build is its passes from the engine with `nbins+1` counters. -/
theorem build_Serial_passes {T : Type} (junk : Nat → Nat) (self : DenseBins T) (nitems : Nat)
    (v : List T) (nbins : Nat) (f : T → Nat) :
    build_Serial junk self nitems v nbins f =
      serialPasses nitems v f (initSize junk self nitems v (nbins + 1)) := rfl

/-- The massively-parallel build is its passes from the engine with `nbins+1` counters. -/
theorem build_GPU_passes {T : Type} (junk : Nat → Nat) (hist_order scatter_order : List Nat)
    (self : DenseBins T) (nitems : Nat) (v : List T) (nbins : Nat) (f : T → Nat) :
    build_GPU junk hist_order scatter_order self nitems v nbins f =
      gpuPasses hist_order scatter_order v f (initSize junk self nitems v (nbins + 1)) := rfl

theorem build_Serial_int_natCast {T : Type} (junk : Nat → Nat) (self : DenseBins T)
    (nitems : Nat) (v : List T) (nbins : Nat) (f : T → Nat) (h : nbins < INT_MAX) :
    build_Serial_int junk self nitems v (nbins : Int) f =
      build_Serial junk self nitems v nbins f := by
  unfold build_Serial_int
  rw [if_neg (by omega), if_neg (by omega), if_pos (by omega), Int.toNat_natCast]

theorem build_OpenMP_int_natCast {T : Type} (junk : Nat → Nat) (W : Nat) (self : DenseBins T)
    (nitems : Nat) (v : List T) (nbins : Nat) (f : T → Nat) (h : nbins < INT_MAX) :
    build_OpenMP_int junk W self nitems v (nbins : Int) f =
      build_OpenMP junk W self nitems v nbins f := by
  unfold build_OpenMP_int
  rw [if_neg (by omega), if_neg (by omega), Int.toNat_natCast]

theorem build_GPU_int_natCast {T : Type} (junk : Nat → Nat) (hist_order scatter_order : List Nat)
    (self : DenseBins T) (nitems : Nat) (v : List T) (nbins : Nat) (f : T → Nat)
    (h : nbins < INT_MAX) :
    build_GPU_int junk hist_order scatter_order self nitems v (nbins : Int) f =
      build_GPU junk hist_order scatter_order self nitems v nbins f := by
  unfold build_GPU_int
  rw [if_neg (by omega), if_neg (by omega), if_pos (by omega), Int.toNat_natCast]

/-- For a box whose number of cells plus one fits an `int`, the `Box` overload is the
build with `nbins = bx.numPts()`. -/
theorem build_Serial_Box_eq {T : Type} (junk : Nat → Nat) (self : DenseBins T) (nitems : Nat)
    (v : List T) (bx : Box) (g : T → Dim3) (h : bx.numPts < INT_MAX) :
    build_Serial_Box junk self nitems v bx g =
      build_Serial junk self nitems v bx.numPts (boxBin_Serial bx g) := by
  unfold build_Serial_Box
  rw [long_to_int_of_le _ (le_of_lt h), build_Serial_int_natCast _ _ _ _ _ _ h]

theorem build_OpenMP_Box_eq {T : Type} (junk : Nat → Nat) (W : Nat) (self : DenseBins T)
    (nitems : Nat) (v : List T) (bx : Box) (g : T → Dim3) (h : bx.numPts < INT_MAX) :
    build_OpenMP_Box junk W self nitems v bx g =
      build_OpenMP junk W self nitems v bx.numPts (boxBin_Serial bx g) := by
  unfold build_OpenMP_Box
  rw [long_to_int_of_le _ (le_of_lt h), build_OpenMP_int_natCast _ _ _ _ _ _ _ h]
  rfl

theorem build_GPU_Box_eq {T : Type} (junk : Nat → Nat) (hist_order scatter_order : List Nat)
    (self : DenseBins T) (nitems : Nat) (v : List T) (bx : Box) (g : T → Dim3)
    (h : bx.numPts < INT_MAX) :
    build_GPU_Box junk hist_order scatter_order self nitems v bx g =
      build_GPU junk hist_order scatter_order self nitems v bx.numPts (boxBin_Serial bx g) := by
  unfold build_GPU_Box
  rw [long_to_int_of_le _ (le_of_lt h), build_GPU_int_natCast _ _ _ _ _ _ _ _ h]
  rfl

/-! ## Determinism of the sequential and the worker-parallel build -/

/-- The worker-parallel build is its passes in sequence; the histogram pass and the
scatter pass go over the same chunks. -/
theorem build_OpenMP_passes {T : Type} (junk : Nat → Nat) (W : Nat) (self : DenseBins T)
    (N : Nat) (v : List T) (nbins : Nat) (f : T → Nat) :
    build_OpenMP junk W self N v nbins f =
      (ompInit junk W self N v nbins).bind (fun st0 =>
        (ompHistPass v f N W nbins st0).bind (fun st1 =>
          (ompPrefixPasses W nbins st1).bind (fun st4 =>
            (ompScatterPass N W nbins st4).bind (fun st5 => some st5.self)))) := by
  by_cases hW : W = 0
  · simp [build_OpenMP, ompInit, hW]
  · simp only [build_OpenMP, ompInit, ompHistPass, ompPrefixPasses, ompScatterPass, hW,
      if_false, Option.bind_eq_bind, Option.pure_def, Option.bind_assoc, Option.some_bind]

theorem ompBeforeScatter_bind {T : Type} (junk : Nat → Nat) (W : Nat) (self : DenseBins T)
    (N : Nat) (v : List T) (nbins : Nat) (f : T → Nat) :
    build_OpenMP junk W self N v nbins f =
      (ompBeforeScatter junk W self N v nbins f).bind (fun st4 =>
        (ompScatterPass N W nbins st4).bind (fun st5 => some st5.self)) := by
  rw [build_OpenMP_passes]
  simp only [ompBeforeScatter, Option.bind_eq_bind, Option.bind_assoc]

theorem mem_chunkItems (N W : Nat) {j : Nat} (hj : j < W) (i : Nat) :
    i ∈ chunkItems N W (N / W) j ↔ chunkLo N W j ≤ i ∧ i < chunkLo N W (j + 1) := by
  rw [chunkItems_eq N W j hj, List.mem_range'_1]
  have := chunkLo_mono N W (show j ≤ j + 1 by omega)
  constructor
  · rintro ⟨h1, h2⟩; exact ⟨h1, by omega⟩
  · rintro ⟨h1, h2⟩; exact ⟨h1, by omega⟩

theorem seenIn_range' (bs : List Nat) (b a : Nat) : ∀ n, a + n ≤ bs.length →
    (bs.take a).count b + seenIn bs b (List.range' a n) = (bs.take (a + n)).count b := by
  intro n
  induction n with
  | zero => intro _; simp [seenIn]
  | succ n ih =>
    intro h
    have hlt : a + n < bs.length := by omega
    have hx : bs[a + n]? = some (bs[a + n]) := List.getElem?_eq_getElem hlt
    rw [List.range'_concat, Nat.one_mul, seenIn_concat bs (bs[a + n]) b (a + n) _ hx,
      ← Nat.add_assoc, ih (by omega), ← Nat.add_assoc a n 1,
      count_take_succ bs (a + n) _ b hx]

theorem chunkCount_add (bs : List Nat) (W : Nat) {j : Nat} (hj : j < W) (b : Nat) :
    (bs.take (chunkLo bs.length W j)).count b + chunkCount bs bs.length W j b =
      (bs.take (chunkLo bs.length W (j + 1))).count b := by
  have hm := chunkLo_mono bs.length W (show j ≤ j + 1 by omega)
  have hle := chunkLo_le bs.length W (j + 1)
  unfold chunkCount
  rw [chunkItems_eq bs.length W j hj, seenIn_range' bs b _ _ (by omega)]
  congr 3
  omega

/-- The passes before the scatter pass return, with every local cursor at the start of
its worker's part of its bin's run. -/
theorem ompBeforeScatter_spec {T : Type} (junk : Nat → Nat) (W : Nat) (self : DenseBins T)
    (v : List T) (nbins : Nat) (f : T → Nat) (hW : 1 ≤ W) (hN : v.length < index_type_size)
    (hMW : nbins * W < index_type_size) (hf : ∀ x ∈ v, f x < nbins) :
    ∃ st, ompBeforeScatter junk W self v.length v nbins f = some st ∧
      st.self.m_items = v ∧ st.self.m_bins = binsOf v f ∧
      st.self.m_perm.length = v.length ∧
      st.self.m_offsets = (List.range (nbins + 1)).map (binStart (binsOf v f)) ∧
      st.self.m_counts.length = nbins + 1 ∧
      (∀ c, c ≤ nbins → st.self.m_counts[c]? =
        some (if c < nbins then (binsOf v f).count c else 0)) ∧
      st.counts.length = nbins * W ∧
      ∀ j b, j < W → b < nbins → st.counts[nbins * j + b]? =
        some (binStart (binsOf v f) b +
          ((binsOf v f).take (chunkLo (binsOf v f).length W j)).count b) := by
  have hb := binsOf_lt v f nbins hf
  have hl := binsOf_length v f
  obtain ⟨counts, hz, z1, z2⟩ := ompZero_spec (resize junk [] (W * nbins)) (nbins * W)
    (by rw [resize_length, Nat.mul_comm])
  obtain ⟨st1, hst1, a1, a2, a3, a4, a5, a6, a7⟩ := ompHist_spec v f nbins W
    { self :=
        { m_items := v
          m_bins := resize junk self.m_bins v.length
          m_perm := resize junk self.m_perm v.length
          m_counts := resize_val (resize junk self.m_counts 0) (nbins + 1) 0
          m_offsets := resize junk (resize junk self.m_offsets 0) (nbins + 1) }
      counts := counts }
    hW hN hMW hb (resize_length _ _ _) z1 z2
  simp only [] at a1 a2 a3 a4
  rw [← hl] at a7
  obtain ⟨st2, hst2, b1, b2, b3, b4, b5, b6, b7, b8⟩ := ompTotal_spec (binsOf v f) nbins W st1
    hW (by omega) (by rw [a4]; exact resize_val_zero _ _ _ _) a6 a7
  have hol : st2.self.m_offsets.length = nbins + 1 := by
    rw [b3, a3]; exact resize_length _ _ _
  have ho0 := @store_eq_some st2.self.m_offsets 0 0 (by omega)
  obtain ⟨s3, hs3, c1, c2, c3, c4, c5⟩ := ompOffsets_spec (binsOf v f) nbins
    { st2.self with m_offsets := st2.self.m_offsets.set 0 0 }
    (by omega) (by simp [hol]) (List.getElem?_set_self (by omega))
    (by intro c hc; simp only []; rw [b6 c (le_of_lt hc), if_pos hc])
  simp only [] at c1 c2 c3 c4
  obtain ⟨st4, hst4, d1, d2, d3⟩ := ompShift_spec (binsOf v f) nbins W
    { st2 with self := s3 } (by omega) c5 b7 b8
  simp only [] at d1
  refine ⟨st4, ?_, by rw [d1, c1, b1, a1], by rw [d1, c4, b4, a5],
    by rw [d1, c2, b2, a2]; exact resize_length _ _ _, by rw [d1, c5],
    by rw [d1, c3, b5], ?_, d2, d3⟩
  · have hW0 : ¬ W = 0 := by omega
    simp only [ompBeforeScatter, ompInit, ompHistPass, ompPrefixPasses, hW0, if_false, hz,
      hst1, hst2, ho0, hs3, hst4, Option.bind_eq_bind, Option.some_bind, Option.pure_def]
  · intro c hc
    rw [d1, c3]
    exact b6 c hc

/-! ## Worker-parallel backend: the writes of the scatter pass -/

/-- A loop that also keeps a log runs the loop itself in its first component. -/
theorem foldlM_fst {σ τ β : Type} (step : σ → β → Option σ)
    (stepL : σ × τ → β → Option (σ × τ))
    (h : ∀ a b r, stepL a b = some r → step a.1 b = some r.1) :
    ∀ (l : List β) (a r : σ × τ), l.foldlM stepL a = some r →
      l.foldlM step a.1 = some r.1 := by
  intro l
  induction l with
  | nil =>
    intro a r hr
    simp only [List.foldlM_nil, Option.pure_def, Option.some.injEq] at hr ⊢
    rw [hr]
  | cons b l ih =>
    intro a r hr
    rw [List.foldlM_cons] at hr ⊢
    cases hs : stepL a b with
    | none => rw [hs] at hr; simp at hr
    | some a' =>
      rw [hs] at hr
      rw [h a b a' hs]
      exact ih a' r hr

theorem ompScatterStepLogged_fst {T : Type} (M j : Nat)
    (a : OmpState T × List ScatterWrite) (i : Nat)
    (r : OmpState T × List ScatterWrite) (h : ompScatterStepLogged M j a i = some r) :
    ompScatterStep M j a.1 i = some r.1 := by
  simp only [ompScatterStepLogged, Option.bind_eq_bind, Option.bind_eq_some] at h
  obtain ⟨bid, _, c, _, st, hst, hr⟩ := h
  cases hr
  exact hst

/-- The scatter pass with the log leaves the state that the scatter pass leaves. -/
theorem ompScatterPassLogged_fst {T : Type} (N W M : Nat) (st : OmpState T)
    (r : OmpState T × List ScatterWrite) (h : ompScatterPassLogged N W M st = some r) :
    ompScatterPass N W M st = some r.1 := by
  unfold ompScatterPassLogged at h
  unfold ompScatterPass
  exact foldlM_fst
    (fun st j => (chunkItems N W (N / W) j).foldlM (ompScatterStep M j) st)
    (fun acc j => (chunkItems N W (N / W) j).foldlM (ompScatterStepLogged M j) acc)
    (fun a j r hr => foldlM_fst (ompScatterStep M j) (ompScatterStepLogged M j)
      (ompScatterStepLogged_fst M j) _ a r hr)
    (List.range W) (st, []) r h

theorem storesUpTo_zero (perm : List Nat) (slot : Nat → Nat) : storesUpTo perm slot 0 = perm :=
  rfl

theorem storesUpTo_succ (perm : List Nat) (slot : Nat → Nat) (k : Nat) :
    storesUpTo perm slot (k + 1) = (storesUpTo perm slot k).set (slot k) k := by
  unfold storesUpTo
  rw [List.range_succ, List.foldl_append]
  rfl

theorem storesUpTo_length (perm : List Nat) (slot : Nat → Nat) (k : Nat) :
    (storesUpTo perm slot k).length = perm.length := by
  induction k with
  | zero => rfl
  | succ k ih => rw [storesUpTo_succ, List.length_set, ih]

/-- The scatter pass with the log returns: step `k` is the step of item `k`, run by the
worker whose chunk holds it; it reads the cursor `rank bs k`, and the `m_perm` it finds
and leaves are the initial array after the first `k` and the first `k+1` stores. -/
theorem ompScatterLogged_spec {T : Type} (bs : List Nat) (M W : Nat) (st0 : OmpState T)
    (hW : 1 ≤ W) (hN : bs.length < index_type_size) (hMW : M * W < index_type_size)
    (hb : ∀ b ∈ bs, b < M) (h0b : st0.self.m_bins = bs)
    (h0p : st0.self.m_perm.length = bs.length) (h0l : st0.counts.length = M * W)
    (h0c : ∀ j b, j < W → b < M → st0.counts[M * j + b]? =
      some (binStart bs b + (bs.take (chunkLo bs.length W j)).count b)) :
    ∃ st log, ompScatterPassLogged bs.length W M st0 = some (st, log) ∧
      st.self.m_perm = storesUpTo st0.self.m_perm (rank bs) bs.length ∧
      (∀ j, j < bs.length → st.self.m_perm[rank bs j]? = some j) ∧
      log.length = bs.length ∧
      ∀ k, k < bs.length → ∃ j, j < W ∧ chunkLo bs.length W j ≤ k ∧
        k < chunkLo bs.length W (j + 1) ∧
        log[k]? = some
          { worker := j, item := k, slot := rank bs k,
            permBefore := storesUpTo st0.self.m_perm (rank bs) k,
            permAfter := storesUpTo st0.self.m_perm (rank bs) (k + 1) } := by
  obtain ⟨a, ha, ⟨_, _, _, _, _, hr, _, _⟩, h2, h3, h4⟩ := chunked_foldlM_inv bs.length W hW
    (ompScatterStepLogged M)
    (fun i (a : OmpState T × List ScatterWrite) => ScatterInv bs M W st0 i a.1 ∧
      a.1.self.m_perm = storesUpTo st0.self.m_perm (rank bs) i ∧
      a.2.length = i ∧
      ∀ k, k < i → ∃ j, j < W ∧ chunkLo bs.length W j ≤ k ∧
        k < chunkLo bs.length W (j + 1) ∧
        a.2[k]? = some
          { worker := j, item := k, slot := rank bs k,
            permBefore := storesUpTo st0.self.m_perm (rank bs) k,
            permAfter := storesUpTo st0.self.m_perm (rank bs) (k + 1) })
    (st0, [])
    ⟨scatterInv_init bs M W st0 h0b h0p h0l h0c, rfl, rfl, by intro k hk; omega⟩
    (by
      intro j i a hj hi1 hi2 ⟨hI, hp, hl, hlog⟩
      obtain ⟨bid, _, _, r1, r2, st', hst', hperm, hI'⟩ :=
        ompScatterStep_inv bs M W st0 hN hMW hb j i a.1 hj hi1 hi2 hI
      have hafter : st'.self.m_perm = storesUpTo st0.self.m_perm (rank bs) (i + 1) := by
        rw [hperm, hp, storesUpTo_succ]
      refine ⟨(st', a.2 ++ [ScatterWrite.mk j i (rank bs i)
        (storesUpTo st0.self.m_perm (rank bs) i)
        (storesUpTo st0.self.m_perm (rank bs) (i + 1))]), ?_, hI', hafter,
        by simp [hl], ?_⟩
      · simp [ompScatterStepLogged, r1, r2, hst', hp, hafter]
      · intro k hk
        by_cases hki : k = i
        · subst hki
          refine ⟨j, hj, hi1, hi2, ?_⟩
          simp only []
          rw [List.getElem?_append_right (by omega), hl]
          simp
        · obtain ⟨j', q1, q2, q3, q4⟩ := hlog k (by omega)
          refine ⟨j', q1, q2, q3, ?_⟩
          simp only []
          rw [List.getElem?_append_left (by omega)]
          exact q4)
  exact ⟨a.1, a.2, ha, h2, hr, h3, h4⟩

theorem step_find (g : Nat → Nat) (x : Nat) : ∀ n, g 0 ≤ x → x < g n →
    ∃ j, j < n ∧ g j ≤ x ∧ x < g (j + 1) := by
  intro n
  induction n with
  | zero => intro h0 hn; omega
  | succ n ih =>
    intro h0 hn
    by_cases h : x < g n
    · obtain ⟨j, hj, r⟩ := ih h0 h
      exact ⟨j, by omega, r⟩
    · exact ⟨n, by omega, by omega, hn⟩

/-- The part of a bin's run that belongs to a worker ends inside the bin's run. -/
theorem slot_range_le (bs : List Nat) (W : Nat) {j : Nat} (hj : j < W) (b : Nat) :
    binStart bs b + (bs.take (chunkLo bs.length W j)).count b + chunkCount bs bs.length W j b ≤
      binStart bs (b + 1) := by
  have h1 := chunkCount_add bs W hj b
  have h2 := count_take_le bs b (chunkLo bs.length W (j + 1))
  rw [binStart_succ]
  omega

theorem slot_range_unique (bs : List Nat) (W : Nat) {j b k c p : Nat} (hj : j < W) (hk : k < W)
    (h1 : binStart bs b + (bs.take (chunkLo bs.length W j)).count b ≤ p)
    (h2 : p < binStart bs b + (bs.take (chunkLo bs.length W j)).count b +
      chunkCount bs bs.length W j b)
    (h3 : binStart bs c + (bs.take (chunkLo bs.length W k)).count c ≤ p)
    (h4 : p < binStart bs c + (bs.take (chunkLo bs.length W k)).count c +
      chunkCount bs bs.length W k c) : j = k ∧ b = c := by
  have e1 := slot_range_le bs W hj b
  have e2 := slot_range_le bs W hk c
  have hbc : b = c := by
    rcases Nat.lt_trichotomy b c with hlt | heq | hgt
    · have := binStart_mono bs (show b + 1 ≤ c by omega); omega
    · exact heq
    · have := binStart_mono bs (show c + 1 ≤ b by omega); omega
  subst hbc
  refine ⟨?_, rfl⟩
  have a1 := chunkCount_add bs W hj b
  have a2 := chunkCount_add bs W hk b
  rcases Nat.lt_trichotomy j k with hlt | heq | hgt
  · have := count_take_mono bs b (chunkLo_mono bs.length W (show j + 1 ≤ k by omega))
    omega
  · exact heq
  · have := count_take_mono bs b (chunkLo_mono bs.length W (show k + 1 ≤ j by omega))
    omega

theorem slot_range_cover (bs : List Nat) (M W : Nat) (hW : 1 ≤ W) (hb : ∀ b ∈ bs, b < M)
    {p : Nat} (hp : p < bs.length) :
    ∃ j b, j < W ∧ b < M ∧ binStart bs b + (bs.take (chunkLo bs.length W j)).count b ≤ p ∧
      p < binStart bs b + (bs.take (chunkLo bs.length W j)).count b +
        chunkCount bs bs.length W j b := by
  obtain ⟨b, hbM, b1, b2⟩ := step_find (binStart bs) p M
    (by rw [binStart_zero]; omega) (by rw [binStart_eq_length bs M hb]; exact hp)
  obtain ⟨j, hj, j1, j2⟩ := step_find
    (fun j => binStart bs b + (bs.take (chunkLo bs.length W j)).count b) p W
    (by
      show binStart bs b + (bs.take (chunkLo bs.length W 0)).count b ≤ p
      rw [chunkLo_zero _ _ hW]
      simpa using b1)
    (by
      show p < binStart bs b + (bs.take (chunkLo bs.length W W)).count b
      rw [chunkLo_last, List.take_length, ← binStart_succ]
      exact b2)
  have j1 : binStart bs b + (bs.take (chunkLo bs.length W j)).count b ≤ p := j1
  have j2 : p < binStart bs b + (bs.take (chunkLo bs.length W (j + 1))).count b := j2
  have a1 := chunkCount_add bs W hj b
  exact ⟨j, b, hj, hbM, j1, by omega⟩

theorem map_rank_perm (bs : List Nat) :
    ((List.range bs.length).map (rank bs)).Perm (List.range bs.length) := by
  have hnd : ((List.range bs.length).map (rank bs)).Nodup := by
    apply List.Nodup.map_on _ (List.nodup_range _)
    intro x hx y hy hxy
    rw [List.mem_range] at hx hy
    exact rank_inj bs hx hy hxy
  have hsub : (List.range bs.length).map (rank bs) ⊆ List.range bs.length := by
    intro p hp
    rw [List.mem_map] at hp
    obtain ⟨k, hk, rfl⟩ := hp
    rw [List.mem_range] at hk ⊢
    exact rank_lt_length bs (List.getElem?_eq_getElem hk)
  exact (List.subperm_of_subset hnd hsub).perm_of_length_le (by simp)

/-- The stores recorded in the first `n` entries of the log, applied to the initial
array, give the array after `n` stores. -/
theorem foldl_log_take (bs : List Nat) (W : Nat) (p0 : List Nat) (log : List ScatterWrite)
    (hlog : ∀ k, k < bs.length → ∃ j, j < W ∧ chunkLo bs.length W j ≤ k ∧
      k < chunkLo bs.length W (j + 1) ∧
      log[k]? = some (ScatterWrite.mk j k (rank bs k) (storesUpTo p0 (rank bs) k)
        (storesUpTo p0 (rank bs) (k + 1)))) :
    ∀ n, n ≤ bs.length →
      (log.take n).foldl (fun perm e => perm.set e.slot e.item) p0 =
        storesUpTo p0 (rank bs) n := by
  intro n
  induction n with
  | zero => intro _; rfl
  | succ n ih =>
    intro hn
    obtain ⟨j, _, _, _, hj⟩ := hlog n (by omega)
    rw [List.take_succ, hj, List.foldl_append, ih (by omega), storesUpTo_succ]
    rfl

/-- What the log of the scatter pass says about the writes: the items are written in
item order, each by the worker of its chunk into that worker's part of the run of its
bin; every step stores its item at its slot and changes nothing else of the array, the
steps follow one another from the initial array, and every slot is written once. -/
theorem logged_writes (bs : List Nat) (M W : Nat) (p0 : List Nat) (log : List ScatterWrite)
    (hb : ∀ b ∈ bs, b < M) (hp0 : p0.length = bs.length) (hl : log.length = bs.length)
    (hlog : ∀ k, k < bs.length → ∃ j, j < W ∧ chunkLo bs.length W j ≤ k ∧
      k < chunkLo bs.length W (j + 1) ∧
      log[k]? = some (ScatterWrite.mk j k (rank bs k) (storesUpTo p0 (rank bs) k)
        (storesUpTo p0 (rank bs) (k + 1)))) :
    log.map (fun e => e.item) = List.range bs.length ∧
    (∀ e ∈ log, ∃ b, bs[e.item]? = some b ∧ e.worker < W ∧ b < M ∧
      e.item ∈ chunkItems bs.length W (bs.length / W) e.worker ∧
      binStart bs b + (bs.take (chunkLo bs.length W e.worker)).count b ≤ e.slot ∧
      e.slot < binStart bs b + (bs.take (chunkLo bs.length W e.worker)).count b +
        chunkCount bs bs.length W e.worker b) ∧
    (∀ e ∈ log, e.permBefore.length = bs.length ∧ e.slot < e.permBefore.length ∧
      e.permAfter = e.permBefore.set e.slot e.item) ∧
    (∀ e, log[0]? = some e → e.permBefore = p0) ∧
    (∀ k e e', log[k]? = some e → log[k + 1]? = some e' → e'.permBefore = e.permAfter) ∧
    log.foldl (fun perm e => perm.set e.slot e.item) p0 = storesUpTo p0 (rank bs) bs.length ∧
    (log.map (fun e => e.slot)).Perm (List.range bs.length) ∧
    ∀ e ∈ log, ∀ e' ∈ log, e.slot = e'.slot → e = e' := by
  have hentry : ∀ e ∈ log, ∃ k j, k < bs.length ∧ j < W ∧ chunkLo bs.length W j ≤ k ∧
      k < chunkLo bs.length W (j + 1) ∧
      e = ScatterWrite.mk j k (rank bs k) (storesUpTo p0 (rank bs) k)
        (storesUpTo p0 (rank bs) (k + 1)) := by
    intro e he
    obtain ⟨k, hk⟩ := List.mem_iff_getElem?.1 he
    have hkl : k < bs.length := by
      rw [List.getElem?_eq_some] at hk
      obtain ⟨h, _⟩ := hk
      omega
    obtain ⟨j, hj, h1, h2, h3⟩ := hlog k hkl
    rw [hk] at h3
    exact ⟨k, j, hkl, hj, h1, h2, Option.some.inj h3⟩
  have hitems : log.map (fun e => e.item) = List.range bs.length := by
    apply List.ext_getElem?
    intro k
    by_cases hk : k < bs.length
    · obtain ⟨j, _, _, _, hj⟩ := hlog k hk
      rw [List.getElem?_map, hj, List.getElem?_range hk]
      rfl
    · rw [List.getElem?_eq_none (by simp; omega), List.getElem?_eq_none (by simp; omega)]
  have hslots : log.map (fun e => e.slot) = (List.range bs.length).map (rank bs) := by
    apply List.ext_getElem?
    intro k
    by_cases hk : k < bs.length
    · obtain ⟨j, _, _, _, hj⟩ := hlog k hk
      rw [List.getElem?_map, hj, List.getElem?_map, List.getElem?_range hk]
      rfl
    · rw [List.getElem?_eq_none (by simp; omega), List.getElem?_eq_none (by simp; omega)]
  have hperm : (log.map (fun e => e.slot)).Perm (List.range bs.length) := by
    rw [hslots]; exact map_rank_perm bs
  refine ⟨hitems, ?_, ?_, ?_, ?_, ?_, hperm, ?_⟩
  · intro e he
    obtain ⟨k, j, hkl, hj, h1, h2, rfl⟩ := hentry e he
    have hbk : bs[k]? = some bs[k] := List.getElem?_eq_getElem hkl
    refine ⟨bs[k], hbk, hj, hb _ (List.getElem_mem _), (mem_chunkItems _ W hj k).2 ⟨h1, h2⟩,
      ?_, ?_⟩
    · show binStart bs bs[k] + (bs.take (chunkLo bs.length W j)).count bs[k] ≤ rank bs k
      rw [rank_eq bs hbk]
      have := count_take_mono bs bs[k] h1
      omega
    · show rank bs k < binStart bs bs[k] + (bs.take (chunkLo bs.length W j)).count bs[k] +
        chunkCount bs bs.length W j bs[k]
      rw [rank_eq bs hbk, Nat.add_assoc, chunkCount_add bs W hj]
      have := count_take_lt_of_lt bs h2 hbk
      omega
  · intro e he
    obtain ⟨k, j, hkl, _, _, _, rfl⟩ := hentry e he
    have hr := rank_lt_length bs (List.getElem?_eq_getElem hkl)
    refine ⟨by simp only []; rw [storesUpTo_length, hp0], ?_, storesUpTo_succ _ _ _⟩
    simp only []
    rw [storesUpTo_length, hp0]
    exact hr
  · intro e he
    by_cases h0 : 0 < bs.length
    · obtain ⟨j, _, _, _, hj⟩ := hlog 0 h0
      rw [he] at hj
      rw [Option.some.inj hj]
      rfl
    · rw [List.getElem?_eq_none (by omega)] at he
      cases he
  · intro k e e' he he'
    have hkl : k + 1 < bs.length := by
      rw [List.getElem?_eq_some] at he'
      obtain ⟨h, _⟩ := he'
      omega
    obtain ⟨j, _, _, _, hj⟩ := hlog k (by omega)
    obtain ⟨j', _, _, _, hj'⟩ := hlog (k + 1) hkl
    rw [he] at hj
    rw [he'] at hj'
    rw [Option.some.inj hj, Option.some.inj hj']
  · have h := foldl_log_take bs W p0 log hlog bs.length (le_refl _)
    rwa [List.take_of_length_le (by omega)] at h
  · exact List.inj_on_of_nodup_map (hperm.nodup_iff.2 (List.nodup_range _))

/-! ## Sequential backend: the state before the second loop -/

theorem build_Serial_bind {T : Type} (junk : Nat → Nat) (self : DenseBins T) (N : Nat)
    (v : List T) (nbins : Nat) (f : T → Nat) :
    build_Serial junk self N v nbins f =
      (serialBeforeScatter junk self N v nbins f).bind (fun s3 =>
        (List.range N).foldlM serialScatterStep s3) := by
  simp only [build_Serial, serialBeforeScatter, serialInit, Option.bind_eq_bind,
    Option.bind_assoc, Option.some_bind]

/-- The first loop, the scan and the copy return; the cursors are the run starts. -/
theorem serialBeforeScatter_spec {T : Type} (junk : Nat → Nat) (self : DenseBins T)
    (v : List T) (nbins : Nat) (f : T → Nat) (hN : v.length < index_type_size)
    (hf : ∀ x ∈ v, f x < nbins) :
    ∃ s3, serialBeforeScatter junk self v.length v nbins f = some s3 ∧
      s3.m_bins = binsOf v f ∧
      s3.m_counts = (List.range (nbins + 1)).map (binStart (binsOf v f)) ∧
      s3.m_offsets = (List.range (nbins + 1)).map (binStart (binsOf v f)) ∧
      s3.m_perm.length = (binsOf v f).length := by
  have hb := binsOf_le v f nbins (fun x hx => le_of_lt (hf x hx))
  have hl := binsOf_length v f
  obtain ⟨s1, hs1, a1, a2, a3, a4, a5, a6⟩ := serialHist_spec v f nbins
    (serialInit junk self v.length v nbins)
    hN hb (resize_length _ _ _) (resize_val_zero _ _ _ _)
  have hscan := exclusive_scan_counts (binsOf v f) s1.m_counts s1.m_offsets nbins
    (by omega) a5 (by rw [a3]; exact resize_length _ _ _) a6
  have hcopy := copy_same_length ((List.range (nbins + 1)).map (binStart (binsOf v f)))
    s1.m_counts (by simp [a5])
  refine ⟨{ s1 with
      m_offsets := (List.range (nbins + 1)).map (binStart (binsOf v f))
      m_counts := (List.range (nbins + 1)).map (binStart (binsOf v f)) }, ?_, a4, rfl, rfl, ?_⟩
  · simp only [serialBeforeScatter, hs1, hscan, hcopy, Option.bind_eq_bind, Option.some_bind]
  · simp only []
    rw [a2, hl]
    exact resize_length _ _ _

/-! ## Items that are already in bin order -/

/-- A slot of the permutation holds the item whose rank it is. -/
theorem Binned.rank_of_slot {T : Type} {bs : List Nat} {M : Nat} {s : DenseBins T}
    (hB : Binned bs M s) {p j : Nat} (h : s.m_perm[p]? = some j) :
    j < bs.length ∧ rank bs j = p := by
  have hp : p < bs.length := by
    rw [List.getElem?_eq_some] at h
    obtain ⟨hl, _⟩ := h
    rw [hB.perm_length] at hl
    exact hl
  obtain ⟨j', hj', hpj', hr⟩ := hB.perm_inverse hp
  rw [h] at hpj'
  cases hpj'
  exact ⟨hj', hr⟩

/-- The arrays of a stable counting sort into `M` bins of bin ids that may take the
value `M`: the items of the bin `M` fill the slots from `offsets[M]` on. -/
theorem Binned.absorbed {T : Type} {bs : List Nat} {M : Nat} {s : DenseBins T}
    (hB : Binned bs M s) (hle : ∀ b ∈ bs, b ≤ M) :
    bs.count M ≤ bs.length ∧ s.m_offsets[M]? = some (bs.length - bs.count M) ∧
    (∀ p, bs.length - bs.count M ≤ p → p < bs.length →
      ∃ j, s.m_perm[p]? = some j ∧ bs[j]? = some M) ∧
    (∀ p j, s.m_perm[p]? = some j → bs[j]? = some M →
      bs.length - bs.count M ≤ p ∧ p < bs.length) ∧
    ∀ b, b < M → ∃ lo hi, s.m_offsets[b]? = some lo ∧ s.m_offsets[b + 1]? = some hi ∧
      lo ≤ hi ∧ hi ≤ bs.length - bs.count M := by
  have hall : binStart bs (M + 1) = bs.length :=
    binStart_eq_length bs (M + 1) (fun b hb => Nat.lt_succ_of_le (hle b hb))
  have hsucc := binStart_succ bs M
  have hM : binStart bs M = bs.length - bs.count M := by omega
  refine ⟨List.count_le_length _ _, ?_, ?_, ?_, ?_⟩
  · rw [hB.offsets_getElem? (le_refl _), hM]
  · intro p h1 h2
    obtain ⟨j, _, hpj, hbj, _⟩ := hB.run_bin (show binStart bs M ≤ p by omega)
      (show p < binStart bs (M + 1) by omega)
    exact ⟨j, hpj, hbj⟩
  · intro p j hpj hbj
    obtain ⟨_, hr⟩ := hB.rank_of_slot hpj
    have h1 := binStart_le_rank bs hbj
    have h2 := rank_lt_length bs hbj
    omega
  · intro b hb
    refine ⟨_, _, hB.offsets_getElem? (le_of_lt hb), hB.offsets_getElem? hb,
      binStart_mono bs (by omega), ?_⟩
    rw [← hM]
    exact binStart_mono bs hb

/-! ## Sequential backend: the roles of `m_counts` -/

/-- The three passes of the sequential build and the contents of `m_counts` and
`m_offsets` between them. -/
theorem serialPasses_spec {T : Type} (junk : Nat → Nat) (self : DenseBins T) (v : List T)
    (nbins : Nat) (f : T → Nat) (hN : v.length < index_type_size)
    (hf : ∀ x ∈ v, f x < nbins) :
    ∃ s1 s3 s, serialAfterHist junk self v.length v nbins f = some s1 ∧
      s1.m_counts.length = nbins + 1 ∧
      (∀ c, c ≤ nbins → s1.m_counts[c]? = some ((binsOf v f).count c)) ∧
      exclusive_scan s1.m_counts s1.m_offsets = some s3.m_offsets ∧
      copy s3.m_offsets s1.m_counts = some s3.m_counts ∧
      s3.m_offsets = (List.range (nbins + 1)).map (binStart (binsOf v f)) ∧
      s3.m_counts = s3.m_offsets ∧
      (∀ k, k ≤ nbins → (s1.m_counts.take k).sum = binStart (binsOf v f) k) ∧
      serialBeforeScatter junk self v.length v nbins f = some s3 ∧
      (List.range v.length).foldlM serialScatterStep s3 = some s ∧
      build_Serial junk self v.length v nbins f = some s ∧
      s.m_offsets = s3.m_offsets ∧ s.m_counts.length = nbins + 1 ∧
      ∀ c, c ≤ nbins → s.m_counts[c]? = some (binStart (binsOf v f) (c + 1)) := by
  have hb := binsOf_le v f nbins (fun x hx => le_of_lt (hf x hx))
  have hl := binsOf_length v f
  obtain ⟨s1, hs1, a1, a2, a3, a4, a5, a6⟩ := serialHist_spec v f nbins
    (serialInit junk self v.length v nbins)
    hN hb (resize_length _ _ _) (resize_val_zero _ _ _ _)
  have hscan := exclusive_scan_counts (binsOf v f) s1.m_counts s1.m_offsets nbins
    (by omega) a5 (by rw [a3]; exact resize_length _ _ _) a6
  have hcopy := copy_same_length ((List.range (nbins + 1)).map (binStart (binsOf v f)))
    s1.m_counts (by simp [a5])
  obtain ⟨s, hs, b1, b2, b3, b4, b5, b6, b7⟩ := serialScatter_spec (binsOf v f) nbins
    { s1 with
      m_offsets := (List.range (nbins + 1)).map (binStart (binsOf v f))
      m_counts := (List.range (nbins + 1)).map (binStart (binsOf v f)) }
    (by omega) hb a4 rfl
    (by
      simp only []
      rw [a2, hl]
      exact resize_length _ _ _)
  rw [hl] at hs
  have h3 : serialBeforeScatter junk self v.length v nbins f = some
      { s1 with
        m_offsets := (List.range (nbins + 1)).map (binStart (binsOf v f))
        m_counts := (List.range (nbins + 1)).map (binStart (binsOf v f)) } := by
    simp only [serialBeforeScatter, hs1, hscan, hcopy, Option.bind_eq_bind, Option.some_bind]
  refine ⟨s1, _, s, hs1, a5, a6, hscan, hcopy, rfl, rfl, ?_, h3, hs, ?_, b2, b6, b7⟩
  · intro k hk
    exact sum_take_counts (binsOf v f) s1.m_counts nbins a6 k (by omega)
  · rw [build_Serial_bind, h3]
    exact hs

/-! ## The `Box` adapter: extents, lower corner and wrap-around -/

/-- The adapter reads the box only through its extents. -/
theorem boxBin_Serial_extents {T : Type} (bx bx' : Box) (f : T → Dim3) (t : T)
    (hx : bx.nx = bx'.nx) (hy : bx.ny = bx'.ny) (hz : bx.nz = bx'.nz) :
    boxBin_Serial bx f t = boxBin_Serial bx' f t := by
  unfold Box.nx at hx
  unfold Box.ny at hy
  unfold Box.nz at hz
  simp only [boxBin_Serial, hx, hy, hz]

/-- On the cells of the index range the adapter is injective. -/
theorem boxBin_Serial_inj (bx : Box) (hx : 0 < bx.nx) (hy : 0 < bx.ny) (hz : 0 < bx.nz)
    (hP : bx.numPts < index_type_size) {c d : Dim3} (hc : bx.inRange c) (hd : bx.inRange d)
    (h : boxBin_Serial bx (fun c : Dim3 => c) c = boxBin_Serial bx (fun c : Dim3 => c) d) :
    c = d := by
  obtain ⟨c1, c2, c3, c4, c5, c6⟩ := hc
  obtain ⟨d1, d2, d3, d4, d5, d6⟩ := hd
  obtain ⟨NX, NY, NZ, a, b, e, h1, h2, h3, ha, hb, he, e1, e2, e3, _, e4⟩ :=
    boxBin_Serial_cast bx (fun c : Dim3 => c) c hx hy hz hP
  obtain ⟨NX', NY', NZ', a', b', e', h1', h2', h3', ha', hb', he', e1', e2', e3', _, e4'⟩ :=
    boxBin_Serial_cast bx (fun c : Dim3 => c) d hx hy hz hP
  have hNY : NY' = NY := by omega
  have hNZ : NZ' = NZ := by omega
  subst hNY hNZ
  rw [e4, e4'] at h
  obtain ⟨k1, k2, k3⟩ := flatten_inj hb hb' he he' h
  rw [clampCoord_of_inRange _ _ c1 c2] at e1
  rw [clampCoord_of_inRange _ _ c3 c4] at e2
  rw [clampCoord_of_inRange _ _ c5 c6] at e3
  rw [clampCoord_of_inRange _ _ d1 d2] at e1'
  rw [clampCoord_of_inRange _ _ d3 d4] at e2'
  rw [clampCoord_of_inRange _ _ d5 d6] at e3'
  apply Dim3.eq_of
  · rw [e1, e1', k1]
  · rw [e2, e2', k2]
  · rw [e3, e3', k3]

/-- The clamped cell lies in the index range and has the id of the raw coordinates. -/
theorem boxBin_Serial_clamped {T : Type} (bx : Box) (f : T → Dim3) (t : T) (hx : 0 < bx.nx)
    (hy : 0 < bx.ny) (hz : 0 < bx.nz) :
    bx.inRange ⟨clampCoord bx.nx (f t).x, clampCoord bx.ny (f t).y,
      clampCoord bx.nz (f t).z⟩ ∧
    boxBin_Serial bx f t = boxBin_Serial bx (fun c : Dim3 => c)
      ⟨clampCoord bx.nx (f t).x, clampCoord bx.ny (f t).y, clampCoord bx.nz (f t).z⟩ := by
  constructor
  · unfold Box.inRange clampCoord
    simp only []
    omega
  · exact boxBin_Serial_congr bx f (fun c : Dim3 => c) t _
      (clampCoord_idem _ _ hx).symm (clampCoord_idem _ _ hy).symm
      (clampCoord_idem _ _ hz).symm

/-- No step of the row-major id of a cell leaves the range of the number of cells. -/
theorem flatten_bounds (NX NY NZ a b c : Nat) (ha : a < NX) (hb : b < NY) (hc : c < NZ) :
    a * NY < NX * NY * NZ ∧ a * NY + b < NX * NY * NZ ∧ (a * NY + b) * NZ < NX * NY * NZ ∧
      (a * NY + b) * NZ + c < NX * NY * NZ ∧ NY ≤ NX * NY * NZ ∧ NZ ≤ NX * NY * NZ ∧
      a < NX * NY * NZ ∧ b < NX * NY * NZ ∧ c < NX * NY * NZ := by
  have h1 : NY * a + b < NY * NX := flat_lt ha hb
  have h2 : NZ * (NY * a + b) + c < NZ * (NY * NX) := flat_lt h1 hc
  have e1 : NZ * (NY * NX) = NX * NY * NZ := by ring
  have e2 : NZ * (NY * a + b) + c = (a * NY + b) * NZ + c := by ring
  have hq : (a * NY + b) * NZ + c < NX * NY * NZ := by rw [← e1, ← e2]; exact h2
  have k1 : a ≤ a * NY := Nat.le_mul_of_pos_right a (by omega)
  have k2 : a * NY + b ≤ (a * NY + b) * NZ := Nat.le_mul_of_pos_right _ (by omega)
  have k3 : NY ≤ NX * NY := Nat.le_mul_of_pos_left NY (by omega)
  have k4 : NX * NY ≤ NX * NY * NZ := Nat.le_mul_of_pos_right _ (by omega)
  have k5 : NZ ≤ NX * NY * NZ := Nat.le_mul_of_pos_left NZ (Nat.mul_pos (by omega) (by omega))
  refine ⟨by omega, by omega, by omega, hq, by omega, k5, by omega, by omega, by omega⟩

/-- For a box with fewer than `2^32` cells every conversion and every operation of the
adapter is exact. -/
theorem boxBin_Serial_steps {T : Type} (bx : Box) (f : T → Dim3) (t : T) (hx : 0 < bx.nx)
    (hy : 0 < bx.ny) (hz : 0 < bx.nz) (hP : bx.numPts < index_type_size) :
    ((bx.uix (f t) : Nat) : Int) = clampCoord bx.nx (f t).x ∧
    ((bx.uiy (f t) : Nat) : Int) = clampCoord bx.ny (f t).y ∧
    ((bx.uiz (f t) : Nat) : Int) = clampCoord bx.nz (f t).z ∧
    ((int_to_index_type bx.ny : Nat) : Int) = bx.ny ∧
    ((int_to_index_type bx.nz : Nat) : Int) = bx.nz ∧
    bx.uix (f t) * int_to_index_type bx.ny < index_type_size ∧
    bx.uix (f t) * int_to_index_type bx.ny + bx.uiy (f t) < index_type_size ∧
    (bx.uix (f t) * int_to_index_type bx.ny + bx.uiy (f t)) * int_to_index_type bx.nz <
      index_type_size ∧
    (bx.uix (f t) * int_to_index_type bx.ny + bx.uiy (f t)) * int_to_index_type bx.nz +
      bx.uiz (f t) < index_type_size ∧
    boxBin_Serial bx f t =
      (bx.uix (f t) * int_to_index_type bx.ny + bx.uiy (f t)) * int_to_index_type bx.nz +
        bx.uiz (f t) := by
  obtain ⟨NX, NY, NZ, a, b, c, h1, h2, h3, ha, hb, hc, e1, e2, e3, hnum, e4⟩ :=
    boxBin_Serial_cast bx f t hx hy hz hP
  obtain ⟨q1, q2, q3, q4, q5, q6, q7, q8, q9⟩ := flatten_bounds NX NY NZ a b c ha hb hc
  rw [hnum] at hP
  have ua : bx.uix (f t) = a := by
    unfold Box.uix; rw [e1]; exact int_to_index_type_natCast a (by omega)
  have ub : bx.uiy (f t) = b := by
    unfold Box.uiy; rw [e2]; exact int_to_index_type_natCast b (by omega)
  have uc : bx.uiz (f t) = c := by
    unfold Box.uiz; rw [e3]; exact int_to_index_type_natCast c (by omega)
  have uy : int_to_index_type bx.ny = NY := by
    rw [h2]; exact int_to_index_type_natCast NY (by omega)
  have uz : int_to_index_type bx.nz = NZ := by
    rw [h3]; exact int_to_index_type_natCast NZ (by omega)
  rw [ua, ub, uc, uy, uz, e1, e2, e3, h2, h3]
  exact ⟨rfl, rfl, rfl, rfl, rfl, by omega, by omega, by omega, by omega, e4⟩

/-! ## Sequential backend: the build invariants -/

theorem binStart_binsOf {T : Type} (v : List T) (f : T → Nat) (M : Nat)
    (hM : M ≤ index_type_size) (hf : ∀ x ∈ v, f x < M) (k : Nat) :
    binStart (binsOf v f) k = v.countP (fun x => decide (f x < k)) := by
  unfold binStart binsOf
  rw [List.countP_map]
  apply List.countP_congr
  intro x hx
  simp only [Function.comp_apply, decide_eq_true_eq]
  rw [to_index_type_eq (lt_of_lt_of_le (hf x hx) hM)]

theorem count_binsOf {T : Type} (v : List T) (f : T → Nat) (M : Nat)
    (hM : M ≤ index_type_size) (hf : ∀ x ∈ v, f x < M) (b : Nat) :
    (binsOf v f).count b = v.countP (fun x => decide (f x = b)) := by
  unfold binsOf
  rw [List.count, List.countP_map]
  apply List.countP_congr
  intro x hx
  simp only [Function.comp_apply, decide_eq_true_eq, beq_iff_eq]
  rw [to_index_type_eq (lt_of_lt_of_le (hf x hx) hM)]

/-- C1. Sequential backend, permutation validity: for every item array `v` (of any
length `N` an `index_type` can count) and every mapper `f` with `f(v[i]) < nbins` for all
`i`, `build(Serial, N, v, nbins, f)` returns, whatever the engine held before, and the
permutation array it leaves has length `N` and is a bijection on `[0,N)`: every index
below `N` occurs in it exactly once. -/
theorem build_Serial_permutation_valid {T : Type} (junk : Nat → Nat) (self : DenseBins T)
    (v : List T) (nbins : Nat) (f : T → Nat) (hN : v.length < index_type_size)
    (hf : ∀ x ∈ v, f x < nbins) :
    ∃ s, build_Serial junk self v.length v nbins f = some s ∧
      PermutationValid s.m_perm v.length := by
  obtain ⟨s, hs, _, hB, _⟩ := build_Serial_spec junk self v nbins f hN hf
  exact ⟨s, hs, binsOf_length v f ▸ hB.permutationValid⟩

theorem build_Serial_permutation_valid_witness :
    scenarioKeys.length < index_type_size ∧ (∀ x ∈ scenarioKeys, scenarioMapper x < 2) ∧
    ∃ s, build_Serial (fun _ => 0) freshEngine 4 scenarioKeys 2 scenarioMapper = some s ∧
      PermutationValid s.m_perm 4 :=
  ⟨by decide, by decide,
    build_Serial_permutation_valid (fun _ => 0) freshEngine scenarioKeys 2 scenarioMapper
      (by decide) (by decide)⟩

/-- C2. Sequential backend, bin consistency: after `build(Serial, N, v, nbins, f)` with
`f(v[i]) < nbins` for all `i`, for every bin `b < nbins` and every slot `p` with
`offsets[b] <= p < offsets[b+1]`, `bins[permutation[p]] == b`. -/
theorem build_Serial_bin_consistent {T : Type} (junk : Nat → Nat) (self : DenseBins T)
    (v : List T) (nbins : Nat) (f : T → Nat) (hN : v.length < index_type_size)
    (hf : ∀ x ∈ v, f x < nbins) :
    ∃ s, build_Serial junk self v.length v nbins f = some s ∧ BinConsistent s nbins := by
  obtain ⟨s, hs, _, hB, _⟩ := build_Serial_spec junk self v nbins f hN hf
  exact ⟨s, hs, hB.binConsistent⟩

theorem build_Serial_bin_consistent_witness :
    scenarioKeys.length < index_type_size ∧ (∀ x ∈ scenarioKeys, scenarioMapper x < 2) ∧
    ∃ s, build_Serial (fun _ => 0) freshEngine 4 scenarioKeys 2 scenarioMapper = some s ∧
      BinConsistent s 2 :=
  ⟨by decide, by decide,
    build_Serial_bin_consistent (fun _ => 0) freshEngine scenarioKeys 2 scenarioMapper
      (by decide) (by decide)⟩

/-- C3. Sequential backend, offsets shape: after `build(Serial, N, v, nbins, f)` with
`f(v[i]) < nbins` for all `i`, `offsets` has length `nbins+1`, `offsets[0] = 0`,
`offsets[nbins] = N`, `offsets[b] <= offsets[b+1]` for every `b < nbins`, and the bin sizes
`offsets[b+1]-offsets[b]` summed over the bins equal `N = offsets[nbins]-offsets[0]`. -/
theorem build_Serial_offsets_shape {T : Type} (junk : Nat → Nat) (self : DenseBins T)
    (v : List T) (nbins : Nat) (f : T → Nat) (hN : v.length < index_type_size)
    (hf : ∀ x ∈ v, f x < nbins) :
    ∃ s, build_Serial junk self v.length v nbins f = some s ∧
      OffsetsShape s.m_offsets nbins v.length := by
  obtain ⟨s, hs, _, hB, _⟩ := build_Serial_spec junk self v nbins f hN hf
  exact ⟨s, hs, binsOf_length v f ▸ hB.offsetsShape (binsOf_lt v f nbins hf)⟩

theorem build_Serial_offsets_shape_witness :
    scenarioKeys.length < index_type_size ∧ (∀ x ∈ scenarioKeys, scenarioMapper x < 2) ∧
    ∃ s, build_Serial (fun _ => 0) freshEngine 4 scenarioKeys 2 scenarioMapper = some s ∧
      OffsetsShape s.m_offsets 2 4 :=
  ⟨by decide, by decide,
    build_Serial_offsets_shape (fun _ => 0) freshEngine scenarioKeys 2 scenarioMapper
      (by decide) (by decide)⟩

/-- C4. Offsets are the exclusive prefix sum of the per-bin counts: after
`build(Serial, N, v, nbins, f)` with `f(v[i]) < nbins` for all `i` (`nbins` in the range of
`index_type`), for every `k <= nbins`, `offsets[k]` is the number of items whose mapper
value is below `k`; so the size `offsets[b+1]-offsets[b]` of bin `b` is the number of
items whose mapper value is `b`, and it is `0` exactly when no item maps to `b`. -/
theorem build_Serial_offsets_prefix_sum {T : Type} (junk : Nat → Nat) (self : DenseBins T)
    (v : List T) (nbins : Nat) (f : T → Nat) (hN : v.length < index_type_size)
    (hM : nbins ≤ index_type_size) (hf : ∀ x ∈ v, f x < nbins) :
    ∃ s, build_Serial junk self v.length v nbins f = some s ∧
      (∀ k, k ≤ nbins → s.m_offsets[k]? = some (v.countP (fun x => decide (f x < k)))) ∧
      (∀ b, b < nbins → s.m_offsets.getD (b + 1) 0 - s.m_offsets.getD b 0 =
        v.countP (fun x => decide (f x = b))) ∧
      (∀ b, b < nbins → (s.m_offsets.getD (b + 1) 0 - s.m_offsets.getD b 0 = 0 ↔
        ∀ x ∈ v, f x ≠ b)) := by
  obtain ⟨s, hs, _, hB, _⟩ := build_Serial_spec junk self v nbins f hN hf
  have hsize : ∀ b, b < nbins → s.m_offsets.getD (b + 1) 0 - s.m_offsets.getD b 0 =
      v.countP (fun x => decide (f x = b)) := by
    intro b hb
    rw [hB.offsets_getD (le_of_lt hb), hB.offsets_getD hb, binStart_succ,
      count_binsOf v f nbins hM hf]
    omega
  refine ⟨s, hs, ?_, hsize, ?_⟩
  · intro k hk
    rw [hB.offsets_getElem? hk, binStart_binsOf v f nbins hM hf]
  · intro b hb
    rw [hsize b hb, List.countP_eq_zero]
    simp

theorem build_Serial_offsets_prefix_sum_witness :
    scenarioKeys.length < index_type_size ∧ 2 ≤ index_type_size ∧
    (∀ x ∈ scenarioKeys, scenarioMapper x < 2) ∧
    ∃ s, build_Serial (fun _ => 0) freshEngine 4 scenarioKeys 2 scenarioMapper = some s ∧
      (∀ k, k ≤ 2 →
        s.m_offsets[k]? = some (scenarioKeys.countP (fun x => decide (scenarioMapper x < k)))) ∧
      (∀ b, b < 2 → s.m_offsets.getD (b + 1) 0 - s.m_offsets.getD b 0 =
        scenarioKeys.countP (fun x => decide (scenarioMapper x = b))) ∧
      (∀ b, b < 2 → (s.m_offsets.getD (b + 1) 0 - s.m_offsets.getD b 0 = 0 ↔
        ∀ x ∈ scenarioKeys, scenarioMapper x ≠ b)) :=
  ⟨by decide, by decide, by decide,
    build_Serial_offsets_prefix_sum (fun _ => 0) freshEngine scenarioKeys 2 scenarioMapper
      (by decide) (by decide) (by decide)⟩

/-- C5. Sequential backend, stability: after `build(Serial, N, v, nbins, f)` with
`f(v[i]) < nbins` for all `i`, for every bin `b < nbins` the sequence
`permutation[offsets[b]], ..., permutation[offsets[b+1]-1]` is strictly increasing. -/
theorem build_Serial_stable {T : Type} (junk : Nat → Nat) (self : DenseBins T)
    (v : List T) (nbins : Nat) (f : T → Nat) (hN : v.length < index_type_size)
    (hf : ∀ x ∈ v, f x < nbins) :
    ∃ s, build_Serial junk self v.length v nbins f = some s ∧ RunsIncreasing s nbins := by
  obtain ⟨s, hs, _, hB, _⟩ := build_Serial_spec junk self v nbins f hN hf
  exact ⟨s, hs, hB.runsIncreasing⟩

theorem build_Serial_stable_witness :
    scenarioKeys.length < index_type_size ∧ (∀ x ∈ scenarioKeys, scenarioMapper x < 2) ∧
    ∃ s, build_Serial (fun _ => 0) freshEngine 4 scenarioKeys 2 scenarioMapper = some s ∧
      RunsIncreasing s 2 :=
  ⟨by decide, by decide,
    build_Serial_stable (fun _ => 0) freshEngine scenarioKeys 2 scenarioMapper
      (by decide) (by decide)⟩

/-! ## Worker-Parallel backend: the build invariants -/

theorem binsOf_eq_map {T : Type} (v : List T) (f : T → Nat) (M : Nat)
    (hM : M ≤ index_type_size) (hf : ∀ x ∈ v, f x < M) : binsOf v f = v.map f := by
  unfold binsOf
  apply List.map_congr_left
  intro x hx
  exact to_index_type_eq (lt_of_lt_of_le (hf x hx) hM)

/-- C13. Massively-Parallel set-equivalence: for every order in which the tasks of the
two kernels take effect and every valid input, the GPU build returns the same bins and
offsets arrays as the Sequential build, and for every bin `b` the slots
`[offsets[b], offsets[b+1])` of its permutation hold the same set of item indices as the
Sequential build's (the two runs are rearrangements of each other). -/
theorem build_GPU_set_equivalent {T : Type} (junk junk' : Nat → Nat)
    (hist_order scatter_order : List Nat) (self self' : DenseBins T) (v : List T)
    (nbins : Nat) (f : T → Nat) (hN : v.length < index_type_size)
    (hf : ∀ x ∈ v, f x < nbins) (hh : hist_order.Perm (List.range v.length))
    (hsc : scatter_order.Perm (List.range v.length)) :
    ∃ g s, build_GPU junk hist_order scatter_order self v.length v nbins f = some g ∧
      build_Serial junk' self' v.length v nbins f = some s ∧
      g.m_bins = s.m_bins ∧ g.m_offsets = s.m_offsets ∧
      ∀ b, b < nbins → ∃ lo hi, s.m_offsets[b]? = some lo ∧ s.m_offsets[b + 1]? = some hi ∧
        (∀ j, inRun g.m_perm lo hi j ↔ inRun s.m_perm lo hi j) ∧
        ((g.m_perm.drop lo).take (hi - lo)).Perm ((s.m_perm.drop lo).take (hi - lo)) := by
  obtain ⟨g, hg, _, hG, _⟩ := build_GPU_spec junk hist_order scatter_order self v nbins f
    hh hsc hN hf
  obtain ⟨s, hs, _, hB, _⟩ := build_Serial_spec junk' self' v nbins f hN hf
  refine ⟨g, s, hg, hs, by rw [hG.bins, hB.bins], by rw [hG.offsets, hB.offsets], ?_⟩
  intro b hb
  refine ⟨_, _, hB.offsets_getElem? (le_of_lt hb), hB.offsets_getElem? hb, ?_, ?_⟩
  · intro j
    unfold inRun
    rw [hG.run_mem b j, hB.grouped.run_mem b j]
  · exact (hG.run_perm b).trans (hB.grouped.run_perm b).symm

theorem build_GPU_set_equivalent_witness :
    scenarioKeys.length < index_type_size ∧ (∀ x ∈ scenarioKeys, scenarioMapper x < 2) ∧
    scenarioOrder.Perm (List.range scenarioKeys.length) ∧
    ∃ g s, build_GPU (fun _ => 7) scenarioOrder scenarioOrder freshEngine 4 scenarioKeys 2
        scenarioMapper = some g ∧
      build_Serial (fun _ => 0) freshEngine 4 scenarioKeys 2 scenarioMapper = some s ∧
      g.m_bins = s.m_bins ∧ g.m_offsets = s.m_offsets ∧
      ∀ b, b < 2 → ∃ lo hi, s.m_offsets[b]? = some lo ∧ s.m_offsets[b + 1]? = some hi ∧
        (∀ j, inRun g.m_perm lo hi j ↔ inRun s.m_perm lo hi j) ∧
        ((g.m_perm.drop lo).take (hi - lo)).Perm ((s.m_perm.drop lo).take (hi - lo)) :=
  ⟨by decide, by decide, by decide,
    build_GPU_set_equivalent (fun _ => 7) (fun _ => 0) scenarioOrder scenarioOrder freshEngine
      freshEngine scenarioKeys 2 scenarioMapper (by decide) (by decide) (by decide)
      (by decide)⟩

/-- C14. Massively-Parallel permutation validity: for every order in which the tasks'
atomic increments take effect, every item array and every valid mapper, every task's
item ends in a slot below `N` that no other item shares, so the permutation written by
the GPU build is a bijection on `[0,N)`. -/
theorem build_GPU_permutation_valid {T : Type} (junk : Nat → Nat)
    (hist_order scatter_order : List Nat) (self : DenseBins T) (v : List T) (nbins : Nat)
    (f : T → Nat) (hN : v.length < index_type_size) (hf : ∀ x ∈ v, f x < nbins)
    (hh : hist_order.Perm (List.range v.length))
    (hsc : scatter_order.Perm (List.range v.length)) :
    ∃ s, build_GPU junk hist_order scatter_order self v.length v nbins f = some s ∧
      PermutationValid s.m_perm v.length ∧
      ∀ i, i < v.length → ∃ p, (p < v.length ∧ s.m_perm[p]? = some i) ∧
        ∀ q, s.m_perm[q]? = some i → q = p := by
  have hl := binsOf_length v f
  obtain ⟨s, hs, _, hG, _⟩ := build_GPU_spec junk hist_order scatter_order self v nbins f
    hh hsc hN hf
  refine ⟨s, hs, hl ▸ hG.valid_permutation, ?_⟩
  intro i hi
  have h := hG.unique_slot (show i < (binsOf v f).length by rw [hl]; exact hi)
  rw [hl] at h
  exact h

theorem build_GPU_permutation_valid_witness :
    scenarioKeys.length < index_type_size ∧ (∀ x ∈ scenarioKeys, scenarioMapper x < 2) ∧
    scenarioOrder.Perm (List.range scenarioKeys.length) ∧
    ∃ s, build_GPU (fun _ => 0) scenarioOrder scenarioOrder freshEngine 4 scenarioKeys 2
        scenarioMapper = some s ∧
      PermutationValid s.m_perm 4 ∧
      ∀ i, i < 4 → ∃ p, (p < 4 ∧ s.m_perm[p]? = some i) ∧
        ∀ q, s.m_perm[q]? = some i → q = p :=
  ⟨by decide, by decide, by decide,
    build_GPU_permutation_valid (fun _ => 0) scenarioOrder scenarioOrder freshEngine
      scenarioKeys 2 scenarioMapper (by decide) (by decide) (by decide) (by decide)⟩

/-- C15. Massively-Parallel order is not deterministic: there are an input and two orders
of the scatter tasks for which the GPU build leaves different permutation arrays: for
the keys `[0,5,2,9]` with two bins the order `0,1,2,3` gives `[0,2,1,3]` and the order
`2,3,0,1` gives `[2,0,3,1]`, while bins and offsets coincide. -/
theorem build_GPU_order_dependent :
    ∃ (v : List Nat) (nbins : Nat) (f : Nat → Nat) (order order' : List Nat) (s s' : DenseBins Nat),
      order.Perm (List.range v.length) ∧ order'.Perm (List.range v.length) ∧
      build_GPU (fun _ => 0) (List.range v.length) order freshEngine v.length v nbins f =
        some s ∧
      build_GPU (fun _ => 0) (List.range v.length) order' freshEngine v.length v nbins f =
        some s' ∧
      s.m_perm = [0, 2, 1, 3] ∧ s'.m_perm = [2, 0, 3, 1] ∧ s.m_perm ≠ s'.m_perm ∧
      s.m_bins = s'.m_bins ∧ s.m_offsets = s'.m_offsets :=
  ⟨scenarioKeys, 2, scenarioMapper, [0, 1, 2, 3], scenarioOrder,
    { m_items := scenarioKeys, m_bins := [0, 1, 0, 1], m_counts := [2, 4, 4],
      m_offsets := [0, 2, 4], m_perm := [0, 2, 1, 3] },
    { m_items := scenarioKeys, m_bins := [0, 1, 0, 1], m_counts := [2, 4, 4],
      m_offsets := [0, 2, 4], m_perm := [2, 0, 3, 1] },
    by decide, by decide, by rfl, by rfl, rfl, rfl, by decide, rfl, rfl⟩

/-! ## Policies -/

/-- C16. GPU policy without a GPU executes in serial: when `ParallelFor` is the host loop
`i = 0, ..., nitems-1` and the atomic add and increment are plain read-modify-writes,
`build(GPU, nitems, v, nbins, f)` has the same outcome as `build(Serial, nitems, v, nbins,
f)` on every input, the bins, offsets, counts and permutation arrays included; on a valid
input that outcome is a built engine. -/
theorem build_GPU_without_gpu {T : Type} (junk : Nat → Nat) (self : DenseBins T)
    (nitems : Nat) (v : List T) (nbins : Nat) (f : T → Nat) :
    build_GPU junk (List.range nitems) (List.range nitems) self nitems v nbins f =
      build_Serial junk self nitems v nbins f ∧
    (v.length < index_type_size → (∀ x ∈ v, f x < nbins) →
      ∃ s, build_Serial junk self v.length v nbins f = some s ∧
        build_GPU junk (List.range v.length) (List.range v.length) self v.length v nbins f =
          some s) := by
  refine ⟨build_GPU_host junk self nitems v nbins f, ?_⟩
  intro hN hf
  obtain ⟨s, hs, _⟩ := build_Serial_spec junk self v nbins f hN hf
  exact ⟨s, hs, by rw [build_GPU_host]; exact hs⟩

theorem build_GPU_without_gpu_witness :
    ∃ s, build_Serial (fun _ => 0) freshEngine scenarioKeys.length scenarioKeys 2
        scenarioMapper = some s ∧
      build_GPU (fun _ => 0) (List.range scenarioKeys.length)
        (List.range scenarioKeys.length) freshEngine scenarioKeys.length scenarioKeys 2
        scenarioMapper = some s :=
  (build_GPU_without_gpu (fun _ => 0) freshEngine 4 scenarioKeys 2 scenarioMapper).2
    (by decide) (by decide)

/-- C17. Default policy without a GPU: when `AMREX_USE_GPU` is not defined the overloads
without a policy, `build(N, v, nbins, f)` and `build(N, v, bx, f)`, dispatch to the OpenMP
policy and return exactly the bins, offsets and permutation arrays of the Serial-policy
build on the same arguments, whatever the number `W >= 1` of OpenMP threads; for the
`Box` overload, when the box has positive extents and its number of cells plus one fits
the `int nbins` parameter (`bx.numPts() < INT_MAX`). -/
theorem build_default_without_gpu {T : Type} (junk junk' : Nat → Nat)
    (hist_order scatter_order : List Nat) (W : Nat) (self self' : DenseBins T) (v : List T)
    (nbins : Nat) (f : T → Nat) (bx : Box) (g : T → Dim3) (hW : 1 ≤ W)
    (hN : v.length ≤ INT_MAX) (hMW : nbins * W ≤ INT_MAX)
    (hf : ∀ x ∈ v, f x < nbins) (hx : 0 < bx.nx) (hy : 0 < bx.ny) (hz : 0 < bx.nz)
    (hP : bx.numPts < INT_MAX) (hPW : bx.numPts * W ≤ INT_MAX) :
    (∃ s t, build_Serial junk self v.length v nbins f = some s ∧
      build_default false junk' hist_order scatter_order W self' v.length v nbins f =
        some t ∧
      t.m_bins = s.m_bins ∧ t.m_offsets = s.m_offsets ∧ t.m_perm = s.m_perm) ∧
    (∃ s t, build_Serial_Box junk self v.length v bx g = some s ∧
      build_default_Box false junk' hist_order scatter_order W self' v.length v bx g =
        some t ∧
      t.m_bins = s.m_bins ∧ t.m_offsets = s.m_offsets ∧ t.m_perm = s.m_perm) := by
  have hI := INT_MAX_lt
  have hN' : v.length < index_type_size := by omega
  constructor
  · obtain ⟨s, hs, _, hBs, _⟩ := build_Serial_spec junk self v nbins f hN' hf
    obtain ⟨t, ht, _, hBt, _⟩ := build_OpenMP_spec junk' W self' v nbins f hW hN'
      (by omega) hf
    exact ⟨s, t, hs, ht, by rw [hBt.bins, hBs.bins], by rw [hBt.offsets, hBs.offsets],
      hBt.perm_unique hBs⟩
  · have hg := boxBin_valid bx g v hx hy hz
    obtain ⟨s, hs, _, hBs, _⟩ := build_Serial_spec junk self v bx.numPts
      (boxBin_Serial bx g) hN' hg
    obtain ⟨t, ht, _, hBt, _⟩ := build_OpenMP_spec junk' W self' v bx.numPts
      (boxBin_Serial bx g) hW hN' (by omega) hg
    refine ⟨s, t, by rw [build_Serial_Box_eq _ _ _ _ _ _ hP]; exact hs, ?_,
      by rw [hBt.bins, hBs.bins], by rw [hBt.offsets, hBs.offsets], hBt.perm_unique hBs⟩
    show build_OpenMP_Box junk' W self' v.length v bx g = some t
    rw [build_OpenMP_Box_eq _ _ _ _ _ _ _ hP]
    exact ht

theorem build_default_without_gpu_witness :
    1 ≤ 3 ∧ scenarioKeys.length ≤ INT_MAX ∧ 2 * 3 ≤ INT_MAX ∧
    (∀ x ∈ scenarioKeys, scenarioMapper x < 2) ∧
    0 < scenarioBox.nx ∧ 0 < scenarioBox.ny ∧ 0 < scenarioBox.nz ∧
    scenarioBox.numPts < INT_MAX ∧ scenarioBox.numPts * 3 ≤ INT_MAX ∧
    (∃ s t, build_Serial (fun _ => 0) freshEngine 4 scenarioKeys 2 scenarioMapper = some s ∧
      build_default false (fun _ => 7) [] [] 3 freshEngine 4 scenarioKeys 2 scenarioMapper =
        some t ∧
      t.m_bins = s.m_bins ∧ t.m_offsets = s.m_offsets ∧ t.m_perm = s.m_perm) ∧
    (∃ s t, build_Serial_Box (fun _ => 0) freshEngine 4 scenarioKeys scenarioBox
        scenarioCell = some s ∧
      build_default_Box false (fun _ => 7) [] [] 3 freshEngine 4 scenarioKeys scenarioBox
        scenarioCell = some t ∧
      t.m_bins = s.m_bins ∧ t.m_offsets = s.m_offsets ∧ t.m_perm = s.m_perm) :=
  ⟨by decide, by decide, by decide, by decide, by decide, by decide, by decide, by decide,
    by decide,
    build_default_without_gpu (fun _ => 0) (fun _ => 7) [] [] 3 freshEngine freshEngine
      scenarioKeys 2 scenarioMapper scenarioBox scenarioCell (by decide) (by decide)
      (by decide) (by decide) (by decide) (by decide) (by decide) (by decide)
      (by decide)⟩

/-- C17, as stated for every box, fails: for the box of `65536 x 65536 x 1 = 2^32` cells,
whose cell count converts to `int nbins = 0`, and one item in cell `(0,0,0)`, the
Serial-policy build returns bins `[0]`, offsets `[0]` and permutation `[0]`, while the
build without a policy, which is the OpenMP build, indexes its empty local array and
returns nothing, for one thread and for three. -/
theorem build_default_without_gpu_counterexample :
    0 < wideBox.nx ∧ 0 < wideBox.ny ∧ 0 < wideBox.nz ∧ wideBox.numPts = 2 ^ 32 ∧
    (∃ s, build_Serial_Box (fun _ => 0) freshEngine 1 [0] wideBox (fun _ => ⟨0, 0, 0⟩) =
        some s ∧ s.m_bins = [0] ∧ s.m_offsets = [0] ∧ s.m_perm = [0]) ∧
    build_default_Box false (fun _ => 0) [] [] 1 freshEngine 1 [0] wideBox
      (fun _ => ⟨0, 0, 0⟩) = none ∧
    build_default_Box false (fun _ => 0) [] [] 3 freshEngine 1 [0] wideBox
      (fun _ => ⟨0, 0, 0⟩) = none ∧
    ¬ ∃ s t, build_Serial_Box (fun _ => 0) freshEngine 1 [0] wideBox (fun _ => ⟨0, 0, 0⟩) =
        some s ∧
      build_default_Box false (fun _ => 0) [] [] 1 freshEngine 1 [0] wideBox
        (fun _ => ⟨0, 0, 0⟩) = some t ∧
      t.m_bins = s.m_bins ∧ t.m_offsets = s.m_offsets ∧ t.m_perm = s.m_perm := by
  have h1 : build_default_Box false (fun _ => 0) [] [] 1 freshEngine 1 [0] wideBox
      (fun _ => ⟨0, 0, 0⟩) = none := rfl
  refine ⟨by decide, by decide, by decide, by decide,
    ⟨⟨[0], [0], [1], [0], [0]⟩, rfl, rfl, rfl, rfl⟩, h1, rfl, ?_⟩
  rintro ⟨s, t, _, ht, _⟩
  rw [h1] at ht
  cases ht

/-! ## Degenerate cases and the concrete scenario -/

theorem binStart_nil (k : Nat) : binStart [] k = 0 := rfl

theorem map_binStart_nil (n : Nat) :
    (List.range n).map (binStart []) = List.replicate n 0 := by
  apply List.ext_getElem?
  intro k
  by_cases hk : k < n
  · simp [List.getElem?_range hk, List.getElem?_replicate, hk, binStart_nil]
  · rw [List.getElem?_eq_none (by simp; omega), List.getElem?_eq_none (by simp; omega)]

/-- The arrays of an engine that groups no items: all offsets `0`, no bins, no slots. -/
theorem Grouped.empty {T : Type} {M : Nat} {s : DenseBins T} (hG : Grouped [] M s) :
    s.m_offsets = List.replicate (M + 1) 0 ∧ s.m_bins = [] ∧ s.m_perm = [] := by
  refine ⟨by rw [hG.offsets, map_binStart_nil], hG.bins, ?_⟩
  have := hG.length_perm
  exact List.length_eq_zero.1 this

/-- C18. Empty build: for every backend (Serial, OpenMP with any `W >= 1`, GPU) and every
number of bins, `build` with `N = 0` returns and leaves an offsets array of length
`nbins+1` with every entry `0`, an empty bins array and an empty permutation. -/
theorem build_empty {T : Type} (junk : Nat → Nat) (W : Nat) (self : DenseBins T)
    (nbins : Nat) (f : T → Nat) (hW : 1 ≤ W) (hMW : nbins * W < index_type_size) :
    (∃ s, build_Serial junk self 0 [] nbins f = some s ∧
      s.m_offsets = List.replicate (nbins + 1) 0 ∧ s.m_bins = [] ∧ s.m_perm = []) ∧
    (∃ s, build_OpenMP junk W self 0 [] nbins f = some s ∧
      s.m_offsets = List.replicate (nbins + 1) 0 ∧ s.m_bins = [] ∧ s.m_perm = []) ∧
    (∃ s, build_GPU junk [] [] self 0 [] nbins f = some s ∧
      s.m_offsets = List.replicate (nbins + 1) 0 ∧ s.m_bins = [] ∧ s.m_perm = []) := by
  have hN : ([] : List T).length < index_type_size := by
    unfold index_type_size; simp
  have hf : ∀ x ∈ ([] : List T), f x < nbins := by intro x hx; simp at hx
  obtain ⟨s, hs, _, hB, _⟩ := build_Serial_spec junk self [] nbins f hN hf
  obtain ⟨t, ht, _, hB', _⟩ := build_OpenMP_spec junk W self [] nbins f hW hN hMW hf
  obtain ⟨g, hg, _, hG, _⟩ := build_GPU_spec junk [] [] self [] nbins f
    (List.Perm.refl _) (List.Perm.refl _) hN hf
  exact ⟨⟨s, hs, hB.grouped.empty⟩, ⟨t, ht, hB'.grouped.empty⟩, ⟨g, hg, hG.empty⟩⟩

theorem build_empty_witness :
    1 ≤ 3 ∧ 2 * 3 < index_type_size ∧
    (∃ s, build_Serial (fun _ => 7) freshEngine 0 [] 2 scenarioMapper = some s ∧
      s.m_offsets = List.replicate (2 + 1) 0 ∧ s.m_bins = [] ∧ s.m_perm = []) ∧
    (∃ s, build_OpenMP (fun _ => 7) 3 freshEngine 0 [] 2 scenarioMapper = some s ∧
      s.m_offsets = List.replicate (2 + 1) 0 ∧ s.m_bins = [] ∧ s.m_perm = []) ∧
    (∃ s, build_GPU (fun _ => 7) [] [] freshEngine 0 [] 2 scenarioMapper = some s ∧
      s.m_offsets = List.replicate (2 + 1) 0 ∧ s.m_bins = [] ∧ s.m_perm = []) :=
  ⟨by decide, by decide,
    build_empty (fun _ => 7) 3 freshEngine 2 scenarioMapper (by decide) (by decide)⟩

/-- The permutation of a `Binned` engine is the list that holds every item at its rank. -/
theorem Binned.perm_eq_of {T : Type} {bs : List Nat} {M : Nat} {s : DenseBins T}
    (hB : Binned bs M s) (ref : List Nat) (hlen : ref.length = bs.length)
    (href : ∀ j, j < bs.length → ref[rank bs j]? = some j) : s.m_perm = ref := by
  have hR : Binned bs M ({ s with m_perm := ref } : DenseBins T) :=
    ⟨hB.bins, hB.offsets, hlen, href⟩
  exact hB.perm_unique hR

/-- The arrays of the stable counting sort of the scenario. -/
theorem Binned.scenario {T : Type} {s : DenseBins T}
    (hB : Binned (binsOf scenarioKeys scenarioMapper) 2 s) :
    s.m_bins = [0, 1, 0, 1] ∧ s.m_offsets = [0, 2, 4] ∧ s.m_perm = [0, 2, 1, 3] := by
  refine ⟨?_, ?_, ?_⟩
  · rw [hB.bins]; decide
  · rw [hB.offsets]; decide
  · exact hB.perm_eq_of [0, 2, 1, 3] (by decide) (by decide)

/-- C20. Concrete scenario: for the four items with keys `[0, 5, 2, 9]`, two bins and the
mapper `key < 5 -> 0 else 1`, the Sequential build and the Worker-Parallel build, for
every `W >= 1`, leave `bins = [0,1,0,1]`, `offsets = [0,2,4]` and
`permutation = [0,2,1,3]`, whatever the engine held before. -/
theorem build_scenario (junk : Nat → Nat) (W : Nat) (self : DenseBins Nat) (hW : 1 ≤ W)
    (hWr : 2 * W < index_type_size) :
    (∃ s, build_Serial junk self 4 scenarioKeys 2 scenarioMapper = some s ∧
      s.m_bins = [0, 1, 0, 1] ∧ s.m_offsets = [0, 2, 4] ∧ s.m_perm = [0, 2, 1, 3]) ∧
    (∃ s, build_OpenMP junk W self 4 scenarioKeys 2 scenarioMapper = some s ∧
      s.m_bins = [0, 1, 0, 1] ∧ s.m_offsets = [0, 2, 4] ∧ s.m_perm = [0, 2, 1, 3]) := by
  have hN : scenarioKeys.length < index_type_size := by decide
  have hf : ∀ x ∈ scenarioKeys, scenarioMapper x < 2 := by decide
  obtain ⟨s, hs, _, hB, _⟩ := build_Serial_spec junk self scenarioKeys 2 scenarioMapper hN hf
  obtain ⟨t, ht, _, hB', _⟩ := build_OpenMP_spec junk W self scenarioKeys 2 scenarioMapper
    hW hN hWr hf
  exact ⟨⟨s, hs, hB.scenario⟩, ⟨t, ht, hB'.scenario⟩⟩

theorem build_scenario_witness :
    1 ≤ 5 ∧ 2 * 5 < index_type_size ∧
    (∃ s, build_Serial (fun _ => 7) freshEngine 4 scenarioKeys 2 scenarioMapper = some s ∧
      s.m_bins = [0, 1, 0, 1] ∧ s.m_offsets = [0, 2, 4] ∧ s.m_perm = [0, 2, 1, 3]) ∧
    (∃ s, build_OpenMP (fun _ => 7) 5 freshEngine 4 scenarioKeys 2 scenarioMapper = some s ∧
      s.m_bins = [0, 1, 0, 1] ∧ s.m_offsets = [0, 2, 4] ∧ s.m_perm = [0, 2, 1, 3]) :=
  ⟨by decide, by decide, build_scenario (fun _ => 7) 5 freshEngine (by decide) (by decide)⟩

/-! ## The `Box` adapter and the `Box` overloads -/

/-- C21. Box adapter clamps then flattens: for a box with extents `nx, ny, nz >= 1` (and
fewer than `2^32` cells, as when `bx.numPts()` fits the `int nbins` parameter) and every
coordinate triple `(x,y,z)` returned by the caller's mapper, the adapter returns
`((cx*ny)+cy)*nz+cz` with `c = min(extent-1, max(0, coordinate))` per component; so an
out-of-range coordinate is not rejected and gets the bin id of the nearest in-range cell
(`x < 0` behaves as `0`, `x >= nx` as `nx-1`), in-range coordinates give
`((x*ny)+y)*nz+z`, and the adapters of the three policies compute the same value. -/
theorem boxBin_clamps_then_flattens {T : Type} (bx : Box) (f : T → Dim3) (t : T)
    (hx : 0 < bx.nx) (hy : 0 < bx.ny) (hz : 0 < bx.nz) (hP : bx.numPts < index_type_size) :
    ((boxBin_Serial bx f t : Nat) : Int) =
      (clampCoord bx.nx (f t).x * bx.ny + clampCoord bx.ny (f t).y) * bx.nz +
        clampCoord bx.nz (f t).z ∧
    bx.inRange ⟨clampCoord bx.nx (f t).x, clampCoord bx.ny (f t).y,
      clampCoord bx.nz (f t).z⟩ ∧
    boxBin_Serial bx f t = boxBin_Serial bx (fun c : Dim3 => c)
      ⟨clampCoord bx.nx (f t).x, clampCoord bx.ny (f t).y, clampCoord bx.nz (f t).z⟩ ∧
    ((f t).x < 0 → boxBin_Serial bx f t =
      boxBin_Serial bx (fun c : Dim3 => c) ⟨0, (f t).y, (f t).z⟩) ∧
    (bx.nx ≤ (f t).x → boxBin_Serial bx f t =
      boxBin_Serial bx (fun c : Dim3 => c) ⟨bx.nx - 1, (f t).y, (f t).z⟩) ∧
    (bx.inRange (f t) → ((boxBin_Serial bx f t : Nat) : Int) =
      ((f t).x * bx.ny + (f t).y) * bx.nz + (f t).z) ∧
    boxBin_OpenMP bx f t = boxBin_Serial bx f t ∧
    boxBin_GPU bx f t = boxBin_Serial bx f t := by
  have hexact := boxBin_Serial_exact bx f t hx hy hz hP
  refine ⟨hexact, ?_, ?_, ?_, ?_, ?_, rfl, rfl⟩
  · unfold Box.inRange clampCoord
    simp only []
    omega
  · exact boxBin_Serial_congr bx f (fun c : Dim3 => c) t _
      (clampCoord_idem _ _ hx).symm (clampCoord_idem _ _ hy).symm
      (clampCoord_idem _ _ hz).symm
  · intro hneg
    exact boxBin_Serial_congr bx f (fun c : Dim3 => c) t _ (clampCoord_neg _ _ hneg) rfl rfl
  · intro hbig
    exact boxBin_Serial_congr bx f (fun c : Dim3 => c) t _ (clampCoord_big _ _ hx hbig)
      rfl rfl
  · intro hin
    obtain ⟨a1, a2, b1, b2, c1, c2⟩ := hin
    rw [hexact, clampCoord_of_inRange _ _ a1 a2, clampCoord_of_inRange _ _ b1 b2,
      clampCoord_of_inRange _ _ c1 c2]

theorem boxBin_clamps_then_flattens_witness :
    0 < sampleBox.nx ∧ 0 < sampleBox.ny ∧ 0 < sampleBox.nz ∧
    sampleBox.numPts < index_type_size ∧
    ((boxBin_Serial sampleBox (fun c : Dim3 => c) ⟨-1, 7, 3⟩ : Nat) : Int) =
      (clampCoord sampleBox.nx (-1) * sampleBox.ny + clampCoord sampleBox.ny 7) *
        sampleBox.nz + clampCoord sampleBox.nz 3 ∧
    sampleBox.inRange ⟨clampCoord sampleBox.nx (-1), clampCoord sampleBox.ny 7,
      clampCoord sampleBox.nz 3⟩ ∧
    boxBin_Serial sampleBox (fun c : Dim3 => c) ⟨-1, 7, 3⟩ =
      boxBin_Serial sampleBox (fun c : Dim3 => c)
        ⟨clampCoord sampleBox.nx (-1), clampCoord sampleBox.ny 7, clampCoord sampleBox.nz 3⟩ ∧
    ((-1 : Int) < 0 → boxBin_Serial sampleBox (fun c : Dim3 => c) ⟨-1, 7, 3⟩ =
      boxBin_Serial sampleBox (fun c : Dim3 => c) ⟨0, 7, 3⟩) ∧
    (sampleBox.nx ≤ -1 → boxBin_Serial sampleBox (fun c : Dim3 => c) ⟨-1, 7, 3⟩ =
      boxBin_Serial sampleBox (fun c : Dim3 => c) ⟨sampleBox.nx - 1, 7, 3⟩) ∧
    (sampleBox.inRange ⟨-1, 7, 3⟩ →
      ((boxBin_Serial sampleBox (fun c : Dim3 => c) ⟨-1, 7, 3⟩ : Nat) : Int) =
        ((-1 : Int) * sampleBox.ny + 7) * sampleBox.nz + 3) ∧
    boxBin_OpenMP sampleBox (fun c : Dim3 => c) ⟨-1, 7, 3⟩ =
      boxBin_Serial sampleBox (fun c : Dim3 => c) ⟨-1, 7, 3⟩ ∧
    boxBin_GPU sampleBox (fun c : Dim3 => c) ⟨-1, 7, 3⟩ =
      boxBin_Serial sampleBox (fun c : Dim3 => c) ⟨-1, 7, 3⟩ :=
  ⟨by decide, by decide, by decide, by decide,
    boxBin_clamps_then_flattens sampleBox (fun c : Dim3 => c) ⟨-1, 7, 3⟩
      (by decide) (by decide) (by decide) (by decide)⟩

/-- C22. Box overload yields valid bin ids: for every box with extents `nx, ny, nz >= 1`
and every caller mapper, also one that returns coordinates far outside
the box or negative, the id computed by the adapter of each policy is below
`bx.numPts() = nx*ny*nz`; and when the number of cells plus one fits the `int nbins`
parameter (`bx.numPts() < INT_MAX`), `build(policy, N, v, bx, f)` returns for each policy
(OpenMP with any `W >= 1`, GPU with any order of its tasks), every `bins[i]` is below
`bx.numPts()` and the four build invariants hold, with no precondition on the mapper. -/
theorem build_Box_valid {T : Type} (junk : Nat → Nat) (self : DenseBins T) (v : List T)
    (bx : Box) (g : T → Dim3) (hx : 0 < bx.nx) (hy : 0 < bx.ny) (hz : 0 < bx.nz) :
    (bx.numPts : Int) = bx.nx * bx.ny * bx.nz ∧
    (∀ t, boxBin_Serial bx g t < bx.numPts ∧ boxBin_OpenMP bx g t < bx.numPts ∧
      boxBin_GPU bx g t < bx.numPts) ∧
    (bx.numPts < INT_MAX → v.length ≤ INT_MAX →
      (∃ s, build_Serial_Box junk self v.length v bx g = some s ∧
        BuildInvariants s v.length bx.numPts) ∧
      (∀ hist_order scatter_order : List Nat, hist_order.Perm (List.range v.length) →
        scatter_order.Perm (List.range v.length) →
        ∃ s, build_GPU_Box junk hist_order scatter_order self v.length v bx g = some s ∧
          BuildInvariants s v.length bx.numPts) ∧
      (∀ W, 1 ≤ W → bx.numPts * W ≤ INT_MAX →
        ∃ s, build_OpenMP_Box junk W self v.length v bx g = some s ∧
          BuildInvariants s v.length bx.numPts)) := by
  have hI := INT_MAX_lt
  have hg := boxBin_valid bx g v hx hy hz
  have hb := binsOf_lt v (boxBin_Serial bx g) bx.numPts hg
  have hl := binsOf_length v (boxBin_Serial bx g)
  refine ⟨bx.numPts_cast hx hy hz, ?_, ?_⟩
  · intro t
    exact ⟨boxBin_Serial_lt_numPts bx g t hx hy hz, boxBin_Serial_lt_numPts bx g t hx hy hz,
      boxBin_Serial_lt_numPts bx g t hx hy hz⟩
  · intro hP hN
    have hN' : v.length < index_type_size := by omega
    refine ⟨?_, ?_, ?_⟩
    · obtain ⟨s, hs, _, hB, _⟩ := build_Serial_spec junk self v bx.numPts
        (boxBin_Serial bx g) hN' hg
      exact ⟨s, by rw [build_Serial_Box_eq _ _ _ _ _ _ hP]; exact hs,
        hl ▸ hB.grouped.invariants hb⟩
    · intro hist_order scatter_order hh hsc
      obtain ⟨s, hs, _, hG, _⟩ := build_GPU_spec junk hist_order scatter_order self v
        bx.numPts (boxBin_Serial bx g) hh hsc hN' hg
      exact ⟨s, by rw [build_GPU_Box_eq _ _ _ _ _ _ _ _ hP]; exact hs,
        hl ▸ hG.invariants hb⟩
    · intro W hW hPW
      obtain ⟨s, hs, _, hB, _⟩ := build_OpenMP_spec junk W self v bx.numPts
        (boxBin_Serial bx g) hW hN' (by omega) hg
      exact ⟨s, by rw [build_OpenMP_Box_eq _ _ _ _ _ _ _ hP]; exact hs,
        hl ▸ hB.grouped.invariants hb⟩

theorem build_Box_valid_witness :
    0 < scenarioBox.nx ∧ 0 < scenarioBox.ny ∧ 0 < scenarioBox.nz ∧
    scenarioBox.numPts < INT_MAX ∧ scenarioKeys.length ≤ INT_MAX ∧
    scenarioOrder.Perm (List.range scenarioKeys.length) ∧
    scenarioBox.numPts * 3 ≤ INT_MAX ∧
    (∀ t, boxBin_Serial scenarioBox scenarioFarCell t < scenarioBox.numPts ∧
      boxBin_OpenMP scenarioBox scenarioFarCell t < scenarioBox.numPts ∧
      boxBin_GPU scenarioBox scenarioFarCell t < scenarioBox.numPts) ∧
    (∃ s, build_Serial_Box (fun _ => 0) freshEngine scenarioKeys.length scenarioKeys
        scenarioBox scenarioFarCell = some s ∧
      BuildInvariants s scenarioKeys.length scenarioBox.numPts) ∧
    (∃ s, build_GPU_Box (fun _ => 0) scenarioOrder scenarioOrder freshEngine
        scenarioKeys.length scenarioKeys scenarioBox scenarioFarCell = some s ∧
      BuildInvariants s scenarioKeys.length scenarioBox.numPts) ∧
    (∃ s, build_OpenMP_Box (fun _ => 0) 3 freshEngine scenarioKeys.length scenarioKeys
        scenarioBox scenarioFarCell = some s ∧
      BuildInvariants s scenarioKeys.length scenarioBox.numPts) := by
  obtain ⟨_, h2, h3⟩ := build_Box_valid (fun _ => 0) freshEngine scenarioKeys scenarioBox
    scenarioFarCell (by decide) (by decide) (by decide)
  obtain ⟨h4, h5, h6⟩ := h3 (by decide) (by decide)
  exact ⟨by decide, by decide, by decide, by decide, by decide, by decide, by decide, h2, h4,
    h5 scenarioOrder scenarioOrder (by decide) (by decide), h6 3 (by decide) (by decide)⟩

/-- C22, as stated for every box, fails. For the box of `65536 x 65536 x 1 = 2^32`
cells the cell count converts to `int nbins = 0`: with one item in cell `(0,0,0)` the
Serial-policy build returns with an offsets array of one entry, not `bx.numPts()+1`, so
the build invariants do not hold. For the box of `65536 x 65536 x 2 = 2^33` cells, also
`nbins = 0`, and one item in cell `(65535,65535,1)` the adapter's id is `2^32 - 1` and
the build indexes its one-entry `m_counts` out of bounds. -/
theorem build_Box_valid_counterexample :
    0 < wideBox.nx ∧ 0 < wideBox.ny ∧ 0 < wideBox.nz ∧ wideBox.numPts = 2 ^ 32 ∧
    (∃ s, build_Serial_Box (fun _ => 0) freshEngine 1 [0] wideBox (fun _ => ⟨0, 0, 0⟩) =
        some s ∧ s.m_offsets = [0] ∧ ¬ BuildInvariants s 1 wideBox.numPts) ∧
    0 < deepBox.nx ∧ 0 < deepBox.ny ∧ 0 < deepBox.nz ∧ deepBox.numPts = 2 ^ 33 ∧
    boxBin_Serial deepBox (fun _ : Nat => (⟨65535, 65535, 1⟩ : Dim3)) 0 = 2 ^ 32 - 1 ∧
    build_Serial_Box (fun _ => 0) freshEngine 1 [0] deepBox (fun _ => ⟨65535, 65535, 1⟩) =
      none ∧
    ¬ ∃ s, build_Serial_Box (fun _ => 0) freshEngine 1 [0] deepBox
        (fun _ => ⟨65535, 65535, 1⟩) = some s ∧ BuildInvariants s 1 deepBox.numPts := by
  have h1 : build_Serial_Box (fun _ => 0) freshEngine 1 [0] deepBox
      (fun _ => ⟨65535, 65535, 1⟩) = none := rfl
  refine ⟨by decide, by decide, by decide, by decide,
    ⟨⟨[0], [0], [1], [0], [0]⟩, rfl, rfl, ?_⟩, by decide, by decide, by decide, by decide,
    by decide, h1, ?_⟩
  · intro h
    exact absurd h.1.1 (by decide)
  · rintro ⟨s, hs, _⟩
    rw [h1] at hs
    cases hs

/-- C30. Box adapter is a bijection on in-range cells: for a box with extents
`nx, ny, nz >= 1` (and fewer than `2^32` cells) the adapter, which maps an in-range cell
`(x,y,z)` to `(x*ny+y)*nz+z`, is injective on the cells with `0 <= x < nx`,
`0 <= y < ny`, `0 <= z < nz` and onto `[0, nx*ny*nz)`: distinct cells never share a bin,
and every bin id below `bx.numPts()` is the id of exactly one cell. -/
theorem boxBin_bijective_on_cells (bx : Box) (hx : 0 < bx.nx) (hy : 0 < bx.ny)
    (hz : 0 < bx.nz) (hP : bx.numPts < index_type_size) :
    (bx.numPts : Int) = bx.nx * bx.ny * bx.nz ∧
    (∀ c, bx.inRange c → boxBin_Serial bx (fun c : Dim3 => c) c < bx.numPts ∧
      ((boxBin_Serial bx (fun c : Dim3 => c) c : Nat) : Int) =
        (c.x * bx.ny + c.y) * bx.nz + c.z) ∧
    (∀ c d, bx.inRange c → bx.inRange d →
      boxBin_Serial bx (fun c : Dim3 => c) c = boxBin_Serial bx (fun c : Dim3 => c) d →
        c = d) ∧
    (∀ n, n < bx.numPts → ∃ c, (bx.inRange c ∧ boxBin_Serial bx (fun c : Dim3 => c) c = n) ∧
      ∀ d, bx.inRange d → boxBin_Serial bx (fun c : Dim3 => c) d = n → d = c) := by
  have hinj : ∀ c d, bx.inRange c → bx.inRange d →
      boxBin_Serial bx (fun c : Dim3 => c) c = boxBin_Serial bx (fun c : Dim3 => c) d →
        c = d := by
    intro c d hc hd h
    obtain ⟨c1, c2, c3, c4, c5, c6⟩ := hc
    obtain ⟨d1, d2, d3, d4, d5, d6⟩ := hd
    obtain ⟨NX, NY, NZ, a, b, e, h1, h2, h3, ha, hb, he, e1, e2, e3, _, e4⟩ :=
      boxBin_Serial_cast bx (fun c : Dim3 => c) c hx hy hz hP
    obtain ⟨NX', NY', NZ', a', b', e', h1', h2', h3', ha', hb', he', e1', e2', e3', _, e4'⟩ :=
      boxBin_Serial_cast bx (fun c : Dim3 => c) d hx hy hz hP
    have hNY : NY' = NY := by omega
    have hNZ : NZ' = NZ := by omega
    subst hNY hNZ
    rw [e4, e4'] at h
    obtain ⟨k1, k2, k3⟩ := flatten_inj hb hb' he he' h
    rw [clampCoord_of_inRange _ _ c1 c2] at e1
    rw [clampCoord_of_inRange _ _ c3 c4] at e2
    rw [clampCoord_of_inRange _ _ c5 c6] at e3
    rw [clampCoord_of_inRange _ _ d1 d2] at e1'
    rw [clampCoord_of_inRange _ _ d3 d4] at e2'
    rw [clampCoord_of_inRange _ _ d5 d6] at e3'
    apply Dim3.eq_of
    · rw [e1, e1', k1]
    · rw [e2, e2', k2]
    · rw [e3, e3', k3]
  refine ⟨bx.numPts_cast hx hy hz, ?_, hinj, ?_⟩
  · intro c hc
    obtain ⟨c1, c2, c3, c4, c5, c6⟩ := hc
    refine ⟨boxBin_Serial_lt_numPts bx _ c hx hy hz, ?_⟩
    rw [boxBin_Serial_exact bx _ c hx hy hz hP, clampCoord_of_inRange _ _ c1 c2,
      clampCoord_of_inRange _ _ c3 c4, clampCoord_of_inRange _ _ c5 c6]
  · intro n hn
    obtain ⟨NX, NY, NZ, _, _, _, h1, h2, h3, _, _, _, _, _, _, hnum, _⟩ :=
      boxBin_Serial_cast bx (fun c : Dim3 => c) ⟨0, 0, 0⟩ hx hy hz hP
    obtain ⟨a, b, e, ha, hb, he, hval⟩ := flatten_surj (show 0 < NY by omega)
      (show 0 < NZ by omega) (show n < NX * NY * NZ by rw [← hnum]; exact hn)
    have hin : bx.inRange ⟨(a : Int), (b : Int), (e : Int)⟩ := by
      unfold Box.inRange
      simp only []
      omega
    have hid : boxBin_Serial bx (fun c : Dim3 => c) ⟨(a : Int), (b : Int), (e : Int)⟩ = n := by
      have h := boxBin_Serial_exact bx (fun c : Dim3 => c) ⟨(a : Int), (b : Int), (e : Int)⟩
        hx hy hz hP
      obtain ⟨c1, c2, c3, c4, c5, c6⟩ := hin
      simp only [] at c1 c2 c3 c4 c5 c6
      simp only [] at h
      rw [clampCoord_of_inRange _ _ c1 c2, clampCoord_of_inRange _ _ c3 c4,
        clampCoord_of_inRange _ _ c5 c6, h2, h3] at h
      have h' : ((boxBin_Serial bx (fun c : Dim3 => c) ⟨(a : Int), (b : Int), (e : Int)⟩ :
          Nat) : Int) = (((a * NY + b) * NZ + e : Nat) : Int) := by
        rw [h]; push_cast; rfl
      rw [← hval]
      exact Int.ofNat_inj.1 h'
    refine ⟨⟨(a : Int), (b : Int), (e : Int)⟩, ⟨hin, hid⟩, ?_⟩
    intro d hd hdn
    exact hinj d _ hd hin (hdn.trans hid.symm)

theorem boxBin_bijective_on_cells_witness :
    0 < sampleBox.nx ∧ 0 < sampleBox.ny ∧ 0 < sampleBox.nz ∧
    sampleBox.numPts < index_type_size ∧
    (sampleBox.numPts : Int) = sampleBox.nx * sampleBox.ny * sampleBox.nz ∧
    (∀ c, sampleBox.inRange c →
      boxBin_Serial sampleBox (fun c : Dim3 => c) c < sampleBox.numPts ∧
      ((boxBin_Serial sampleBox (fun c : Dim3 => c) c : Nat) : Int) =
        (c.x * sampleBox.ny + c.y) * sampleBox.nz + c.z) ∧
    (∀ c d, sampleBox.inRange c → sampleBox.inRange d →
      boxBin_Serial sampleBox (fun c : Dim3 => c) c =
        boxBin_Serial sampleBox (fun c : Dim3 => c) d → c = d) ∧
    (∀ n, n < sampleBox.numPts →
      ∃ c, (sampleBox.inRange c ∧ boxBin_Serial sampleBox (fun c : Dim3 => c) c = n) ∧
        ∀ d, sampleBox.inRange d → boxBin_Serial sampleBox (fun c : Dim3 => c) d = n →
          d = c) :=
  ⟨by decide, by decide, by decide, by decide,
    boxBin_bijective_on_cells sampleBox (by decide) (by decide) (by decide) (by decide)⟩

/-! ## Sizes and rebuilds -/

/-- C23. Size accessors: after `build(policy, N, v, nbins, f)` by any backend (OpenMP with
any `W >= 1`, GPU with any order of its tasks) with a valid mapper, `numItems()` returns
`N` and `numBins()` returns `nbins`; the permutation and bins arrays have length `N` and
the offsets array has length `nbins+1`. For the `Box` overloads the same holds with
`nbins = bx.numPts() = nx*ny*nz`, whatever the mapper, when the number of cells plus one
fits the `int nbins` parameter (`bx.numPts() < INT_MAX`). -/
theorem build_sizes {T : Type} (junk : Nat → Nat) (W : Nat)
    (hist_order scatter_order : List Nat) (self : DenseBins T) (v : List T) (nbins : Nat)
    (f : T → Nat) (bx : Box) (g : T → Dim3) (hW : 1 ≤ W) (hN : v.length ≤ INT_MAX)
    (hMW : nbins * W ≤ INT_MAX) (hf : ∀ x ∈ v, f x < nbins)
    (hh : hist_order.Perm (List.range v.length))
    (hsc : scatter_order.Perm (List.range v.length)) (hx : 0 < bx.nx) (hy : 0 < bx.ny)
    (hz : 0 < bx.nz) (hP : bx.numPts < INT_MAX) (hPW : bx.numPts * W ≤ INT_MAX) :
    (∃ s, build_Serial junk self v.length v nbins f = some s ∧ Sized s v.length nbins) ∧
    (∃ s, build_OpenMP junk W self v.length v nbins f = some s ∧ Sized s v.length nbins) ∧
    (∃ s, build_GPU junk hist_order scatter_order self v.length v nbins f = some s ∧
      Sized s v.length nbins) ∧
    (bx.numPts : Int) = bx.nx * bx.ny * bx.nz ∧
    (∃ s, build_Serial_Box junk self v.length v bx g = some s ∧
      Sized s v.length bx.numPts) ∧
    (∃ s, build_OpenMP_Box junk W self v.length v bx g = some s ∧
      Sized s v.length bx.numPts) ∧
    (∃ s, build_GPU_Box junk hist_order scatter_order self v.length v bx g = some s ∧
      Sized s v.length bx.numPts) := by
  have hI := INT_MAX_lt
  have hN' : v.length < index_type_size := by omega
  have hl := binsOf_length v f
  have hg := boxBin_valid bx g v hx hy hz
  have hl' := binsOf_length v (boxBin_Serial bx g)
  obtain ⟨s1, hs1, _, hB1, _⟩ := build_Serial_spec junk self v nbins f hN' hf
  obtain ⟨s2, hs2, _, hB2, _⟩ := build_OpenMP_spec junk W self v nbins f hW hN'
    (by omega) hf
  obtain ⟨s3, hs3, _, hG3, _⟩ := build_GPU_spec junk hist_order scatter_order self v nbins f
    hh hsc hN' hf
  obtain ⟨s4, hs4, _, hB4, _⟩ := build_Serial_spec junk self v bx.numPts
    (boxBin_Serial bx g) hN' hg
  obtain ⟨s5, hs5, _, hB5, _⟩ := build_OpenMP_spec junk W self v bx.numPts
    (boxBin_Serial bx g) hW hN' (by omega) hg
  obtain ⟨s6, hs6, _, hG6, _⟩ := build_GPU_spec junk hist_order scatter_order self v
    bx.numPts (boxBin_Serial bx g) hh hsc hN' hg
  rw [← build_Serial_Box_eq _ _ _ _ _ _ hP] at hs4
  rw [← build_OpenMP_Box_eq _ _ _ _ _ _ _ hP] at hs5
  rw [← build_GPU_Box_eq _ _ _ _ _ _ _ _ hP] at hs6
  exact ⟨⟨s1, hs1, hl ▸ hB1.grouped.sized⟩, ⟨s2, hs2, hl ▸ hB2.grouped.sized⟩,
    ⟨s3, hs3, hl ▸ hG3.sized⟩, bx.numPts_cast hx hy hz,
    ⟨s4, hs4, hl' ▸ hB4.grouped.sized⟩, ⟨s5, hs5, hl' ▸ hB5.grouped.sized⟩,
    ⟨s6, hs6, hl' ▸ hG6.sized⟩⟩

theorem build_sizes_witness :
    1 ≤ 3 ∧ scenarioKeys.length ≤ INT_MAX ∧ 2 * 3 ≤ INT_MAX ∧
    (∀ x ∈ scenarioKeys, scenarioMapper x < 2) ∧
    scenarioOrder.Perm (List.range scenarioKeys.length) ∧
    0 < scenarioBox.nx ∧ 0 < scenarioBox.ny ∧ 0 < scenarioBox.nz ∧
    scenarioBox.numPts < INT_MAX ∧ scenarioBox.numPts * 3 ≤ INT_MAX ∧
    (∃ s, build_Serial (fun _ => 0) freshEngine scenarioKeys.length scenarioKeys 2
        scenarioMapper = some s ∧ Sized s scenarioKeys.length 2) ∧
    (∃ s, build_OpenMP (fun _ => 0) 3 freshEngine scenarioKeys.length scenarioKeys 2
        scenarioMapper = some s ∧ Sized s scenarioKeys.length 2) ∧
    (∃ s, build_GPU (fun _ => 0) scenarioOrder scenarioOrder freshEngine
        scenarioKeys.length scenarioKeys 2 scenarioMapper = some s ∧
      Sized s scenarioKeys.length 2) ∧
    (scenarioBox.numPts : Int) = scenarioBox.nx * scenarioBox.ny * scenarioBox.nz ∧
    (∃ s, build_Serial_Box (fun _ => 0) freshEngine scenarioKeys.length scenarioKeys
        scenarioBox scenarioCell = some s ∧ Sized s scenarioKeys.length scenarioBox.numPts) ∧
    (∃ s, build_OpenMP_Box (fun _ => 0) 3 freshEngine scenarioKeys.length scenarioKeys
        scenarioBox scenarioCell = some s ∧ Sized s scenarioKeys.length scenarioBox.numPts) ∧
    (∃ s, build_GPU_Box (fun _ => 0) scenarioOrder scenarioOrder freshEngine
        scenarioKeys.length scenarioKeys scenarioBox scenarioCell = some s ∧
      Sized s scenarioKeys.length scenarioBox.numPts) :=
  ⟨by decide, by decide, by decide, by decide, by decide, by decide, by decide, by decide,
    by decide, by decide,
    build_sizes (fun _ => 0) 3 scenarioOrder scenarioOrder freshEngine scenarioKeys 2
      scenarioMapper scenarioBox scenarioCell (by decide) (by decide) (by decide)
      (by decide) (by decide) (by decide) (by decide) (by decide) (by decide) (by decide)
      (by decide)⟩

/-- C23, as stated for every box, fails: for the box of `65537 x 65535 x 1 = 2^32 - 1`
cells, whose cell count converts to `int nbins = -1`, and no items, the Serial-policy
and the GPU-policy builds return with an empty offsets array, so `numBins()` returns
`-1`, not `nx*ny*nz`, and the offsets array has `0` entries, not `nx*ny*nz + 1`. -/
theorem build_sizes_counterexample :
    0 < oddBox.nx ∧ 0 < oddBox.ny ∧ 0 < oddBox.nz ∧
    oddBox.nx * oddBox.ny * oddBox.nz = 2 ^ 32 - 1 ∧ oddBox.numPts = 2 ^ 32 - 1 ∧
    long_to_int (oddBox.numPts : Int) = -1 ∧
    (∃ s, build_Serial_Box (fun _ => 0) freshEngine 0 ([] : List Nat) oddBox
        (fun _ => ⟨0, 0, 0⟩) = some s ∧
      s.numBins = -1 ∧ s.m_offsets.length = 0 ∧ ¬ Sized s 0 oddBox.numPts) ∧
    (∃ s, build_GPU_Box (fun _ => 0) [] [] freshEngine 0 ([] : List Nat) oddBox
        (fun _ => ⟨0, 0, 0⟩) = some s ∧
      s.numBins = -1 ∧ s.m_offsets.length = 0 ∧ ¬ Sized s 0 oddBox.numPts) := by
  refine ⟨by decide, by decide, by decide, by decide, by decide, by decide,
    ⟨⟨[], [], [], [], []⟩, rfl, by decide, rfl, ?_⟩,
    ⟨⟨[], [], [], [], []⟩, rfl, by decide, rfl, ?_⟩⟩
  · intro h
    exact absurd h.2.1 (by decide)
  · intro h
    exact absurd h.2.1 (by decide)

/-- C28. Worker-Parallel scatter writes are disjoint: with `start(j,b)` the cursor
`counts[M*j+b]` before the scatter pass and `c(j,b)` the number of items of chunk `j` in
bin `b`, the slot ranges `[start(j,b), start(j,b)+c(j,b))` for `j < W`, `b < M` lie in
`[0,N)`, are pairwise disjoint and cover `[0,N)`; the scatter pass returns, every
write of a worker `j` for an item of bin `b` goes to a slot of the range of `(j,b)`,
no two writes go to the same slot, and every slot of `[0,N)` is written exactly
once. The writes are read off the permutation array around each scatter step: the
array after a step is the array before it with the item stored at the slot and nothing
else changed, the steps follow one another from the array before the pass, and the
array the build returns is the result of these stores and holds each item at its
slot. -/
theorem ompScatter_writes_disjoint {T : Type} (junk : Nat → Nat) (W : Nat)
    (self : DenseBins T) (v : List T) (nbins : Nat) (f : T → Nat) (hW : 1 ≤ W)
    (hN : v.length ≤ INT_MAX) (hMW : nbins * W ≤ INT_MAX)
    (hf : ∀ x ∈ v, f x < nbins) :
    ∃ (st : OmpState T) (start : Nat → Nat → Nat),
      ompBeforeScatter junk W self v.length v nbins f = some st ∧
      (∀ j b, j < W → b < nbins → st.counts[nbins * j + b]? = some (start j b)) ∧
      (∀ j b, j < W → b < nbins →
        start j b + chunkCount (v.map f) v.length W j b ≤ v.length) ∧
      (∀ j b k c p, j < W → b < nbins → k < W → c < nbins →
        start j b ≤ p → p < start j b + chunkCount (v.map f) v.length W j b →
        start k c ≤ p → p < start k c + chunkCount (v.map f) v.length W k c →
        j = k ∧ b = c) ∧
      (∀ p, p < v.length → ∃ j b, j < W ∧ b < nbins ∧ start j b ≤ p ∧
        p < start j b + chunkCount (v.map f) v.length W j b) ∧
      ∃ st5 log, ompScatterPassLogged v.length W nbins st = some (st5, log) ∧
        ompScatterPass v.length W nbins st = some st5 ∧
        build_OpenMP junk W self v.length v nbins f = some st5.self ∧
        log.map (fun e => e.item) = List.range v.length ∧
        (∀ e ∈ log, ∃ b, (v.map f)[e.item]? = some b ∧ e.worker < W ∧ b < nbins ∧
          e.item ∈ chunkItems v.length W (v.length / W) e.worker ∧
          start e.worker b ≤ e.slot ∧
          e.slot < start e.worker b + chunkCount (v.map f) v.length W e.worker b) ∧
        (∀ e ∈ log, e.permBefore.length = v.length ∧ e.slot < e.permBefore.length ∧
          e.permAfter = e.permBefore.set e.slot e.item) ∧
        (∀ e, log[0]? = some e → e.permBefore = st.self.m_perm) ∧
        (∀ k e e', log[k]? = some e → log[k + 1]? = some e' →
          e'.permBefore = e.permAfter) ∧
        (∀ e, log[v.length - 1]? = some e → e.permAfter = st5.self.m_perm) ∧
        st5.self.m_perm =
          log.foldl (fun perm e => perm.set e.slot e.item) st.self.m_perm ∧
        st5.self.m_perm.length = v.length ∧
        (∀ e ∈ log, st5.self.m_perm[e.slot]? = some e.item) ∧
        (∀ p, p < v.length → ∃ e ∈ log, e.slot = p ∧ st5.self.m_perm[p]? = some e.item ∧
          ∀ e' ∈ log, e'.slot = p → e' = e) ∧
        (log.map (fun e => e.slot)).Perm (List.range v.length) ∧
        ∀ e ∈ log, ∀ e' ∈ log, e.slot = e'.slot → e = e' := by
  have hI := INT_MAX_lt
  have hN' : v.length < index_type_size := by omega
  have hMW' : nbins * W < index_type_size := by omega
  have hM : nbins ≤ index_type_size := by
    have := Nat.le_mul_of_pos_right nbins (show 0 < W by omega)
    omega
  have hbs := binsOf_eq_map v f nbins hM hf
  have hb := binsOf_lt v f nbins hf
  have hl : (v.map f).length = v.length := List.length_map _ _
  obtain ⟨st, hst, _, a2, a3, _, _, _, a7, a8⟩ :=
    ompBeforeScatter_spec junk W self v nbins f hW hN' hMW' hf
  rw [hbs] at a2 a8 hb
  rw [← hl] at a3 hN'
  obtain ⟨st5, log, hlogged, l0, lr, l1, l2⟩ :=
    ompScatterLogged_spec (v.map f) nbins W st hW hN' hMW' hb a2 a3 a7 a8
  have hpass := ompScatterPassLogged_fst _ W nbins st _ hlogged
  obtain ⟨w1, w2, w3, w4, w5, w6, w7, w8⟩ :=
    logged_writes (v.map f) nbins W st.self.m_perm log hb a3 l1 l2
  have hlen : st5.self.m_perm.length = v.length := by
    rw [l0, storesUpTo_length, a3, hl]
  have hat : ∀ e ∈ log, st5.self.m_perm[e.slot]? = some e.item := by
    intro e he
    obtain ⟨k, hk⟩ := List.mem_iff_getElem?.1 he
    have hkl : k < (v.map f).length := by
      rw [List.getElem?_eq_some] at hk
      obtain ⟨h, _⟩ := hk
      omega
    obtain ⟨j, _, _, _, hj⟩ := l2 k hkl
    rw [hk] at hj
    rw [Option.some.inj hj]
    exact lr k hkl
  rw [hl] at hlogged hpass w1 w2 w3 w6 w7 a8
  refine ⟨st, fun j b => binStart (v.map f) b +
    ((v.map f).take (chunkLo v.length W j)).count b, hst, a8, ?_, ?_, ?_, st5, log, hlogged,
    hpass, ?_, w1, w2, w3, w4, w5, ?_, ?_, hlen, hat, ?_, w7, w8⟩
  · intro j b hj _
    have h1 := slot_range_le (v.map f) W hj b
    have h2 := binStart_le_length (v.map f) (b + 1)
    rw [hl] at h1 h2
    show binStart (v.map f) b + ((v.map f).take (chunkLo v.length W j)).count b +
      chunkCount (v.map f) v.length W j b ≤ v.length
    omega
  · intro j b k c p hj _ hk _ h1 h2 h3 h4
    have := @slot_range_unique (v.map f) W j b k c p hj hk
    rw [hl] at this
    exact this h1 h2 h3 h4
  · intro p hp
    have := @slot_range_cover (v.map f) nbins W hW hb p (by rw [hl]; exact hp)
    rw [hl] at this
    exact this
  · rw [ompBeforeScatter_bind, hst]
    simp only [Option.bind, hpass]
  · intro e he
    have hkl : v.length - 1 < (v.map f).length := by
      rw [List.getElem?_eq_some] at he
      obtain ⟨h, _⟩ := he
      omega
    obtain ⟨j, _, _, _, hj⟩ := l2 (v.length - 1) hkl
    rw [he] at hj
    rw [Option.some.inj hj, l0]
    have h1 : v.length - 1 + 1 = (v.map f).length := by omega
    show storesUpTo st.self.m_perm (rank (v.map f)) (v.length - 1 + 1) = _
    rw [h1]
  · rw [l0, w6, hl]
  · intro p hp
    have hmem : p ∈ log.map (fun e => e.slot) := w7.mem_iff.2 (List.mem_range.2 hp)
    obtain ⟨e, he, hep⟩ := List.mem_map.1 hmem
    refine ⟨e, he, hep, ?_, ?_⟩
    · rw [← hep]
      exact hat e he
    · intro e' he' hep'
      exact w8 e' he' e he (by rw [hep', hep])

theorem ompScatter_writes_disjoint_witness :
    1 ≤ 3 ∧ scenarioKeys.length ≤ INT_MAX ∧ 2 * 3 ≤ INT_MAX ∧
    (∀ x ∈ scenarioKeys, scenarioMapper x < 2) ∧
    ∃ (st : OmpState Nat) (start : Nat → Nat → Nat),
      ompBeforeScatter (fun _ => 0) 3 freshEngine scenarioKeys.length
        scenarioKeys 2 scenarioMapper = some st ∧
      (∀ j b, j < 3 → b < 2 → st.counts[2 * j + b]? = some (start j b)) ∧
      (∀ p, p < scenarioKeys.length → ∃ j b, j < 3 ∧ b < 2 ∧ start j b ≤ p ∧
        p < start j b +
          chunkCount (scenarioKeys.map scenarioMapper) scenarioKeys.length 3 j b) ∧
      ∃ st5 log, ompScatterPassLogged scenarioKeys.length 3 2 st = some (st5, log) ∧
        build_OpenMP (fun _ => 0) 3 freshEngine scenarioKeys.length scenarioKeys 2
          scenarioMapper = some st5.self ∧
        (∀ e ∈ log, e.permAfter = e.permBefore.set e.slot e.item) ∧
        st5.self.m_perm =
          log.foldl (fun perm e => perm.set e.slot e.item) st.self.m_perm ∧
        (∀ e ∈ log, st5.self.m_perm[e.slot]? = some e.item) ∧
        (log.map (fun e => e.slot)).Perm (List.range scenarioKeys.length) := by
  refine ⟨by decide, by decide, by decide, by decide, ?_⟩
  obtain ⟨st, start, h1, h2, _, _, h5, st5, log, h6, _, h8, _, _, h11, _, _, _, h15, _, h17,
      _, h19, _⟩ :=
    ompScatter_writes_disjoint (fun _ => 0) 3 freshEngine scenarioKeys 2 scenarioMapper
      (by decide) (by decide) (by decide) (by decide)
  exact ⟨st, start, h1, h2, h5, st5, log, h6, h8, fun e he => (h11 e he).2.2, h15, h17, h19⟩

/-! ## Sequential backend: array accesses -/

/-- C29. Sequential build is in bounds: under the precondition `f(items[i]) < M` for all
`i < N`, `build(Serial, ...)` returns and every array access is within bounds. When the
first loop reaches item `i < N`, `items[i]` and `bins[i]` exist (`bins` has `N`
entries) and the bin id that indexes `counts` is below `M`, `counts` having `M+1`
entries; the scan and the copy return; when the second loop reaches item `i < N`,
`bins[i]` exists and is below `M`, and the slot `counts[bins[i]]` read before the
increment satisfies `offsets[bins[i]] <= slot < offsets[bins[i]+1] <= N`, the
permutation array having `N` entries. -/
theorem build_Serial_in_bounds {T : Type} (junk : Nat → Nat) (self : DenseBins T)
    (v : List T) (nbins : Nat) (f : T → Nat) (hN : v.length < index_type_size)
    (hf : ∀ x ∈ v, f x < nbins) :
    (∃ s, build_Serial junk self v.length v nbins f = some s) ∧
    (∀ i, i < v.length → ∃ si y b,
      (List.range i).foldlM (serialHistStep v f) (serialInit junk self v.length v nbins) =
        some si ∧
      v[i]? = some y ∧ i < si.m_bins.length ∧ si.m_bins.length = v.length ∧
      (si.m_bins.set i (to_index_type (f y)))[i]? = some b ∧ b < nbins ∧
      si.m_counts.length = nbins + 1) ∧
    ∃ s3, serialBeforeScatter junk self v.length v nbins f = some s3 ∧
      build_Serial junk self v.length v nbins f =
        (List.range v.length).foldlM serialScatterStep s3 ∧
      ∀ i, i < v.length → ∃ si b slot o1 o2,
        (List.range i).foldlM serialScatterStep s3 = some si ∧
        si.m_bins.length = v.length ∧ si.m_bins[i]? = some b ∧ b < nbins ∧
        si.m_counts.length = nbins + 1 ∧ si.m_counts[b]? = some slot ∧
        si.m_offsets[b]? = some o1 ∧ si.m_offsets[b + 1]? = some o2 ∧
        o1 ≤ slot ∧ slot < o2 ∧ o2 ≤ v.length ∧ si.m_perm.length = v.length := by
  have hb := binsOf_lt v f nbins hf
  have hb' := binsOf_le v f nbins (fun x hx => le_of_lt (hf x hx))
  have hl := binsOf_length v f
  obtain ⟨s, hs, _⟩ := build_Serial_spec junk self v nbins f hN hf
  refine ⟨⟨s, hs⟩, ?_, ?_⟩
  · intro i hi
    obtain ⟨si, hsi, _, _, _, h4, _, h6, _⟩ := serialHist_upto v f nbins
      (serialInit junk self v.length v nbins) hN hb' (resize_length _ _ _)
      (resize_val_zero _ _ _ _) i (le_of_lt hi)
    have hy : v[i]? = some v[i] := List.getElem?_eq_getElem hi
    refine ⟨si, v[i], to_index_type (f v[i]), hsi, hy, by omega, h4,
      List.getElem?_set_self (by omega), ?_, h6⟩
    exact lt_of_le_of_lt (to_index_type_le _) (hf _ (List.getElem_mem _))
  · obtain ⟨s3, hs3, b1, b2, b3, b4⟩ := serialBeforeScatter_spec junk self v nbins f hN hf
    refine ⟨s3, hs3, ?_, ?_⟩
    · rw [build_Serial_bind, hs3]
      rfl
    · intro i hi
      obtain ⟨si, hsi, hI⟩ := serialScatter_upto (binsOf v f) nbins s3 (by omega) hb' b1 b2
        b4 i (by omega)
      obtain ⟨bid, q1, q2, q3, q4, _⟩ := serialScatterStep_inv (binsOf v f) nbins s3
        (by omega) hb' i si (by omega) hI
      obtain ⟨_, h2, h3, h4, _, h6, _⟩ := hI
      have q5 : bid < nbins := hb bid (List.mem_iff_getElem?.2 ⟨i, q1⟩)
      refine ⟨si, bid, rank (binsOf v f) i, binStart (binsOf v f) bid,
        binStart (binsOf v f) (bid + 1), hsi, by rw [h3, hl], q3, q5, h6, q4, ?_, ?_,
        binStart_le_rank _ q1, rank_lt_next _ q1, ?_, by rw [h4, hl]⟩
      · rw [h2, b3, List.getElem?_map, List.getElem?_range (by omega)]
        rfl
      · rw [h2, b3, List.getElem?_map, List.getElem?_range (by omega)]
        rfl
      · rw [← hl]
        exact binStart_le_length _ _

theorem build_Serial_in_bounds_witness :
    scenarioKeys.length < index_type_size ∧ (∀ x ∈ scenarioKeys, scenarioMapper x < 2) ∧
    (∃ s, build_Serial (fun _ => 0) freshEngine scenarioKeys.length scenarioKeys 2
      scenarioMapper = some s) ∧
    ∃ s3, serialBeforeScatter (fun _ => 0) freshEngine scenarioKeys.length scenarioKeys 2
        scenarioMapper = some s3 ∧
      ∀ i, i < scenarioKeys.length → ∃ si b slot o1 o2,
        (List.range i).foldlM serialScatterStep s3 = some si ∧
        si.m_bins.length = scenarioKeys.length ∧ si.m_bins[i]? = some b ∧ b < 2 ∧
        si.m_counts.length = 2 + 1 ∧ si.m_counts[b]? = some slot ∧
        si.m_offsets[b]? = some o1 ∧ si.m_offsets[b + 1]? = some o2 ∧
        o1 ≤ slot ∧ slot < o2 ∧ o2 ≤ scenarioKeys.length ∧
        si.m_perm.length = scenarioKeys.length := by
  refine ⟨by decide, by decide, ?_⟩
  obtain ⟨h1, _, s3, h3, _, h5⟩ := build_Serial_in_bounds (fun _ => 0) freshEngine
    scenarioKeys 2 scenarioMapper (by decide) (by decide)
  exact ⟨h1, s3, h3, h5⟩

/-! ## The `Box` adapter: lower corner and wrap-around -/

/-- C31. Box adapter ignores the box's lower corner: the bin id depends only on the
extents `hi-lo+1` and on the raw coordinates returned by the mapper; for two boxes with
equal extents and any coordinate triple the ids are equal, for each policy. The raw
coordinates are clamped into `[0, extent-1]` without subtracting `lo` (for a box with
extents `>= 1` and fewer than `2^32` cells): a coordinate at or above its extent gets
the id of the upper edge `extent-1`, and when the triple is an absolute coordinate
inside the box with a component at or above its extent and below `hi`, that id differs
from the id of the cell `c - lo`. -/
theorem boxBin_ignores_lower_corner {T : Type} (bx bx' : Box) (f : T → Dim3) (t : T)
    (hx : bx.nx = bx'.nx) (hy : bx.ny = bx'.ny) (hz : bx.nz = bx'.nz) :
    boxBin_Serial bx f t = boxBin_Serial bx' f t ∧
    boxBin_OpenMP bx f t = boxBin_OpenMP bx' f t ∧
    boxBin_GPU bx f t = boxBin_GPU bx' f t ∧
    (0 < bx.nx → 0 < bx.ny → 0 < bx.nz → bx.numPts < index_type_size →
      ((boxBin_Serial bx f t : Nat) : Int) =
        (clampCoord bx.nx (f t).x * bx.ny + clampCoord bx.ny (f t).y) * bx.nz +
          clampCoord bx.nz (f t).z ∧
      (bx.nx ≤ (f t).x → boxBin_Serial bx f t =
        boxBin_Serial bx (fun c : Dim3 => c) ⟨bx.nx - 1, (f t).y, (f t).z⟩) ∧
      (bx.ny ≤ (f t).y → boxBin_Serial bx f t =
        boxBin_Serial bx (fun c : Dim3 => c) ⟨(f t).x, bx.ny - 1, (f t).z⟩) ∧
      (bx.nz ≤ (f t).z → boxBin_Serial bx f t =
        boxBin_Serial bx (fun c : Dim3 => c) ⟨(f t).x, (f t).y, bx.nz - 1⟩) ∧
      ((lbound bx).x ≤ (f t).x → (f t).x ≤ (ubound bx).x →
        (lbound bx).y ≤ (f t).y → (f t).y ≤ (ubound bx).y →
        (lbound bx).z ≤ (f t).z → (f t).z ≤ (ubound bx).z →
        (bx.nx ≤ (f t).x ∧ (f t).x < (ubound bx).x) ∨
          (bx.ny ≤ (f t).y ∧ (f t).y < (ubound bx).y) ∨
          (bx.nz ≤ (f t).z ∧ (f t).z < (ubound bx).z) →
        boxBin_Serial bx f t ≠ boxBin_Serial bx (fun c : Dim3 => c)
          ⟨(f t).x - (lbound bx).x, (f t).y - (lbound bx).y,
            (f t).z - (lbound bx).z⟩)) := by
  have h := boxBin_Serial_extents bx bx' f t hx hy hz
  refine ⟨h, h, h, ?_⟩
  intro px py pz hP
  refine ⟨boxBin_Serial_exact bx f t px py pz hP, ?_, ?_, ?_, ?_⟩
  · intro hbig
    exact boxBin_Serial_congr bx f (fun c : Dim3 => c) t _ (clampCoord_big _ _ px hbig)
      rfl rfl
  · intro hbig
    exact boxBin_Serial_congr bx f (fun c : Dim3 => c) t _ rfl (clampCoord_big _ _ py hbig)
      rfl
  · intro hbig
    exact boxBin_Serial_congr bx f (fun c : Dim3 => c) t _ rfl rfl
      (clampCoord_big _ _ pz hbig)
  · intro x1 x2 y1 y2 z1 z2 hcase heq
    obtain ⟨hin, hid⟩ := boxBin_Serial_clamped bx f t px py pz
    have hcell : bx.inRange ⟨(f t).x - (lbound bx).x, (f t).y - (lbound bx).y,
        (f t).z - (lbound bx).z⟩ := by
      unfold Box.inRange Box.nx Box.ny Box.nz
      simp only []
      omega
    rw [hid] at heq
    have hc := boxBin_Serial_inj bx px py pz hP hin hcell heq
    have hxc := congrArg Dim3.x hc
    have hyc := congrArg Dim3.y hc
    have hzc := congrArg Dim3.z hc
    simp only [] at hxc hyc hzc
    unfold clampCoord at hxc hyc hzc
    unfold Box.nx at hxc hcase
    unfold Box.ny at hyc hcase
    unfold Box.nz at hzc hcase
    omega

theorem boxBin_ignores_lower_corner_witness :
    scenarioBox.nx = (⟨⟨0, 0, 0⟩, ⟨1, 0, 0⟩⟩ : Box).nx ∧
    scenarioBox.ny = (⟨⟨0, 0, 0⟩, ⟨1, 0, 0⟩⟩ : Box).ny ∧
    scenarioBox.nz = (⟨⟨0, 0, 0⟩, ⟨1, 0, 0⟩⟩ : Box).nz ∧
    boxBin_Serial scenarioBox (fun c : Dim3 => c) ⟨3, 0, 0⟩ =
      boxBin_Serial ⟨⟨0, 0, 0⟩, ⟨1, 0, 0⟩⟩ (fun c : Dim3 => c) ⟨3, 0, 0⟩ ∧
    boxBin_Serial scenarioBox (fun c : Dim3 => c) ⟨3, 0, 0⟩ = 1 ∧
    boxBin_Serial scenarioBox (fun c : Dim3 => c) ⟨3 - 3, 0 - 0, 0 - 0⟩ = 0 ∧
    boxBin_Serial scenarioBox (fun c : Dim3 => c) ⟨3, 0, 0⟩ ≠
      boxBin_Serial scenarioBox (fun c : Dim3 => c) ⟨3 - 3, 0 - 0, 0 - 0⟩ := by
  obtain ⟨h1, _, _, h4⟩ := boxBin_ignores_lower_corner scenarioBox
    ⟨⟨0, 0, 0⟩, ⟨1, 0, 0⟩⟩ (fun c : Dim3 => c) ⟨3, 0, 0⟩ (by decide) (by decide) (by decide)
  obtain ⟨_, _, _, _, h5⟩ := h4 (by decide) (by decide) (by decide) (by decide)
  exact ⟨by decide, by decide, by decide, h1, by decide, by decide,
    h5 (by decide) (by decide) (by decide) (by decide) (by decide) (by decide)
      (Or.inl (by decide))⟩

/-- C32. Box adapter arithmetic does not wrap: for extents `nx, ny, nz >= 1` with
`nx*ny*nz <= 2^31 - 1`, so that `bx.numPts()` fits the `int nbins` parameter, and every
coordinate triple, the conversions of the clamped components and of `ny`, `nz` to
`index_type` keep their values, the intermediate results `uix*ny`, `uix*ny + uiy`,
`(uix*ny + uiy)*nz` and the result `(uix*ny + uiy)*nz + uiz` are below `2^32`, and the
adapter returns the exact integer value: no reduction modulo `2^32` occurs. -/
theorem boxBin_no_wrap {T : Type} (bx : Box) (f : T → Dim3) (t : T) (hx : 0 < bx.nx)
    (hy : 0 < bx.ny) (hz : 0 < bx.nz) (hP : bx.nx * bx.ny * bx.nz ≤ 2 ^ 31 - 1) :
    (bx.numPts : Int) = bx.nx * bx.ny * bx.nz ∧ (bx.numPts : Int) ≤ 2 ^ 31 - 1 ∧
    ((bx.uix (f t) : Nat) : Int) = clampCoord bx.nx (f t).x ∧
    ((bx.uiy (f t) : Nat) : Int) = clampCoord bx.ny (f t).y ∧
    ((bx.uiz (f t) : Nat) : Int) = clampCoord bx.nz (f t).z ∧
    ((int_to_index_type bx.ny : Nat) : Int) = bx.ny ∧
    ((int_to_index_type bx.nz : Nat) : Int) = bx.nz ∧
    bx.uix (f t) * int_to_index_type bx.ny < index_type_size ∧
    bx.uix (f t) * int_to_index_type bx.ny + bx.uiy (f t) < index_type_size ∧
    (bx.uix (f t) * int_to_index_type bx.ny + bx.uiy (f t)) * int_to_index_type bx.nz <
      index_type_size ∧
    (bx.uix (f t) * int_to_index_type bx.ny + bx.uiy (f t)) * int_to_index_type bx.nz +
      bx.uiz (f t) < index_type_size ∧
    boxBin_Serial bx f t =
      (bx.uix (f t) * int_to_index_type bx.ny + bx.uiy (f t)) * int_to_index_type bx.nz +
        bx.uiz (f t) ∧
    ((boxBin_Serial bx f t : Nat) : Int) =
      (clampCoord bx.nx (f t).x * bx.ny + clampCoord bx.ny (f t).y) * bx.nz +
        clampCoord bx.nz (f t).z := by
  have hnum := bx.numPts_cast hx hy hz
  have hle : (bx.numPts : Int) ≤ 2 ^ 31 - 1 := by rw [hnum]; exact hP
  have hlt : bx.numPts < index_type_size := by
    unfold index_type_size
    omega
  obtain ⟨s1, s2, s3, s4, s5, s6, s7, s8, s9, s10⟩ := boxBin_Serial_steps bx f t hx hy hz hlt
  exact ⟨hnum, hle, s1, s2, s3, s4, s5, s6, s7, s8, s9, s10,
    boxBin_Serial_exact bx f t hx hy hz hlt⟩

theorem boxBin_no_wrap_witness :
    0 < sampleBox.nx ∧ 0 < sampleBox.ny ∧ 0 < sampleBox.nz ∧
    sampleBox.nx * sampleBox.ny * sampleBox.nz ≤ 2 ^ 31 - 1 ∧
    sampleBox.uix ⟨-1, 7, 3⟩ * int_to_index_type sampleBox.ny < index_type_size ∧
    boxBin_Serial sampleBox (fun c : Dim3 => c) ⟨-1, 7, 3⟩ =
      (sampleBox.uix ⟨-1, 7, 3⟩ * int_to_index_type sampleBox.ny +
        sampleBox.uiy ⟨-1, 7, 3⟩) * int_to_index_type sampleBox.nz +
        sampleBox.uiz ⟨-1, 7, 3⟩ ∧
    ((boxBin_Serial sampleBox (fun c : Dim3 => c) ⟨-1, 7, 3⟩ : Nat) : Int) =
      (clampCoord sampleBox.nx (-1) * sampleBox.ny + clampCoord sampleBox.ny 7) *
        sampleBox.nz + clampCoord sampleBox.nz 3 := by
  refine ⟨by decide, by decide, by decide, by decide, ?_⟩
  obtain ⟨_, _, _, _, _, _, _, h8, _, _, _, h12, h13⟩ :=
    boxBin_no_wrap sampleBox (fun c : Dim3 => c) ⟨-1, 7, 3⟩ (by decide) (by decide)
      (by decide) (by decide)
  exact ⟨h8, h12, h13⟩

/-! ## Items in bin order, a mapper value equal to the number of bins, and `m_counts` -/

/-- C34. A mapper value of exactly `M` is absorbed by the Sequential build: if `f`
returns `M` for `k >= 1` items and a value below `M` for all others, `build(Serial, ...)`
still returns, all its accesses being in bounds (`counts` has `M+1` slots), and leaves a
permutation that is a bijection on `[0,N)`; but `offsets[M] = N - k`, so the invariant
`offsets[M] = N` fails, and the `k` items are exactly those held by
`permutation[N-k .. N)`, beyond the run of every bin `b < M`. -/
theorem build_Serial_absorbs_bin_M {T : Type} (junk : Nat → Nat) (self : DenseBins T)
    (v : List T) (nbins : Nat) (f : T → Nat) (k : Nat) (hN : v.length < index_type_size)
    (hM : nbins < index_type_size) (hf : ∀ x ∈ v, f x ≤ nbins) (hk : 1 ≤ k)
    (hc : v.countP (fun x => decide (f x = nbins)) = k) :
    ∃ s, build_Serial junk self v.length v nbins f = some s ∧
      s.m_counts.length = nbins + 1 ∧ s.m_bins = v.map f ∧
      PermutationValid s.m_perm v.length ∧ k ≤ v.length ∧
      s.m_offsets[nbins]? = some (v.length - k) ∧ s.m_offsets[nbins]? ≠ some v.length ∧
      ¬ OffsetsShape s.m_offsets nbins v.length ∧
      (∀ p, v.length - k ≤ p → p < v.length →
        ∃ j x, s.m_perm[p]? = some j ∧ v[j]? = some x ∧ f x = nbins) ∧
      (∀ p j x, s.m_perm[p]? = some j → v[j]? = some x → f x = nbins →
        v.length - k ≤ p ∧ p < v.length) ∧
      ∀ b, b < nbins → ∃ lo hi, s.m_offsets[b]? = some lo ∧
        s.m_offsets[b + 1]? = some hi ∧ lo ≤ hi ∧ hi ≤ v.length - k := by
  have hf' : ∀ x ∈ v, f x < nbins + 1 := fun x hx => Nat.lt_succ_of_le (hf x hx)
  have hbs := binsOf_eq_map v f (nbins + 1) (by omega) hf'
  have hcount : (binsOf v f).count nbins = k := by
    rw [count_binsOf v f (nbins + 1) (by omega) hf' nbins, hc]
  have hl := binsOf_length v f
  obtain ⟨s, hs, _, hB, hcl, _⟩ := build_Serial_spec_le junk self v nbins f hN hf
  obtain ⟨a1, a2, a3, a4, a5⟩ := hB.absorbed (binsOf_le v f nbins hf)
  rw [hcount, hl] at a1 a2 a3 a4 a5
  have hne : s.m_offsets[nbins]? ≠ some v.length := by
    rw [a2]
    intro h
    injection h with h
    omega
  refine ⟨s, hs, hcl, by rw [hB.bins, hbs], hl ▸ hB.permutationValid, a1, a2, hne, ?_, ?_, ?_,
    a5⟩
  · intro hshape
    exact hne hshape.2.2.1
  · intro p h1 h2
    obtain ⟨j, hpj, hbj⟩ := a3 p h1 h2
    rw [hbs, List.getElem?_map, Option.map_eq_some'] at hbj
    obtain ⟨x, hx, hfx⟩ := hbj
    exact ⟨j, x, hpj, hx, hfx⟩
  · intro p j x hpj hx hfx
    refine a4 p j hpj ?_
    rw [hbs, List.getElem?_map, hx, ← hfx]
    rfl

theorem build_Serial_absorbs_bin_M_witness :
    scenarioKeys.length < index_type_size ∧ 1 < index_type_size ∧
    (∀ x ∈ scenarioKeys, scenarioMapper x ≤ 1) ∧ 1 ≤ 2 ∧
    scenarioKeys.countP (fun x => decide (scenarioMapper x = 1)) = 2 ∧
    ∃ s, build_Serial (fun _ => 0) freshEngine scenarioKeys.length scenarioKeys 1
        scenarioMapper = some s ∧
      PermutationValid s.m_perm scenarioKeys.length ∧
      s.m_offsets[1]? = some (scenarioKeys.length - 2) ∧
      ¬ OffsetsShape s.m_offsets 1 scenarioKeys.length ∧
      ∀ p, scenarioKeys.length - 2 ≤ p → p < scenarioKeys.length →
        ∃ j x, s.m_perm[p]? = some j ∧ scenarioKeys[j]? = some x ∧ scenarioMapper x = 1 := by
  obtain ⟨s, h1, _, _, h4, _, h6, _, h8, h9, _⟩ :=
    build_Serial_absorbs_bin_M (fun _ => 0) freshEngine scenarioKeys 1 scenarioMapper 2
      (by decide) (by decide) (by decide) (by decide) (by decide)
  exact ⟨by decide, by decide, by decide, by decide, by decide, s, h1, h4, h6, h8, h9⟩

/-- C35. Counts role transitions in the Sequential build: with a valid mapper, after the
first loop `counts[b]` is the number of items of bin `b` for `b < M` and `counts[M] = 0`;
the scan writes into `offsets` the exclusive prefix sums of these counts and the copy
seeds the cursors with them, so before the second loop `counts` equals `offsets`
element-wise; and on return `counts[b] = offsets[b+1]` for every `b < M` and
`counts[M] = N`. -/
theorem build_Serial_counts_roles {T : Type} (junk : Nat → Nat) (self : DenseBins T)
    (v : List T) (nbins : Nat) (f : T → Nat) (hN : v.length < index_type_size)
    (hM : nbins ≤ index_type_size) (hf : ∀ x ∈ v, f x < nbins) :
    ∃ s1 s3 s, serialAfterHist junk self v.length v nbins f = some s1 ∧
      s1.m_counts.length = nbins + 1 ∧
      (∀ b, b < nbins →
        s1.m_counts[b]? = some (v.countP (fun x => decide (f x = b)))) ∧
      s1.m_counts[nbins]? = some 0 ∧
      exclusive_scan s1.m_counts s1.m_offsets = some s3.m_offsets ∧
      copy s3.m_offsets s1.m_counts = some s3.m_counts ∧
      serialBeforeScatter junk self v.length v nbins f = some s3 ∧
      s3.m_counts = s3.m_offsets ∧ s3.m_offsets.length = nbins + 1 ∧
      (∀ k, k ≤ nbins → s3.m_offsets[k]? = some (s1.m_counts.take k).sum ∧
        s3.m_counts[k]? = some (s1.m_counts.take k).sum) ∧
      (List.range v.length).foldlM serialScatterStep s3 = some s ∧
      build_Serial junk self v.length v nbins f = some s ∧
      s.m_offsets = s3.m_offsets ∧
      (∀ b, b < nbins → ∃ o, s.m_offsets[b + 1]? = some o ∧ s.m_counts[b]? = some o) ∧
      s.m_counts[nbins]? = some v.length := by
  have hl := binsOf_length v f
  obtain ⟨s1, s3, s, h1, h2, h3, h4, h5, h6, h7, h8, h9, h10, h11, h12, h13, h14⟩ :=
    serialPasses_spec junk self v nbins f hN hf
  have hoff : ∀ k, k ≤ nbins → s3.m_offsets[k]? = some (s1.m_counts.take k).sum := by
    intro k hk
    rw [h6, List.getElem?_map, List.getElem?_range (by omega), h8 k hk]
    rfl
  refine ⟨s1, s3, s, h1, h2, ?_, ?_, h4, h5, h9, h7, by rw [h6]; simp, ?_, h10, h11, h12,
    ?_, ?_⟩
  · intro b hb
    rw [h3 b (le_of_lt hb), count_binsOf v f nbins hM hf b]
  · rw [h3 nbins (le_refl _)]
    congr 1
    rw [List.count_eq_zero]
    intro hmem
    have := binsOf_lt v f nbins hf nbins hmem
    omega
  · intro k hk
    exact ⟨hoff k hk, by rw [h7]; exact hoff k hk⟩
  · intro b hb
    refine ⟨binStart (binsOf v f) (b + 1), ?_, h14 b (le_of_lt hb)⟩
    rw [h12, h6, List.getElem?_map, List.getElem?_range (by omega)]
    rfl
  · rw [h14 nbins (le_refl _),
      binStart_eq_length (binsOf v f) (nbins + 1)
        (fun b hb => Nat.lt_succ_of_lt (binsOf_lt v f nbins hf b hb)), hl]

theorem build_Serial_counts_roles_witness :
    scenarioKeys.length < index_type_size ∧ 2 ≤ index_type_size ∧
    (∀ x ∈ scenarioKeys, scenarioMapper x < 2) ∧
    ∃ s1 s3 s, serialAfterHist (fun _ => 0) freshEngine scenarioKeys.length scenarioKeys 2
        scenarioMapper = some s1 ∧
      (∀ b, b < 2 →
        s1.m_counts[b]? = some (scenarioKeys.countP (fun x => decide (scenarioMapper x = b)))) ∧
      s1.m_counts[2]? = some 0 ∧
      serialBeforeScatter (fun _ => 0) freshEngine scenarioKeys.length scenarioKeys 2
        scenarioMapper = some s3 ∧
      s3.m_counts = s3.m_offsets ∧
      build_Serial (fun _ => 0) freshEngine scenarioKeys.length scenarioKeys 2
        scenarioMapper = some s ∧
      (∀ b, b < 2 → ∃ o, s.m_offsets[b + 1]? = some o ∧ s.m_counts[b]? = some o) ∧
      s.m_counts[2]? = some scenarioKeys.length := by
  obtain ⟨s1, s3, s, h1, _, h3, h4, _, _, h7, h8, _, _, _, h12, _, h14, h15⟩ :=
    build_Serial_counts_roles (fun _ => 0) freshEngine scenarioKeys 2 scenarioMapper
      (by decide) (by decide) (by decide)
  exact ⟨by decide, by decide, by decide, s1, s3, s, h1, h3, h4, h7, h8, h12, h14, h15⟩
end amrex
